import Mathlib

/-!
# The vident lexer (`lexer.go`)

A shallow embedding of the tokenizer of `lexer.go` and theorems about it.

* A Go `string` is a sequence of bytes: `List Nat`, every element below 256.
* A `rune` and every `int` field is a `Nat` (no value of the lexer is ever
  negative, and every counter is bounded by the input length plus one, far
  below the range of a 64-bit `int`).
* A Go run-time panic (index or slice bound out of range) is the result
  `Res.panic`.
* Every `for` loop of the source is `whileLoop` with an iteration budget; the
  result `Res.outOfFuel` says the budget was used up, and is kept apart from
  `Res.panic`.
* `fmt.Printf` only writes to the console and is left out.
-/

namespace Vident

/-! ## Results -/

/-- Result of running a piece of the lexer: a value, a Go run-time panic, or
the iteration budget of the model used up. -/
inductive Res (α : Type) where
  | ok (a : α) : Res α
  | panic : Res α
  | outOfFuel : Res α
  deriving DecidableEq, Repr

/-! ## Token kinds (`const ( END_OF_FILE = iota ... )`) -/

abbrev END_OF_FILE : Nat := 0
abbrev IDENTIFIER : Nat := 1
abbrev OPERATOR : Nat := 2
abbrev NUMBER : Nat := 3
abbrev STRING : Nat := 4
abbrev CHARACTER : Nat := 5
abbrev SEPARATOR : Nat := 6
abbrev UNKNOWN : Nat := 7

/-! ## Data model -/

/-- The struct `Token`. -/
structure Token where
  token_type : Nat
  content : List Nat
  line_number : Nat
  char_number : Nat
  deriving DecidableEq, Repr

/-- The struct `Lexer`; `token_stream` is the `list.List` of tokens in
`PushBack` order. -/
structure Lexer where
  input : List Nat
  input_length : Nat
  pos : Nat
  line_number : Nat
  char_number : Nat
  start_pos : Nat
  current_char : Nat
  running : Bool
  buffer : List Nat
  skipped_chars : Nat
  char_width : Nat
  token_stream : List Token
  deriving DecidableEq, Repr

/-- The zero value `&Lexer{}` that `main` allocates. -/
def Lexer.zero : Lexer :=
  { input := [], input_length := 0, pos := 0, line_number := 0, char_number := 0,
    start_pos := 0, current_char := 0, running := false, buffer := [],
    skipped_chars := 0, char_width := 0, token_stream := [] }

/-! ## The Go library functions the lexer calls -/

/-- The constant `utf8.RuneError`. -/
abbrev RuneError : Nat := 0xFFFD

/-- Go's `utf8.DecodeRuneInString`: the first rune of `s` and its width in
bytes; `(RuneError, 0)` on the empty string and `(RuneError, 1)` on an invalid
encoding. The second byte of a sequence is checked against the accept range of
its first byte, the later ones against `0x80..0xBF`. -/
def decodeRuneInString (s : List Nat) : Nat × Nat :=
  match s with
  | [] => (RuneError, 0)
  | s0 :: t =>
    if s0 < 0x80 then (s0, 1)
    else if s0 < 0xC2 then (RuneError, 1)
    else if s0 < 0xE0 then
      match t with
      | s1 :: _ =>
        if 0x80 ≤ s1 ∧ s1 ≤ 0xBF then ((s0 % 32) * 64 + s1 % 64, 2) else (RuneError, 1)
      | _ => (RuneError, 1)
    else if s0 < 0xF0 then
      match t with
      | s1 :: s2 :: _ =>
        if (if s0 = 0xE0 then 0xA0 else 0x80) ≤ s1 ∧ s1 ≤ (if s0 = 0xED then 0x9F else 0xBF)
            ∧ 0x80 ≤ s2 ∧ s2 ≤ 0xBF then
          ((s0 % 16) * 4096 + (s1 % 64) * 64 + s2 % 64, 3)
        else (RuneError, 1)
      | _ => (RuneError, 1)
    else if s0 < 0xF5 then
      match t with
      | s1 :: s2 :: s3 :: _ =>
        if (if s0 = 0xF0 then 0x90 else 0x80) ≤ s1 ∧ s1 ≤ (if s0 = 0xF4 then 0x8F else 0xBF)
            ∧ 0x80 ≤ s2 ∧ s2 ≤ 0xBF ∧ 0x80 ≤ s3 ∧ s3 ≤ 0xBF then
          ((s0 % 8) * 262144 + (s1 % 64) * 4096 + (s2 % 64) * 64 + s3 % 64, 4)
        else (RuneError, 1)
      | _ => (RuneError, 1)
    else (RuneError, 1)

/-- Go's conversion `string(r)` of an integer to a string: the UTF-8 encoding
of the code point `r`, and of `RuneError` when `r` is a surrogate or out of
range. -/
def runeToString (r : Nat) : List Nat :=
  if r < 0x80 then [r]
  else if r < 0x800 then [0xC0 + r / 64, 0x80 + r % 64]
  else if (0xD800 ≤ r ∧ r ≤ 0xDFFF) ∨ 0x10FFFF < r then [0xEF, 0xBF, 0xBD]
  else if r < 0x10000 then [0xE0 + r / 4096, 0x80 + (r / 64) % 64, 0x80 + r % 64]
  else [0xF0 + r / 262144, 0x80 + (r / 4096) % 64, 0x80 + (r / 64) % 64, 0x80 + r % 64]

/-- Go's `strings.Contains s sub`: `sub` occurs in `s`. -/
def stringsContains (s sub : List Nat) : Bool :=
  s.tails.any (fun t => sub.isPrefixOf t)

/-- The slice expression `s[i:]`, which panics when `i` is past the end. -/
def sliceFrom (s : List Nat) (i : Nat) : Res (List Nat) :=
  if i ≤ s.length then Res.ok (s.drop i) else Res.panic

/-- The index expression `s[i]`, which panics when `i` is not below the length. -/
def byteAt (s : List Nat) (i : Nat) : Res Nat :=
  match s[i]? with
  | some b => Res.ok b
  | none => Res.panic

/-- The bytes of an ASCII string literal. -/
def ascii (s : String) : List Nat := s.toList.map Char.toNat

/-! ## Loops -/

/-- A Go loop `for cond { body }` run for at most `fuel` iterations. -/
def whileLoop (cond : Lexer → Res Bool) (body : Lexer → Res Lexer) : Nat → Lexer → Res Lexer
  | 0, l =>
    match cond l with
    | Res.ok true => Res.outOfFuel
    | Res.ok false => Res.ok l
    | Res.panic => Res.panic
    | Res.outOfFuel => Res.outOfFuel
  | n + 1, l =>
    match cond l with
    | Res.ok true =>
      match body l with
      | Res.ok l1 => whileLoop cond body n l1
      | Res.panic => Res.panic
      | Res.outOfFuel => Res.outOfFuel
    | Res.ok false => Res.ok l
    | Res.panic => Res.panic
    | Res.outOfFuel => Res.outOfFuel

/-! ## The lexer -/

/-- The method `flushBuffer`: empties the buffer and returns its old value. -/
def flushBuffer (self : Lexer) : List Nat × Lexer :=
  (self.buffer, { self with buffer := [] })

/-- The method `createToken`: appends a token carrying the current line and column. -/
def createToken (self : Lexer) (token_type : Nat) (content : List Nat) : Lexer :=
  { self with
    token_stream := self.token_stream ++
      [{ token_type := token_type, content := content,
         line_number := self.line_number, char_number := self.char_number }] }

/-- The method `peek`: the rune decoded at `pos + ahead`. -/
def peek (self : Lexer) (ahead : Nat) : Res Nat :=
  match sliceFrom self.input (self.pos + ahead) with
  | Res.ok s => Res.ok (decodeRuneInString s).1
  | Res.panic => Res.panic
  | Res.outOfFuel => Res.outOfFuel

/-- The method `createLexer`. -/
def createLexer (self : Lexer) (input : List Nat) : Lexer :=
  { self with
    input := input, pos := 0, input_length := input.length, line_number := 1,
    char_number := 1, start_pos := 0, skipped_chars := 0,
    current_char := (decodeRuneInString input).1,
    char_width := (decodeRuneInString input).2,
    running := true }

/-- The function `isDigit`: a decimal digit. -/
def isDigit (c : Nat) : Bool := 48 ≤ c && c ≤ 57

/-- The function `isLayout`: a code point of at most 32. -/
def isLayout (c : Nat) : Bool := c ≤ 32

/-- The function `isLetter`: an ASCII letter. -/
def isLetter (c : Nat) : Bool := (97 ≤ c && c ≤ 122) || (65 ≤ c && c ≤ 90)

/-- The function `isLetterOrDigit`. -/
def isLetterOrDigit (c : Nat) : Bool := isDigit c || isLetter c

/-- The function `isOperator`: `strings.Contains("+-*/=", string(c))`. -/
def isOperator (c : Nat) : Bool := stringsContains [43, 45, 42, 47, 61] (runeToString c)

/-- The function `isSeparator`: `strings.Contains(",{}()", string(c))`. -/
def isSeparator (c : Nat) : Bool := stringsContains [44, 123, 125, 40, 41] (runeToString c)

/-- The method `consumeCharacter`. The index `input[pos]` is evaluated only for a
non-layout current character; the slice `input[pos:]` after the increment. -/
def consumeCharacter (self : Lexer) : Res Lexer :=
  let self1 : Lexer :=
    if self.pos + self.skipped_chars > self.input_length then { self with running := false }
    else self
  let appended : Res Lexer :=
    if !isLayout self1.current_char then
      match byteAt self1.input self1.pos with
      | Res.ok b => Res.ok { self1 with buffer := self1.buffer ++ runeToString b }
      | Res.panic => Res.panic
      | Res.outOfFuel => Res.outOfFuel
    else Res.ok self1
  match appended with
  | Res.ok self2 =>
    match sliceFrom self2.input (self2.pos + 1) with
    | Res.ok s =>
      Res.ok { self2 with
        pos := self2.pos + 1,
        current_char := (decodeRuneInString s).1,
        char_width := (decodeRuneInString s).2,
        char_number := self2.char_number + 1 }
    | Res.panic => Res.panic
    | Res.outOfFuel => Res.outOfFuel
  | Res.panic => Res.panic
  | Res.outOfFuel => Res.outOfFuel

/-- The loop `for isDigit(self.current_char) { self.consumeCharacter() }`. -/
def digitLoop (fuel : Nat) (self : Lexer) : Res Lexer :=
  whileLoop (fun l => Res.ok (isDigit l.current_char)) consumeCharacter fuel self

/-- The loop `for isLetterOrDigit(self.current_char) { self.consumeCharacter() }`. -/
def letterOrDigitLoop (fuel : Nat) (self : Lexer) : Res Lexer :=
  whileLoop (fun l => Res.ok (isLetterOrDigit l.current_char)) consumeCharacter fuel self

/-- The loop `for isLayout(self.current_char) { self.consumeCharacter() }` of
`skipLayoutAndComments`. -/
def layoutLoop (fuel : Nat) (self : Lexer) : Res Lexer :=
  whileLoop (fun l => Res.ok (isLayout l.current_char)) consumeCharacter fuel self

/-- The method `skipLayoutAndComments`. No function of the repository calls it. -/
def skipLayoutAndComments (fuel : Nat) (self : Lexer) : Res Lexer :=
  match layoutLoop fuel self with
  | Res.ok self1 =>
    if self1.current_char = 35 then
      match consumeCharacter self1 with
      | Res.ok self2 =>
        match whileLoop (fun l => Res.ok (l.current_char != 10)) consumeCharacter fuel self2 with
        | Res.ok self3 => layoutLoop fuel self3
        | Res.panic => Res.panic
        | Res.outOfFuel => Res.outOfFuel
      | Res.panic => Res.panic
      | Res.outOfFuel => Res.outOfFuel
    else Res.ok self1
  | Res.panic => Res.panic
  | Res.outOfFuel => Res.outOfFuel

/-- The body of the `else` loop of `recognizeNumberToken`:
`if self.peek(1) == '.' { consume; for isDigit { consume } }; consume`. -/
def numberLoopBody (fuel : Nat) (self : Lexer) : Res Lexer :=
  match peek self 1 with
  | Res.ok p =>
    if p = 46 then
      match consumeCharacter self with
      | Res.ok self1 =>
        match digitLoop fuel self1 with
        | Res.ok self2 => consumeCharacter self2
        | Res.panic => Res.panic
        | Res.outOfFuel => Res.outOfFuel
      | Res.panic => Res.panic
      | Res.outOfFuel => Res.outOfFuel
    else consumeCharacter self
  | Res.panic => Res.panic
  | Res.outOfFuel => Res.outOfFuel

/-- The method `recognizeNumberToken`. -/
def recognizeNumberToken (fuel : Nat) (self : Lexer) : Res Lexer :=
  match consumeCharacter self with
  | Res.ok self1 =>
    let scanned : Res Lexer :=
      if self1.current_char = 46 then
        match consumeCharacter self1 with
        | Res.ok self2 => digitLoop fuel self2
        | Res.panic => Res.panic
        | Res.outOfFuel => Res.outOfFuel
      else
        whileLoop (fun l => Res.ok (isDigit l.current_char)) (numberLoopBody fuel) fuel self1
    match scanned with
    | Res.ok self3 => Res.ok (createToken (flushBuffer self3).2 NUMBER (flushBuffer self3).1)
    | Res.panic => Res.panic
    | Res.outOfFuel => Res.outOfFuel
  | Res.panic => Res.panic
  | Res.outOfFuel => Res.outOfFuel

/-- The condition `self.current_char == '_' && isLetterOrDigit(self.peek(1))`
of the second loop of `recognizeIdentifierToken`; `&&` evaluates `peek` only
when the current character is an underscore. -/
def underscoreCond (self : Lexer) : Res Bool :=
  if self.current_char = 95 then
    match peek self 1 with
    | Res.ok p => Res.ok (isLetterOrDigit p)
    | Res.panic => Res.panic
    | Res.outOfFuel => Res.outOfFuel
  else Res.ok false

/-- The body of the second loop of `recognizeIdentifierToken`. -/
def underscoreBody (fuel : Nat) (self : Lexer) : Res Lexer :=
  match consumeCharacter self with
  | Res.ok self1 => letterOrDigitLoop fuel self1
  | Res.panic => Res.panic
  | Res.outOfFuel => Res.outOfFuel

/-- The method `recognizeIdentifierToken`. -/
def recognizeIdentifierToken (fuel : Nat) (self : Lexer) : Res Lexer :=
  match consumeCharacter self with
  | Res.ok self1 =>
    match letterOrDigitLoop fuel self1 with
    | Res.ok self2 =>
      match whileLoop underscoreCond (underscoreBody fuel) fuel self2 with
      | Res.ok self3 =>
        Res.ok (createToken (flushBuffer self3).2 IDENTIFIER (flushBuffer self3).1)
      | Res.panic => Res.panic
      | Res.outOfFuel => Res.outOfFuel
    | Res.panic => Res.panic
    | Res.outOfFuel => Res.outOfFuel
  | Res.panic => Res.panic
  | Res.outOfFuel => Res.outOfFuel

/-- The method `recognizeSeparatorToken`. -/
def recognizeSeparatorToken (self : Lexer) : Res Lexer :=
  match consumeCharacter self with
  | Res.ok self1 => Res.ok (createToken (flushBuffer self1).2 SEPARATOR (flushBuffer self1).1)
  | Res.panic => Res.panic
  | Res.outOfFuel => Res.outOfFuel

/-- The method `recognizeStringToken`. -/
def recognizeStringToken (fuel : Nat) (self : Lexer) : Res Lexer :=
  match consumeCharacter self with
  | Res.ok self1 =>
    match whileLoop (fun l => Res.ok (l.current_char != 34)) consumeCharacter fuel self1 with
    | Res.ok self2 =>
      match consumeCharacter self2 with
      | Res.ok self3 =>
        Res.ok (createToken (flushBuffer self3).2 STRING (flushBuffer self3).1)
      | Res.panic => Res.panic
      | Res.outOfFuel => Res.outOfFuel
    | Res.panic => Res.panic
    | Res.outOfFuel => Res.outOfFuel
  | Res.panic => Res.panic
  | Res.outOfFuel => Res.outOfFuel

/-- The method `recognizeCharacterToken`. -/
def recognizeCharacterToken (self : Lexer) : Res Lexer :=
  match consumeCharacter self with
  | Res.ok self1 =>
    let inner : Res Lexer :=
      if isLetterOrDigit self1.current_char then consumeCharacter self1 else Res.ok self1
    match inner with
    | Res.ok self2 =>
      match consumeCharacter self2 with
      | Res.ok self3 =>
        Res.ok (createToken (flushBuffer self3).2 CHARACTER (flushBuffer self3).1)
      | Res.panic => Res.panic
      | Res.outOfFuel => Res.outOfFuel
    | Res.panic => Res.panic
    | Res.outOfFuel => Res.outOfFuel
  | Res.panic => Res.panic
  | Res.outOfFuel => Res.outOfFuel

/-- The method `recognizeOperatorToken`. -/
def recognizeOperatorToken (self : Lexer) : Res Lexer :=
  match consumeCharacter self with
  | Res.ok self1 => Res.ok (createToken (flushBuffer self1).2 OPERATOR (flushBuffer self1).1)
  | Res.panic => Res.panic
  | Res.outOfFuel => Res.outOfFuel

/-- The body of the first loop of `getNextToken`:
`self.consumeCharacter(); self.skipped_chars++`. -/
def skipBody (self : Lexer) : Res Lexer :=
  match consumeCharacter self with
  | Res.ok self1 => Res.ok { self1 with skipped_chars := self1.skipped_chars + 1 }
  | Res.panic => Res.panic
  | Res.outOfFuel => Res.outOfFuel

/-- The dispatch of `getNextToken` on the current character, after the layout
loop and `self.start_pos = self.pos`. -/
def dispatch (fuel : Nat) (self : Lexer) : Res Lexer :=
  if isDigit self.current_char || self.current_char = 46 then recognizeNumberToken fuel self
  else if isLetterOrDigit self.current_char || self.current_char = 95 then
    recognizeIdentifierToken fuel self
  else if self.current_char = 34 then recognizeStringToken fuel self
  else if self.current_char = 39 then recognizeCharacterToken self
  else if isOperator self.current_char then recognizeOperatorToken self
  else if isSeparator self.current_char then recognizeSeparatorToken self
  else Res.ok { self with running := false }

/-- The method `getNextToken`. -/
def getNextToken (fuel : Nat) (self : Lexer) : Res Lexer :=
  match whileLoop (fun l => Res.ok (isLayout l.current_char)) skipBody fuel
      { self with start_pos := 0 } with
  | Res.ok self1 => dispatch fuel { self1 with start_pos := self1.pos }
  | Res.panic => Res.panic
  | Res.outOfFuel => Res.outOfFuel

/-- The content `"<EOF>"` of the last token. -/
def eofContent : List Nat := [60, 69, 79, 70, 62]

/-- The method `startLexing`. -/
def startLexing (fuel : Nat) (self : Lexer) : Res Lexer :=
  match whileLoop (fun l => Res.ok l.running) (getNextToken fuel) fuel self with
  | Res.ok self1 => Res.ok (createToken self1 END_OF_FILE eofContent)
  | Res.panic => Res.panic
  | Res.outOfFuel => Res.outOfFuel

/-- What `main` does with the file contents: `createLexer` on a fresh lexer,
then `startLexing`. Every loop gets a budget of `len(input) + 1` iterations. -/
def runLexer (input : List Nat) : Res Lexer :=
  startLexing (input.length + 1) (createLexer Lexer.zero input)

/-- The token stream `main` hands to the parser. -/
def tokenize (input : List Nat) : Res (List Token) :=
  match runLexer input with
  | Res.ok l => Res.ok l.token_stream
  | Res.panic => Res.panic
  | Res.outOfFuel => Res.outOfFuel


/-! ## Predicates used to state the theorems -/

/-- The cursor of `l` stands in front of `suf`: the length field is the length
of the input, the unread part of the input is `suf`, and the current character
is the rune decoded there. -/
def Cursor (l : Lexer) (suf : List Nat) : Prop :=
  l.input_length = l.input.length ∧ l.input.drop l.pos = suf ∧
    l.current_char = (decodeRuneInString suf).1

/-- The state `l1` is `l` after consuming the ASCII bytes `cs`: the cursor and
the column moved by `cs.length`, the non-layout bytes of `cs` were added to
the buffer, and the running flag was kept as long as `pos + skipped_chars`
stayed within `input_length` at every consumption. -/
structure Steps (l l1 : Lexer) (cs : List Nat) : Prop where
  input : l1.input = l.input
  len : l1.input_length = l.input_length
  pos : l1.pos = l.pos + cs.length
  line : l1.line_number = l.line_number
  col : l1.char_number = l.char_number + cs.length
  buf : l1.buffer = l.buffer ++ cs.filter (fun c => !isLayout c)
  toks : l1.token_stream = l.token_stream
  skipped : l1.skipped_chars = l.skipped_chars
  run : l.pos + cs.length + l.skipped_chars ≤ l.input_length + 1 → l1.running = l.running
  stop : l1.running = true → l.running = true

/-- The state `l1` is `l` after the first loop of `getNextToken` skipped the
layout bytes `ws`: cursor, column and `skipped_chars` moved by `ws.length`, the
buffer is untouched. -/
structure Skipped (l l1 : Lexer) (ws : List Nat) : Prop where
  input : l1.input = l.input
  len : l1.input_length = l.input_length
  pos : l1.pos = l.pos + ws.length
  line : l1.line_number = l.line_number
  col : l1.char_number = l.char_number + ws.length
  buf : l1.buffer = l.buffer
  toks : l1.token_stream = l.token_stream
  skipped : l1.skipped_chars = l.skipped_chars + ws.length
  run : 2 * ws.length + l.pos + l.skipped_chars ≤ l.input_length + 2 → l1.running = l.running

/-- The state `l1` is `l` after a recognizer consumed the ASCII lexeme `cs` in
front of `suf` and emitted it as a token of kind `k`: the token carries the
buffer (the non-layout bytes of `cs` after what the buffer held) and the line
and column of the state after the lexeme; the buffer is empty again. -/
structure Lexed (l l1 : Lexer) (k : Nat) (cs suf : List Nat) : Prop where
  cursor : Cursor l1 suf
  input : l1.input = l.input
  len : l1.input_length = l.input_length
  pos : l1.pos = l.pos + cs.length
  line : l1.line_number = l.line_number
  col : l1.char_number = l.char_number + cs.length
  buf : l1.buffer = []
  toks : l1.token_stream = l.token_stream ++
    [{ token_type := k, content := l.buffer ++ cs.filter (fun c => !isLayout c),
       line_number := l.line_number, char_number := l.char_number + cs.length }]
  skipped : l1.skipped_chars = l.skipped_chars
  run : l.pos + cs.length + l.skipped_chars ≤ l.input_length + 1 → l1.running = l.running

/-- The state `l2` is `l` after one iteration of the driver that skipped the
layout bytes `ws` and emitted the ASCII lexeme `cs` in front of `suf` as a
token of kind `k`. -/
structure Tokenized (l l2 : Lexer) (k : Nat) (ws cs suf : List Nat) : Prop where
  cursor : Cursor l2 suf
  len : l2.input_length = l.input_length
  pos : l2.pos = l.pos + ws.length + cs.length
  line : l2.line_number = l.line_number
  col : l2.char_number = l.char_number + ws.length + cs.length
  buf : l2.buffer = []
  toks : l2.token_stream = l.token_stream ++
    [{ token_type := k, content := cs.filter (fun c => !isLayout c),
       line_number := l.line_number, char_number := l.char_number + ws.length + cs.length }]
  skipped : l2.skipped_chars = l.skipped_chars + ws.length
  run : l.pos + l.skipped_chars + 2 * ws.length + cs.length ≤ l.input_length + 1 →
    l2.running = l.running

/-- The bytes of underscore groups: each group `g` written as `_` followed by `g`. -/
def underscoreGroups : List (List Nat) → List Nat
  | [] => []
  | g :: gs => 95 :: g ++ underscoreGroups gs

/-- What a run of `consumeCharacter` calls keeps: input, length, line and token
stream; the column moves with the cursor, which never moves back and stays
within the input. -/
structure Quiet (l l1 : Lexer) : Prop where
  input : l1.input = l.input
  len : l1.input_length = l.input_length
  line : l1.line_number = l.line_number
  toks : l1.token_stream = l.token_stream
  col : l1.char_number + l.pos = l.char_number + l1.pos
  mono : l.pos ≤ l1.pos
  bound : l.pos ≤ l.input.length → l1.pos ≤ l1.input.length

/-- The state `l1` is `l` after a recognizer ran: some calls of
`consumeCharacter` that moved the cursor forward to a state `l3`, then
`createToken(k, flushBuffer())`. -/
def Emitted (l l1 : Lexer) (k : Nat) : Prop :=
  ∃ l3, Quiet l l3 ∧ l.pos < l3.pos ∧
    l1 = createToken (flushBuffer l3).2 k (flushBuffer l3).1

/-- The states the driver can be in: the state after `createLexer` on a fresh
lexer, and every state a completed `getNextToken` leads to from there. -/
inductive Reachable (input : List Nat) : Lexer → Prop where
  | init : Reachable input (createLexer Lexer.zero input)
  | step {l l1 : Lexer} (fuel : Nat) :
      Reachable input l → getNextToken fuel l = Res.ok l1 → Reachable input l1

/-- The state a completed `consumeCharacter` leaves (it completes exactly when
`pos` is inside the input). -/
def advance (l : Lexer) : Lexer :=
  { l with
    running := if l.pos + l.skipped_chars > l.input_length then false else l.running,
    buffer :=
      if isLayout l.current_char then l.buffer
      else l.buffer ++ runeToString (l.input.getD l.pos 0),
    pos := l.pos + 1,
    current_char := (decodeRuneInString (l.input.drop (l.pos + 1))).1,
    char_width := (decodeRuneInString (l.input.drop (l.pos + 1))).2,
    char_number := l.char_number + 1 }

/-- The dispatch of `getNextToken` finds a class for the character `c`. -/
def recognized (c : Nat) : Bool :=
  isDigit c || c = 46 || isLetterOrDigit c || c = 95 || c = 34 || c = 39 ||
    isOperator c || isSeparator c

/-- The end-of-file token, stamped with the given line and column. -/
def eofToken (line col : Nat) : Token :=
  { token_type := END_OF_FILE, content := eofContent, line_number := line, char_number := col }

/-- The current character of `l` is the rune decoded at the cursor, which is
how `createLexer` and `consumeCharacter` leave the lexer. -/
def Coherent (l : Lexer) : Prop :=
  l.current_char = (decodeRuneInString (l.input.drop l.pos)).1

/-- What `n` completed calls of `consumeCharacter` from the offset `p` on put
into the buffer: for every offset whose decoded character is no layout, the
string conversion of the byte at that offset. -/
def consumedText (input : List Nat) : Nat → Nat → List Nat
  | _, 0 => []
  | p, n + 1 =>
    (if isLayout (decodeRuneInString (input.drop p)).1 then []
      else runeToString (input.getD p 0)) ++ consumedText input (p + 1) n

/-- The state `l1` is `l` after some completed calls of `consumeCharacter`,
each at a current character satisfying `P`: the cursor moved forward inside
the input, the buffer grew by the text consumed on the way, and token stream
and `start_pos` are kept. -/
structure Run (P : Nat → Prop) (l l1 : Lexer) : Prop where
  coherent : Coherent l1
  input : l1.input = l.input
  mono : l.pos ≤ l1.pos
  bound : l.pos < l1.pos → l1.pos ≤ l.input.length
  buf : l1.buffer = l.buffer ++ consumedText l.input l.pos (l1.pos - l.pos)
  chars : ∀ i, l.pos ≤ i → i < l1.pos → P (decodeRuneInString (l.input.drop i)).1
  toks : l1.token_stream = l.token_stream
  start : l1.start_pos = l.start_pos

/-- The kind of token the dispatch of `getNextToken` chooses for the current
character `c`, in the order of its `if` chain; `none` when no branch matches. -/
def dispatchKind (c : Nat) : Option Nat :=
  if isDigit c || c = 46 then some NUMBER
  else if isLetterOrDigit c || c = 95 then some IDENTIFIER
  else if c = 34 then some STRING
  else if c = 39 then some CHARACTER
  else if isOperator c then some OPERATOR
  else if isSeparator c then some SEPARATOR
  else none

/-- The characters a recognizer of kind `k` is known to consume: printable
ASCII for numbers, identifiers, operators and separators, anything for string
and character literals. -/
def lexemeChar (k c : Nat) : Prop :=
  k = STRING ∨ k = CHARACTER ∨ (32 < c ∧ c < 128)

/-- The kind of token the stated dispatch order gives for a current character:
`NUMBER` for a digit or a dot, `IDENTIFIER` for an ASCII letter or an
underscore, `STRING` for a double quote, `CHARACTER` for a single quote,
`OPERATOR` for one of `+ - * / =`, `SEPARATOR` for one of `, { } ( )`, and no
kind for anything else. -/
def claimedKind (c : Nat) : Option Nat :=
  if isDigit c = true ∨ c = 46 then some NUMBER
  else if isLetter c = true ∨ c = 95 then some IDENTIFIER
  else if c = 34 then some STRING
  else if c = 39 then some CHARACTER
  else if c ∈ [43, 45, 42, 47, 61] then some OPERATOR
  else if c ∈ [44, 123, 125, 40, 41] then some SEPARATOR
  else none

/-! ## Loops: general facts -/

/-- A relation that the body establishes, and that is reflexive and transitive,
holds between the state before a loop and the state after it; the condition is
false on exit. -/
theorem whileLoop_rel {cond : Lexer → Res Bool} {body : Lexer → Res Lexer}
    (R : Lexer → Lexer → Prop) (hrefl : ∀ l, R l l)
    (htrans : ∀ a b c, R a b → R b c → R a c)
    (hbody : ∀ l l1, cond l = Res.ok true → body l = Res.ok l1 → R l l1) :
    ∀ (fuel : Nat) (l l1 : Lexer), whileLoop cond body fuel l = Res.ok l1 →
      R l l1 ∧ cond l1 = Res.ok false := by
  intro fuel
  induction fuel with
  | zero =>
    intro l l1 h
    unfold whileLoop at h
    cases hc : cond l with
    | ok b =>
      cases b with
      | true => simp [hc] at h
      | false =>
        simp [hc] at h
        subst h
        exact ⟨hrefl _, hc⟩
    | panic => simp [hc] at h
    | outOfFuel => simp [hc] at h
  | succ n ih =>
    intro l l1 h
    unfold whileLoop at h
    cases hc : cond l with
    | ok b =>
      cases b with
      | true =>
        cases hb : body l with
        | ok l2 =>
          simp [hc, hb] at h
          obtain ⟨h1, h2⟩ := ih l2 l1 h
          exact ⟨htrans _ _ _ (hbody l l2 hc hb) h1, h2⟩
        | panic => simp [hc, hb] at h
        | outOfFuel => simp [hc, hb] at h
      | false =>
        simp [hc] at h
        subst h
        exact ⟨hrefl _, hc⟩
    | panic => simp [hc] at h
    | outOfFuel => simp [hc] at h

/-- A loop whose condition is false does nothing, whatever the budget. -/
theorem whileLoop_done {cond : Lexer → Res Bool} {body : Lexer → Res Lexer}
    (fuel : Nat) (l : Lexer) (h : cond l = Res.ok false) :
    whileLoop cond body fuel l = Res.ok l := by
  cases fuel <;> simp [whileLoop, h]

/-- One iteration of a loop whose condition is true. -/
theorem whileLoop_step {cond : Lexer → Res Bool} {body : Lexer → Res Lexer}
    (fuel : Nat) (l l1 : Lexer) (h : cond l = Res.ok true) (hb : body l = Res.ok l1) :
    whileLoop cond body (fuel + 1) l = whileLoop cond body fuel l1 := by
  simp [whileLoop, h, hb]

/-! ## `Quiet` -/

theorem Quiet.qrefl (l : Lexer) : Quiet l l :=
  ⟨rfl, rfl, rfl, rfl, rfl, le_refl _, fun h => h⟩

theorem Quiet.qtrans {a b c : Lexer} (h1 : Quiet a b) (h2 : Quiet b c) : Quiet a c where
  input := h2.input.trans h1.input
  len := h2.len.trans h1.len
  line := h2.line.trans h1.line
  toks := h2.toks.trans h1.toks
  col := by have := h1.col; have := h2.col; omega
  mono := le_trans h1.mono h2.mono
  bound := fun h => h2.bound (h1.bound h)

/-- The method `consumeCharacter` completes exactly when `pos` is inside the input, and
then leaves the state `advance`; otherwise it panics. -/
theorem consumeCharacter_eq (l : Lexer) :
    consumeCharacter l = if l.pos < l.input.length then Res.ok (advance l) else Res.panic := by
  unfold consumeCharacter advance sliceFrom byteAt
  by_cases hlt : l.pos < l.input.length
  · have hget : l.input[l.pos]? = some (l.input[l.pos]) := List.getElem?_eq_getElem hlt
    have hd : l.input.getD l.pos 0 = l.input[l.pos] := List.getD_eq_getElem _ _ hlt
    rw [hd]
    by_cases hrun : l.pos + l.skipped_chars > l.input_length <;>
      by_cases hlay : isLayout l.current_char = true <;>
      simp only [hlt, hget, hrun, hlay, Nat.succ_le_of_lt hlt, if_true, if_false, Bool.not_true,
        Bool.not_false, Bool.false_eq_true, not_false_eq_true, not_true_eq_false]
  · have hget : l.input[l.pos]? = none := by
      simp [List.getElem?_eq_none_iff]; omega
    have hs : ¬ (l.pos + 1 ≤ l.input.length) := by omega
    by_cases hrun : l.pos + l.skipped_chars > l.input_length <;>
      by_cases hlay : isLayout l.current_char = true <;>
      simp only [hlt, hget, hrun, hlay, hs, if_true, if_false, Bool.not_true,
        Bool.not_false, Bool.false_eq_true, not_false_eq_true, not_true_eq_false]

/-- A completed `consumeCharacter` leaves `advance`, from a cursor inside the input. -/
theorem consumeCharacter_ok {l l1 : Lexer} (h : consumeCharacter l = Res.ok l1) :
    l.pos < l.input.length ∧ l1 = advance l := by
  rw [consumeCharacter_eq] at h
  split_ifs at h with hlt
  exact ⟨hlt, (Res.ok.inj h).symm⟩

theorem consumeCharacter_quiet {l l1 : Lexer} (h : consumeCharacter l = Res.ok l1) :
    Quiet l l1 := by
  obtain ⟨hlt, rfl⟩ := consumeCharacter_ok h
  exact ⟨rfl, rfl, rfl, rfl, by simp only [advance]; omega, by simp [advance],
    fun _ => Nat.succ_le_of_lt hlt⟩

theorem consumeCharacter_pos {l l1 : Lexer} (h : consumeCharacter l = Res.ok l1) :
    l.pos < l1.pos ∧ l1.pos ≤ l1.input.length := by
  obtain ⟨hlt, rfl⟩ := consumeCharacter_ok h
  exact ⟨by simp [advance], Nat.succ_le_of_lt hlt⟩

/-! ## `Cursor` and `Steps` -/

theorem Steps.srefl (l : Lexer) : Steps l l [] :=
  ⟨rfl, rfl, rfl, rfl, rfl, by simp, rfl, rfl, fun _ => rfl, fun h => h⟩

theorem Steps.strans {a b c : Lexer} {cs ds : List Nat} (h1 : Steps a b cs) (h2 : Steps b c ds) :
    Steps a c (cs ++ ds) where
  input := h2.input.trans h1.input
  len := h2.len.trans h1.len
  pos := by rw [h2.pos, h1.pos, List.length_append]; omega
  line := h2.line.trans h1.line
  col := by rw [h2.col, h1.col, List.length_append]; omega
  buf := by rw [h2.buf, h1.buf, List.filter_append, List.append_assoc]
  toks := h2.toks.trans h1.toks
  skipped := h2.skipped.trans h1.skipped
  run := by
    intro h
    rw [List.length_append] at h
    have e1 := h1.run (by omega)
    have e2 := h2.run (by rw [h1.pos, h1.skipped, h1.len]; omega)
    rw [e2, e1]
  stop := fun h => h1.stop (h2.stop h)

theorem decodeRuneInString_ascii {b : Nat} (suf : List Nat) (hb : b < 128) :
    decodeRuneInString (b :: suf) = (b, 1) := by
  simp [decodeRuneInString, hb]

theorem runeToString_ascii {b : Nat} (hb : b < 128) : runeToString b = [b] := by
  simp [runeToString, hb]

theorem Cursor.pos_lt {l : Lexer} {b : Nat} {suf : List Nat} (h : Cursor l (b :: suf)) :
    l.pos < l.input.length := by
  by_contra hlt
  have := List.drop_eq_nil_of_le (not_lt.mp hlt)
  rw [h.2.1] at this
  exact List.cons_ne_nil _ _ this

/-- Consuming one ASCII byte at the cursor. -/
theorem consume_ascii {l : Lexer} {b : Nat} {suf : List Nat} (h : Cursor l (b :: suf))
    (hb : b < 128) :
    consumeCharacter l = Res.ok (advance l) ∧ Cursor (advance l) suf ∧
      Steps l (advance l) [b] := by
  have hlt := h.pos_lt
  obtain ⟨hlen, hdrop, hcur⟩ := h
  have hget : l.input.getD l.pos 0 = b := by
    have h0 : l.input[l.pos]? = some b := by
      have := List.head?_drop l.input l.pos
      rw [hdrop] at this
      simpa using this.symm
    rw [List.getD_eq_getElem?_getD, h0]
    rfl
  have hd1 : l.input.drop (l.pos + 1) = suf := by
    rw [← List.drop_drop, hdrop]
    rfl
  have hc : l.current_char = b := by rw [hcur, decodeRuneInString_ascii suf hb]
  refine ⟨by rw [consumeCharacter_eq, if_pos hlt], ⟨hlen, ?_, ?_⟩, ?_⟩
  · simpa [advance] using hd1
  · simp [advance, hd1]
  · refine ⟨rfl, rfl, rfl, rfl, rfl, ?_, rfl, rfl, ?_, ?_⟩
    · simp only [advance, hget, hc, runeToString_ascii hb]
      by_cases hl : isLayout b = true <;> simp [hl]
    · intro hle
      simp only [advance, List.length_singleton] at hle ⊢
      rw [if_neg (by omega)]
    · intro hr
      simp only [advance] at hr
      split_ifs at hr
      exact hr

/-- A loop `for p(self.current_char) { self.consumeCharacter() }` in front of a
run `cs` of ASCII bytes satisfying `p` that ends where `p` fails: it consumes
exactly `cs`. -/
theorem run_loop (p : Nat → Bool) :
    ∀ (cs : List Nat) (fuel : Nat) (l : Lexer) (suf : List Nat), Cursor l (cs ++ suf) →
      (∀ c ∈ cs, p c = true ∧ c < 128) → p (decodeRuneInString suf).1 = false →
      cs.length ≤ fuel →
      ∃ l1, whileLoop (fun l => Res.ok (p l.current_char)) consumeCharacter fuel l = Res.ok l1 ∧
        Cursor l1 suf ∧ Steps l l1 cs := by
  intro cs
  induction cs with
  | nil =>
    intro fuel l suf hc _ hstop _
    refine ⟨l, whileLoop_done fuel l ?_, hc, Steps.srefl l⟩
    simp only [List.nil_append] at hc
    simp [hc.2.2, hstop]
  | cons c cs ih =>
    intro fuel l suf hc hall hstop hfuel
    obtain ⟨hpc, hc128⟩ := hall c (List.mem_cons_self _ _)
    obtain ⟨n, rfl⟩ : ∃ n, fuel = n + 1 := ⟨fuel - 1, by simp at hfuel; omega⟩
    have hcur : Cursor l (c :: (cs ++ suf)) := by simpa using hc
    obtain ⟨h1, h2, h3⟩ := consume_ascii hcur hc128
    obtain ⟨l1, h4, h5, h6⟩ := ih n (advance l) suf h2
      (fun x hx => hall x (List.mem_cons_of_mem _ hx)) hstop (by simp at hfuel; omega)
    refine ⟨l1, ?_, h5, by simpa using h3.strans h6⟩
    rw [whileLoop_step n l (advance l) ?_ h1, h4]
    have : l.current_char = c := by rw [hcur.2.2, decodeRuneInString_ascii _ hc128]
    simp [this, hpc]

/-! ## Every loop and recognizer, on any state -/

theorem whileLoop_quiet {cond : Lexer → Res Bool} {body : Lexer → Res Lexer}
    (hbody : ∀ l l1, body l = Res.ok l1 → Quiet l l1) {fuel : Nat} {l l1 : Lexer}
    (h : whileLoop cond body fuel l = Res.ok l1) : Quiet l l1 :=
  (whileLoop_rel Quiet Quiet.qrefl (fun _ _ _ => Quiet.qtrans)
    (fun l l1 _ hb => hbody l l1 hb) fuel l l1 h).1

theorem digitLoop_quiet {fuel : Nat} {l l1 : Lexer} (h : digitLoop fuel l = Res.ok l1) :
    Quiet l l1 :=
  whileLoop_quiet (fun _ _ => consumeCharacter_quiet) h

theorem letterOrDigitLoop_quiet {fuel : Nat} {l l1 : Lexer}
    (h : letterOrDigitLoop fuel l = Res.ok l1) : Quiet l l1 :=
  whileLoop_quiet (fun _ _ => consumeCharacter_quiet) h

theorem numberLoopBody_quiet {fuel : Nat} {l l1 : Lexer}
    (h : numberLoopBody fuel l = Res.ok l1) : Quiet l l1 := by
  unfold numberLoopBody at h
  cases hp : peek l 1 with
  | ok p =>
    simp only [hp] at h
    split_ifs at h
    · cases h1 : consumeCharacter l with
      | ok l2 =>
        simp only [h1] at h
        cases h2 : digitLoop fuel l2 with
        | ok l3 =>
          simp only [h2] at h
          exact (consumeCharacter_quiet h1).qtrans
            ((digitLoop_quiet h2).qtrans (consumeCharacter_quiet h))
        | panic => simp [h2] at h
        | outOfFuel => simp [h2] at h
      | panic => simp [h1] at h
      | outOfFuel => simp [h1] at h
    · exact consumeCharacter_quiet h
  | panic => simp [hp] at h
  | outOfFuel => simp [hp] at h

theorem underscoreBody_quiet {fuel : Nat} {l l1 : Lexer}
    (h : underscoreBody fuel l = Res.ok l1) : Quiet l l1 := by
  unfold underscoreBody at h
  cases h1 : consumeCharacter l with
  | ok l2 =>
    simp only [h1] at h
    exact (consumeCharacter_quiet h1).qtrans (letterOrDigitLoop_quiet h)
  | panic => simp [h1] at h
  | outOfFuel => simp [h1] at h

theorem skipBody_quiet {l l1 : Lexer} (h : skipBody l = Res.ok l1) : Quiet l l1 := by
  unfold skipBody at h
  cases h1 : consumeCharacter l with
  | ok l2 =>
    simp only [h1, Res.ok.injEq] at h
    subst h
    have q := consumeCharacter_quiet h1
    exact ⟨q.input, q.len, q.line, q.toks, q.col, q.mono, q.bound⟩
  | panic => simp [h1] at h
  | outOfFuel => simp [h1] at h

theorem recognizeNumberToken_emitted {fuel : Nat} {l l1 : Lexer}
    (h : recognizeNumberToken fuel l = Res.ok l1) : Emitted l l1 NUMBER := by
  unfold recognizeNumberToken at h
  cases h1 : consumeCharacter l with
  | ok l2 =>
    simp only [h1] at h
    have q1 := consumeCharacter_quiet h1
    have p1 := (consumeCharacter_pos h1).1
    split_ifs at h
    · cases h2 : consumeCharacter l2 with
      | ok l3 =>
        simp only [h2] at h
        cases h3 : digitLoop fuel l3 with
        | ok l4 =>
          simp only [h3, Res.ok.injEq] at h
          have q := q1.qtrans ((consumeCharacter_quiet h2).qtrans (digitLoop_quiet h3))
          have := (consumeCharacter_quiet h2).mono
          have := (digitLoop_quiet h3).mono
          exact ⟨l4, q, by omega, h.symm⟩
        | panic => simp [h3] at h
        | outOfFuel => simp [h3] at h
      | panic => simp [h2] at h
      | outOfFuel => simp [h2] at h
    · cases h2 : whileLoop (fun l => Res.ok (isDigit l.current_char)) (numberLoopBody fuel)
          fuel l2 with
      | ok l3 =>
        simp only [h2, Res.ok.injEq] at h
        have q2 := whileLoop_quiet (fun _ _ => numberLoopBody_quiet) h2
        have := q2.mono
        exact ⟨l3, q1.qtrans q2, by omega, h.symm⟩
      | panic => simp [h2] at h
      | outOfFuel => simp [h2] at h
  | panic => simp [h1] at h
  | outOfFuel => simp [h1] at h

theorem recognizeIdentifierToken_emitted {fuel : Nat} {l l1 : Lexer}
    (h : recognizeIdentifierToken fuel l = Res.ok l1) : Emitted l l1 IDENTIFIER := by
  unfold recognizeIdentifierToken at h
  cases h1 : consumeCharacter l with
  | ok l2 =>
    simp only [h1] at h
    cases h2 : letterOrDigitLoop fuel l2 with
    | ok l3 =>
      simp only [h2] at h
      cases h3 : whileLoop underscoreCond (underscoreBody fuel) fuel l3 with
      | ok l4 =>
        simp only [h3, Res.ok.injEq] at h
        have q1 := consumeCharacter_quiet h1
        have p1 := (consumeCharacter_pos h1).1
        have q2 := letterOrDigitLoop_quiet h2
        have q3 := whileLoop_quiet (fun _ _ => underscoreBody_quiet) h3
        have := q2.mono
        have := q3.mono
        exact ⟨l4, q1.qtrans (q2.qtrans q3), by omega, h.symm⟩
      | panic => simp [h3] at h
      | outOfFuel => simp [h3] at h
    | panic => simp [h2] at h
    | outOfFuel => simp [h2] at h
  | panic => simp [h1] at h
  | outOfFuel => simp [h1] at h

theorem recognizeStringToken_emitted {fuel : Nat} {l l1 : Lexer}
    (h : recognizeStringToken fuel l = Res.ok l1) : Emitted l l1 STRING := by
  unfold recognizeStringToken at h
  cases h1 : consumeCharacter l with
  | ok l2 =>
    simp only [h1] at h
    cases h2 : whileLoop (fun l => Res.ok (l.current_char != 34)) consumeCharacter fuel l2 with
    | ok l3 =>
      simp only [h2] at h
      cases h3 : consumeCharacter l3 with
      | ok l4 =>
        simp only [h3, Res.ok.injEq] at h
        have q1 := consumeCharacter_quiet h1
        have p1 := (consumeCharacter_pos h1).1
        have q2 := whileLoop_quiet (fun _ _ => consumeCharacter_quiet) h2
        have q3 := consumeCharacter_quiet h3
        have := q2.mono
        have := q3.mono
        exact ⟨l4, q1.qtrans (q2.qtrans q3), by omega, h.symm⟩
      | panic => simp [h3] at h
      | outOfFuel => simp [h3] at h
    | panic => simp [h2] at h
    | outOfFuel => simp [h2] at h
  | panic => simp [h1] at h
  | outOfFuel => simp [h1] at h

theorem recognizeCharacterToken_emitted {l l1 : Lexer}
    (h : recognizeCharacterToken l = Res.ok l1) : Emitted l l1 CHARACTER := by
  unfold recognizeCharacterToken at h
  cases h1 : consumeCharacter l with
  | ok l2 =>
    simp only [h1] at h
    have q1 := consumeCharacter_quiet h1
    have p1 := (consumeCharacter_pos h1).1
    split_ifs at h
    · cases h2 : consumeCharacter l2 with
      | ok l3 =>
        simp only [h2] at h
        cases h3 : consumeCharacter l3 with
        | ok l4 =>
          simp only [h3, Res.ok.injEq] at h
          have q2 := consumeCharacter_quiet h2
          have q3 := consumeCharacter_quiet h3
          have := q2.mono
          have := q3.mono
          exact ⟨l4, q1.qtrans (q2.qtrans q3), by omega, h.symm⟩
        | panic => simp [h3] at h
        | outOfFuel => simp [h3] at h
      | panic => simp [h2] at h
      | outOfFuel => simp [h2] at h
    · cases h3 : consumeCharacter l2 with
      | ok l4 =>
        simp only [h3, Res.ok.injEq] at h
        have q3 := consumeCharacter_quiet h3
        have := q3.mono
        exact ⟨l4, q1.qtrans q3, by omega, h.symm⟩
      | panic => simp [h3] at h
      | outOfFuel => simp [h3] at h
  | panic => simp [h1] at h
  | outOfFuel => simp [h1] at h

theorem recognizeOperatorToken_emitted {l l1 : Lexer}
    (h : recognizeOperatorToken l = Res.ok l1) : Emitted l l1 OPERATOR := by
  unfold recognizeOperatorToken at h
  cases h1 : consumeCharacter l with
  | ok l2 =>
    simp only [h1, Res.ok.injEq] at h
    exact ⟨l2, consumeCharacter_quiet h1, (consumeCharacter_pos h1).1, h.symm⟩
  | panic => simp [h1] at h
  | outOfFuel => simp [h1] at h

theorem recognizeSeparatorToken_emitted {l l1 : Lexer}
    (h : recognizeSeparatorToken l = Res.ok l1) : Emitted l l1 SEPARATOR := by
  unfold recognizeSeparatorToken at h
  cases h1 : consumeCharacter l with
  | ok l2 =>
    simp only [h1, Res.ok.injEq] at h
    exact ⟨l2, consumeCharacter_quiet h1, (consumeCharacter_pos h1).1, h.symm⟩
  | panic => simp [h1] at h
  | outOfFuel => simp [h1] at h

/-- A completed dispatch either found no class for the current character and
only cleared the running flag, or ran one recognizer, which emitted one token
whose kind is not `END_OF_FILE`. -/
theorem dispatch_cases {fuel : Nat} {l l1 : Lexer} (h : dispatch fuel l = Res.ok l1) :
    (recognized l.current_char = false ∧ l1 = { l with running := false }) ∨
      ∃ k, k ≠ END_OF_FILE ∧ Emitted l l1 k := by
  unfold dispatch at h
  split_ifs at h with c1 c2 c3 c4 c5 c6
  · exact Or.inr ⟨NUMBER, by decide, recognizeNumberToken_emitted h⟩
  · exact Or.inr ⟨IDENTIFIER, by decide, recognizeIdentifierToken_emitted h⟩
  · exact Or.inr ⟨STRING, by decide, recognizeStringToken_emitted h⟩
  · exact Or.inr ⟨CHARACTER, by decide, recognizeCharacterToken_emitted h⟩
  · exact Or.inr ⟨OPERATOR, by decide, recognizeOperatorToken_emitted h⟩
  · exact Or.inr ⟨SEPARATOR, by decide, recognizeSeparatorToken_emitted h⟩
  · refine Or.inl ⟨?_, (Res.ok.inj h).symm⟩
    simp only [recognized]
    simp_all

/-- A completed `getNextToken`: the layout loop led to a state `l2`, where the
dispatch either halted or emitted one token. -/
theorem getNextToken_cases {fuel : Nat} {l l1 : Lexer} (h : getNextToken fuel l = Res.ok l1) :
    ∃ l2, Quiet l l2 ∧
      ((recognized l2.current_char = false ∧
          l1 = { l2 with start_pos := l2.pos, running := false }) ∨
        ∃ k, k ≠ END_OF_FILE ∧ Emitted l2 l1 k) := by
  unfold getNextToken at h
  cases h1 : whileLoop (fun l => Res.ok (isLayout l.current_char)) skipBody fuel
      { l with start_pos := 0 } with
  | ok l2 =>
    simp only [h1] at h
    have q := whileLoop_quiet (fun _ _ => skipBody_quiet) h1
    have q0 : Quiet l l2 := ⟨q.input, q.len, q.line, q.toks, q.col, q.mono, q.bound⟩
    refine ⟨l2, q0, ?_⟩
    rcases dispatch_cases h with ⟨hr, he⟩ | ⟨k, hk, l3, q3, p3, he⟩
    · exact Or.inl ⟨hr, he⟩
    · exact Or.inr ⟨k, hk, l3, ⟨q3.input, q3.len, q3.line, q3.toks, q3.col, q3.mono, q3.bound⟩, p3, he⟩
  | panic => simp [h1] at h
  | outOfFuel => simp [h1] at h

/-! ## The iteration budget is never used up -/

/-- A loop whose body moves the cursor forward inside the input does not use
up a budget larger than the number of unread bytes. -/
theorem whileLoop_fuel {cond : Lexer → Res Bool} {body : Lexer → Res Lexer} (len : Nat)
    (hcond : ∀ l, cond l ≠ Res.outOfFuel)
    (hbody : ∀ l, l.input.length = len → body l ≠ Res.outOfFuel)
    (hstep : ∀ l l1, body l = Res.ok l1 →
      Quiet l l1 ∧ l.pos < l1.pos ∧ l1.pos ≤ l1.input.length) :
    ∀ (fuel : Nat) (l : Lexer), l.input.length = len → len - l.pos < fuel →
      whileLoop cond body fuel l ≠ Res.outOfFuel := by
  intro fuel
  induction fuel with
  | zero => intro l _ h; omega
  | succ n ih =>
    intro l hl hf
    unfold whileLoop
    cases hc : cond l with
    | ok b =>
      cases b with
      | true =>
        cases hb : body l with
        | ok l1 =>
          obtain ⟨q, h1, h2⟩ := hstep l l1 hb
          have hin : l1.input.length = len := by rw [q.input, hl]
          exact ih l1 hin (by omega)
        | panic => simp
        | outOfFuel => exact absurd hb (hbody l hl)
      | false => simp
    | panic => simp
    | outOfFuel => exact absurd hc (hcond l)

theorem consumeCharacter_fuel (l : Lexer) : consumeCharacter l ≠ Res.outOfFuel := by
  rw [consumeCharacter_eq]
  split_ifs <;> simp

theorem consumeCharacter_step (l l1 : Lexer) (h : consumeCharacter l = Res.ok l1) :
    Quiet l l1 ∧ l.pos < l1.pos ∧ l1.pos ≤ l1.input.length :=
  ⟨consumeCharacter_quiet h, consumeCharacter_pos h⟩

theorem peek_fuel (l : Lexer) (ahead : Nat) : peek l ahead ≠ Res.outOfFuel := by
  unfold peek sliceFrom
  split_ifs <;> simp

/-- Any loop `for p(self.current_char) { self.consumeCharacter() }`. -/
theorem consumeLoop_fuel (p : Lexer → Bool) {fuel : Nat} {l : Lexer}
    (h : l.input.length < fuel) :
    whileLoop (fun l => Res.ok (p l)) consumeCharacter fuel l ≠ Res.outOfFuel :=
  whileLoop_fuel l.input.length (fun _ => by simp) (fun l _ => consumeCharacter_fuel l)
    consumeCharacter_step fuel l rfl (by omega)

theorem numberLoopBody_fuel {fuel : Nat} {l : Lexer} (h : l.input.length < fuel) :
    numberLoopBody fuel l ≠ Res.outOfFuel := by
  unfold numberLoopBody
  cases hp : peek l 1 with
  | ok p =>
    simp only
    split_ifs
    · cases h1 : consumeCharacter l with
      | ok l2 =>
        simp only
        cases h2 : digitLoop fuel l2 with
        | ok l3 => exact consumeCharacter_fuel l3
        | panic => simp
        | outOfFuel =>
          refine absurd h2 (consumeLoop_fuel _ ?_)
          rw [(consumeCharacter_quiet h1).input]
          exact h
      | panic => simp
      | outOfFuel => exact absurd h1 (consumeCharacter_fuel l)
    · exact consumeCharacter_fuel l
  | panic => simp
  | outOfFuel => exact absurd hp (peek_fuel l 1)

theorem numberLoopBody_step {fuel : Nat} (l l1 : Lexer)
    (h : numberLoopBody fuel l = Res.ok l1) :
    Quiet l l1 ∧ l.pos < l1.pos ∧ l1.pos ≤ l1.input.length := by
  refine ⟨numberLoopBody_quiet h, ?_⟩
  unfold numberLoopBody at h
  cases hp : peek l 1 with
  | ok p =>
    simp only [hp] at h
    split_ifs at h
    · cases h1 : consumeCharacter l with
      | ok l2 =>
        simp only [h1] at h
        cases h2 : digitLoop fuel l2 with
        | ok l3 =>
          simp only [h2] at h
          have := (consumeCharacter_pos h1).1
          have := (digitLoop_quiet h2).mono
          have := consumeCharacter_pos h
          omega
        | panic => simp [h2] at h
        | outOfFuel => simp [h2] at h
      | panic => simp [h1] at h
      | outOfFuel => simp [h1] at h
    · exact consumeCharacter_pos h
  | panic => simp [hp] at h
  | outOfFuel => simp [hp] at h

theorem underscoreCond_fuel (l : Lexer) : underscoreCond l ≠ Res.outOfFuel := by
  unfold underscoreCond
  split_ifs
  · cases hp : peek l 1 with
    | ok p => simp
    | panic => simp
    | outOfFuel => exact absurd hp (peek_fuel l 1)
  · simp

theorem underscoreBody_fuel {fuel : Nat} {l : Lexer} (h : l.input.length < fuel) :
    underscoreBody fuel l ≠ Res.outOfFuel := by
  unfold underscoreBody
  cases h1 : consumeCharacter l with
  | ok l2 =>
    refine consumeLoop_fuel _ ?_
    rw [(consumeCharacter_quiet h1).input]
    exact h
  | panic => simp
  | outOfFuel => exact absurd h1 (consumeCharacter_fuel l)

theorem underscoreBody_step {fuel : Nat} (l l1 : Lexer)
    (h : underscoreBody fuel l = Res.ok l1) :
    Quiet l l1 ∧ l.pos < l1.pos ∧ l1.pos ≤ l1.input.length := by
  refine ⟨underscoreBody_quiet h, ?_⟩
  unfold underscoreBody at h
  cases h1 : consumeCharacter l with
  | ok l2 =>
    simp only [h1] at h
    have p1 := consumeCharacter_pos h1
    have q2 := letterOrDigitLoop_quiet h
    have := q2.mono
    have := q2.bound p1.2
    omega
  | panic => simp [h1] at h
  | outOfFuel => simp [h1] at h

theorem skipBody_fuel (l : Lexer) : skipBody l ≠ Res.outOfFuel := by
  unfold skipBody
  cases h1 : consumeCharacter l with
  | ok l2 => simp
  | panic => simp
  | outOfFuel => exact absurd h1 (consumeCharacter_fuel l)

theorem skipBody_step (l l1 : Lexer) (h : skipBody l = Res.ok l1) :
    Quiet l l1 ∧ l.pos < l1.pos ∧ l1.pos ≤ l1.input.length := by
  refine ⟨skipBody_quiet h, ?_⟩
  unfold skipBody at h
  cases h1 : consumeCharacter l with
  | ok l2 =>
    simp only [h1, Res.ok.injEq] at h
    subst h
    have := consumeCharacter_pos h1
    exact this
  | panic => simp [h1] at h
  | outOfFuel => simp [h1] at h

theorem recognizeNumberToken_fuel {fuel : Nat} {l : Lexer} (h : l.input.length < fuel) :
    recognizeNumberToken fuel l ≠ Res.outOfFuel := by
  unfold recognizeNumberToken
  cases h1 : consumeCharacter l with
  | ok l2 =>
    have hin : l2.input.length < fuel := by rw [(consumeCharacter_quiet h1).input]; exact h
    simp only
    split_ifs
    · cases h2 : consumeCharacter l2 with
      | ok l3 =>
        simp only
        cases h3 : digitLoop fuel l3 with
        | ok l4 => simp
        | panic => simp
        | outOfFuel =>
          refine absurd h3 (consumeLoop_fuel _ ?_)
          rw [(consumeCharacter_quiet h2).input]
          exact hin
      | panic => simp
      | outOfFuel => exact absurd h2 (consumeCharacter_fuel l2)
    · cases h2 : whileLoop (fun l => Res.ok (isDigit l.current_char)) (numberLoopBody fuel)
          fuel l2 with
      | ok l3 => simp
      | panic => simp
      | outOfFuel =>
        refine absurd h2 (whileLoop_fuel l2.input.length (fun _ => by simp)
          (fun l hl => numberLoopBody_fuel (by omega)) numberLoopBody_step fuel l2 rfl
          (by omega))
  | panic => simp
  | outOfFuel => exact absurd h1 (consumeCharacter_fuel l)

theorem recognizeIdentifierToken_fuel {fuel : Nat} {l : Lexer} (h : l.input.length < fuel) :
    recognizeIdentifierToken fuel l ≠ Res.outOfFuel := by
  unfold recognizeIdentifierToken
  cases h1 : consumeCharacter l with
  | ok l2 =>
    have hin : l2.input.length < fuel := by rw [(consumeCharacter_quiet h1).input]; exact h
    simp only
    cases h2 : letterOrDigitLoop fuel l2 with
    | ok l3 =>
      have hin3 : l3.input.length < fuel := by
        rw [(letterOrDigitLoop_quiet h2).input]; exact hin
      simp only
      cases h3 : whileLoop underscoreCond (underscoreBody fuel) fuel l3 with
      | ok l4 => simp
      | panic => simp
      | outOfFuel =>
        refine absurd h3 (whileLoop_fuel l3.input.length underscoreCond_fuel
          (fun l hl => underscoreBody_fuel (by omega)) underscoreBody_step fuel l3 rfl
          (by omega))
    | panic => simp
    | outOfFuel => exact absurd h2 (consumeLoop_fuel _ hin)
  | panic => simp
  | outOfFuel => exact absurd h1 (consumeCharacter_fuel l)

theorem recognizeStringToken_fuel {fuel : Nat} {l : Lexer} (h : l.input.length < fuel) :
    recognizeStringToken fuel l ≠ Res.outOfFuel := by
  unfold recognizeStringToken
  cases h1 : consumeCharacter l with
  | ok l2 =>
    have hin : l2.input.length < fuel := by rw [(consumeCharacter_quiet h1).input]; exact h
    simp only
    cases h2 : whileLoop (fun l => Res.ok (l.current_char != 34)) consumeCharacter fuel l2 with
    | ok l3 =>
      simp only
      cases h3 : consumeCharacter l3 with
      | ok l4 => simp
      | panic => simp
      | outOfFuel => exact absurd h3 (consumeCharacter_fuel l3)
    | panic => simp
    | outOfFuel => exact absurd h2 (consumeLoop_fuel _ hin)
  | panic => simp
  | outOfFuel => exact absurd h1 (consumeCharacter_fuel l)

theorem recognizeCharacterToken_fuel (l : Lexer) :
    recognizeCharacterToken l ≠ Res.outOfFuel := by
  unfold recognizeCharacterToken
  cases h1 : consumeCharacter l with
  | ok l2 =>
    simp only
    split_ifs
    · cases h2 : consumeCharacter l2 with
      | ok l3 =>
        simp only
        cases h3 : consumeCharacter l3 with
        | ok l4 => simp
        | panic => simp
        | outOfFuel => exact absurd h3 (consumeCharacter_fuel l3)
      | panic => simp
      | outOfFuel => exact absurd h2 (consumeCharacter_fuel l2)
    · simp only
      cases h3 : consumeCharacter l2 with
      | ok l4 => simp
      | panic => simp
      | outOfFuel => exact absurd h3 (consumeCharacter_fuel l2)
  | panic => simp
  | outOfFuel => exact absurd h1 (consumeCharacter_fuel l)

theorem recognizeOperatorToken_fuel (l : Lexer) :
    recognizeOperatorToken l ≠ Res.outOfFuel := by
  unfold recognizeOperatorToken
  cases h1 : consumeCharacter l with
  | ok l2 => simp
  | panic => simp
  | outOfFuel => exact absurd h1 (consumeCharacter_fuel l)

theorem recognizeSeparatorToken_fuel (l : Lexer) :
    recognizeSeparatorToken l ≠ Res.outOfFuel := by
  unfold recognizeSeparatorToken
  cases h1 : consumeCharacter l with
  | ok l2 => simp
  | panic => simp
  | outOfFuel => exact absurd h1 (consumeCharacter_fuel l)

theorem dispatch_fuel {fuel : Nat} {l : Lexer} (h : l.input.length < fuel) :
    dispatch fuel l ≠ Res.outOfFuel := by
  unfold dispatch
  split_ifs
  · exact recognizeNumberToken_fuel h
  · exact recognizeIdentifierToken_fuel h
  · exact recognizeStringToken_fuel h
  · exact recognizeCharacterToken_fuel l
  · exact recognizeOperatorToken_fuel l
  · exact recognizeSeparatorToken_fuel l
  · simp

theorem getNextToken_fuel {fuel : Nat} {l : Lexer} (h : l.input.length < fuel) :
    getNextToken fuel l ≠ Res.outOfFuel := by
  unfold getNextToken
  cases h1 : whileLoop (fun l => Res.ok (isLayout l.current_char)) skipBody fuel
      { l with start_pos := 0 } with
  | ok l2 =>
    have q := whileLoop_quiet (fun _ _ => skipBody_quiet) h1
    refine dispatch_fuel ?_
    have : l2.input = l.input := q.input
    simp only [this]
    exact h
  | panic => simp
  | outOfFuel =>
    refine absurd h1 (whileLoop_fuel l.input.length (fun _ => by simp)
      (fun l _ => skipBody_fuel l) skipBody_step fuel _ rfl ?_)
    show l.input.length - l.pos < fuel
    omega

/-- A completed `getNextToken` leaves the cursor within the input, and either
moved it forward or cleared the running flag. -/
theorem getNextToken_progress {fuel : Nat} {l l1 : Lexer}
    (h : getNextToken fuel l = Res.ok l1) (hb : l.pos ≤ l.input.length) :
    l1.input = l.input ∧ l1.pos ≤ l1.input.length ∧ l.pos ≤ l1.pos ∧
      (l.pos < l1.pos ∨ l1.running = false) := by
  obtain ⟨l2, q, hc⟩ := getNextToken_cases h
  have b2 := q.bound hb
  rcases hc with ⟨_, rfl⟩ | ⟨k, _, l3, q3, p3, rfl⟩
  · exact ⟨q.input, b2, q.mono, Or.inr rfl⟩
  · have b3 := q3.bound b2
    have := q.mono
    refine ⟨?_, b3, ?_, Or.inl ?_⟩
    · show l3.input = l.input
      rw [q3.input, q.input]
    · show l.pos ≤ l3.pos
      omega
    · show l.pos < l3.pos
      omega

/-- The driver loop with a budget of at least `len(input) + 1` iterations. -/
theorem driver_fuel (len : Nat) (F : Nat) (hF : len < F) :
    ∀ (fuel : Nat) (l : Lexer), l.input.length = len → l.pos ≤ l.input.length →
      (len - l.pos) + (if l.running then 1 else 0) ≤ fuel →
      whileLoop (fun l => Res.ok l.running) (getNextToken F) fuel l ≠ Res.outOfFuel := by
  intro fuel
  induction fuel with
  | zero =>
    intro l _ _ hf
    have hr : l.running = false := by
      by_contra hr
      simp only [Bool.not_eq_false] at hr
      simp [hr] at hf
    simp [whileLoop, hr]
  | succ n ih =>
    intro l hl hb hf
    unfold whileLoop
    cases hr : l.running with
    | false => simp
    | true =>
      simp only [hr, if_true] at hf ⊢
      cases hg : getNextToken F l with
      | ok l1 =>
        obtain ⟨hin, hb1, hm, hp⟩ := getNextToken_progress hg hb
        have hl1 : l1.input.length = len := by rw [hin, hl]
        refine ih l1 hl1 hb1 ?_
        rcases hp with hp | hp
        · split_ifs <;> omega
        · simp only [hp, Bool.false_eq_true, if_false]
          omega
      | panic => simp
      | outOfFuel => exact absurd hg (getNextToken_fuel (by omega))

/-- The budget of `runLexer` is never used up: on every input the lexer either
completes or panics. -/
theorem runLexer_fuel (input : List Nat) : runLexer input ≠ Res.outOfFuel := by
  unfold runLexer startLexing
  cases h : whileLoop (fun l => Res.ok l.running) (getNextToken (input.length + 1))
      (input.length + 1) (createLexer Lexer.zero input) with
  | ok l => simp
  | panic => simp
  | outOfFuel =>
    refine absurd h (driver_fuel input.length _ (Nat.lt_succ_self _) _ _ rfl ?_ ?_)
    · simp [createLexer]
    · simp [createLexer]

theorem tokenize_fuel (input : List Nat) : tokenize input ≠ Res.outOfFuel := by
  unfold tokenize
  cases h : runLexer input with
  | ok l => simp
  | panic => simp
  | outOfFuel => exact absurd h (runLexer_fuel input)

/-! ## The layout loop of `getNextToken` -/

theorem Skipped.krefl (l : Lexer) : Skipped l l [] :=
  ⟨rfl, rfl, rfl, rfl, rfl, rfl, rfl, rfl, fun _ => rfl⟩

/-- The first loop of `getNextToken` in front of a run `ws` of layout bytes
that ends at a non-layout character: it skips exactly `ws`. -/
theorem skip_loop :
    ∀ (ws : List Nat) (fuel : Nat) (l : Lexer) (suf : List Nat), Cursor l (ws ++ suf) →
      (∀ b ∈ ws, isLayout b = true) → isLayout (decodeRuneInString suf).1 = false →
      ws.length ≤ fuel →
      ∃ l1, whileLoop (fun l => Res.ok (isLayout l.current_char)) skipBody fuel l = Res.ok l1 ∧
        Cursor l1 suf ∧ Skipped l l1 ws := by
  intro ws
  induction ws with
  | nil =>
    intro fuel l suf hc _ hstop _
    refine ⟨l, whileLoop_done fuel l ?_, hc, Skipped.krefl l⟩
    simp only [List.nil_append] at hc
    simp [hc.2.2, hstop]
  | cons c cs ih =>
    intro fuel l suf hc hall hstop hfuel
    have hlay := hall c (List.mem_cons_self _ _)
    have hc128 : c < 128 := by
      simp only [isLayout, decide_eq_true_eq] at hlay
      omega
    obtain ⟨n, rfl⟩ : ∃ n, fuel = n + 1 := ⟨fuel - 1, by simp at hfuel; omega⟩
    have hcur : Cursor l (c :: (cs ++ suf)) := by simpa using hc
    obtain ⟨h1, h2, h3⟩ := consume_ascii hcur hc128
    have hbody : skipBody l =
        Res.ok { advance l with skipped_chars := (advance l).skipped_chars + 1 } := by
      simp [skipBody, h1]
    have hcur2 : Cursor { advance l with skipped_chars := (advance l).skipped_chars + 1 }
        (cs ++ suf) := h2
    obtain ⟨l1, h4, h5, h6⟩ := ih n _ suf hcur2
      (fun x hx => hall x (List.mem_cons_of_mem _ hx)) hstop (by simp at hfuel; omega)
    refine ⟨l1, ?_, h5, ?_⟩
    · rw [whileLoop_step n l _ ?_ hbody, h4]
      have : l.current_char = c := by rw [hcur.2.2, decodeRuneInString_ascii _ hc128]
      simp [this, hlay]
    · have e3pos := h3.pos
      have e3col := h3.col
      have e3sk := h3.skipped
      have e3len := h3.len
      have e3buf := h3.buf
      simp only [List.length_singleton, List.filter_cons, List.filter_nil, hlay,
        Bool.not_true, Bool.false_eq_true, if_false, List.append_nil] at e3pos e3col e3buf
      have e6pos := h6.pos
      have e6col := h6.col
      have e6sk := h6.skipped
      simp only [] at e6pos e6col e6sk
      refine ⟨h6.input.trans h3.input, h6.len.trans h3.len, ?_, h6.line.trans h3.line, ?_,
        h6.buf.trans e3buf, h6.toks.trans h3.toks, ?_, ?_⟩
      · rw [e6pos, e3pos, List.length_cons]; omega
      · rw [e6col, e3col, List.length_cons]; omega
      · rw [e6sk, e3sk, List.length_cons]; omega
      · intro hle
        rw [List.length_cons] at hle
        have r6 := h6.run (by
          show 2 * cs.length + (advance l).pos + ((advance l).skipped_chars + 1)
            ≤ (advance l).input_length + 2
          rw [e3pos, e3sk, e3len]; omega)
        have r3 := h3.run (by simp only [List.length_singleton]; omega)
        exact r6.trans r3

/-- The method `getNextToken` in front of layout `ws` followed by a non-layout character:
the dispatch runs on the state after skipping `ws`, with `start_pos` set. -/
theorem getNextToken_skip (fuel : Nat) (l : Lexer) (ws suf : List Nat)
    (hc : Cursor l (ws ++ suf)) (hws : ∀ b ∈ ws, isLayout b = true)
    (hstop : isLayout (decodeRuneInString suf).1 = false) (hfuel : ws.length ≤ fuel) :
    ∃ l1, getNextToken fuel l = dispatch fuel l1 ∧ Cursor l1 suf ∧ Skipped l l1 ws := by
  have hc0 : Cursor { l with start_pos := 0 } (ws ++ suf) := hc
  obtain ⟨l1, h1, h2, h3⟩ := skip_loop ws fuel _ suf hc0 hws hstop hfuel
  refine ⟨{ l1 with start_pos := l1.pos }, ?_, h2, ?_⟩
  · simp [getNextToken, h1]
  · exact ⟨h3.input, h3.len, h3.pos, h3.line, h3.col, h3.buf, h3.toks, h3.skipped, h3.run⟩

/-- The dispatch on a character of no class only clears the running flag. -/
theorem dispatch_halt (fuel : Nat) (l : Lexer) (h : recognized l.current_char = false) :
    dispatch fuel l = Res.ok { l with running := false } := by
  simp only [recognized, Bool.or_eq_false_iff, decide_eq_false_iff_not] at h
  obtain ⟨⟨⟨⟨⟨⟨⟨h1, h2⟩, h3⟩, h4⟩, h5⟩, h6⟩, h7⟩, h8⟩ := h
  simp [dispatch, h1, h2, h3, h4, h5, h6, h7, h8]

theorem Lexed.of_steps {l l3 : Lexer} {cs suf : List Nat} (k : Nat) (hs : Steps l l3 cs)
    (hc : Cursor l3 suf) :
    Lexed l (createToken (flushBuffer l3).2 k (flushBuffer l3).1) k cs suf where
  cursor := hc
  input := hs.input
  len := hs.len
  pos := hs.pos
  line := hs.line
  col := hs.col
  buf := rfl
  toks := by
    show l3.token_stream ++ [_] = _
    rw [hs.toks]
    simp only [flushBuffer, hs.buf, hs.line, hs.col]
  skipped := hs.skipped
  run := hs.run

theorem Cursor.cur_ascii {l : Lexer} {b : Nat} {suf : List Nat} (h : Cursor l (b :: suf))
    (hb : b < 128) : l.current_char = b := by
  rw [h.2.2, decodeRuneInString_ascii suf hb]

theorem Cursor.of_nil_append {l : Lexer} {suf : List Nat} (h : Cursor l ([] ++ suf)) :
    Cursor l suf := h

theorem filter_nonLayout {cs : List Nat} (h : ∀ c ∈ cs, isLayout c = false) :
    cs.filter (fun c => !isLayout c) = cs := by
  rw [List.filter_eq_self]
  intro c hc
  simp [h c hc]

/-- Operator and separator: one character is consumed and emitted. -/
theorem recognizeOperatorToken_spec (l : Lexer) (o : Nat) (suf : List Nat)
    (hc : Cursor l (o :: suf)) (ho : o < 128) :
    ∃ l1, recognizeOperatorToken l = Res.ok l1 ∧ Lexed l l1 OPERATOR [o] suf := by
  obtain ⟨h1, h2, h3⟩ := consume_ascii hc ho
  exact ⟨_, by simp only [recognizeOperatorToken, h1], Lexed.of_steps OPERATOR h3 h2⟩

/-- String: the opening quote, the ASCII body up to the next quote, and the
closing quote are consumed. -/
theorem recognizeStringToken_spec (fuel : Nat) (l : Lexer) (body suf : List Nat)
    (hc : Cursor l (34 :: body ++ 34 :: suf)) (hbody : ∀ b ∈ body, b < 128 ∧ b ≠ 34)
    (hfuel : body.length ≤ fuel) :
    ∃ l1, recognizeStringToken fuel l = Res.ok l1 ∧
      Lexed l l1 STRING (34 :: body ++ [34]) suf := by
  have hc0 : Cursor l (34 :: (body ++ 34 :: suf)) := by simpa using hc
  obtain ⟨h1, h2, h3⟩ := consume_ascii hc0 (by decide)
  obtain ⟨l2, h4, h5, h6⟩ := run_loop (fun c => c != 34) body fuel (advance l) (34 :: suf) h2
    (fun b hb => ⟨by simpa using (hbody b hb).2, (hbody b hb).1⟩)
    (by simp [decodeRuneInString]) hfuel
  obtain ⟨h7, h8, h9⟩ := consume_ascii h5 (by decide)
  refine ⟨createToken (flushBuffer (advance l2)).2 STRING (flushBuffer (advance l2)).1, ?_, ?_⟩
  · simp only [recognizeStringToken, h1, h4, h7]
  · have hs := (h3.strans h6).strans h9
    have : [34] ++ body ++ [34] = 34 :: body ++ [34] := by simp
    rw [this] at hs
    exact Lexed.of_steps STRING hs h8

theorem isLetterOrDigit_ascii {c : Nat} (h : isLetterOrDigit c = true) :
    c < 128 ∧ isLayout c = false ∧ c ≠ 95 ∧ c ≠ 46 := by
  simp only [isLetterOrDigit, isDigit, isLetter, isLayout, Bool.or_eq_true, Bool.and_eq_true,
    decide_eq_true_eq, decide_eq_false_iff_not] at h ⊢
  omega

theorem isDigit_ascii {c : Nat} (h : isDigit c = true) :
    c < 128 ∧ isLayout c = false ∧ c ≠ 46 ∧ isLetterOrDigit c = true := by
  simp only [isLetterOrDigit, isDigit, isLetter, isLayout, Bool.or_eq_true, Bool.and_eq_true,
    decide_eq_true_eq, decide_eq_false_iff_not] at h ⊢
  omega

/-- The character `peek(1)` reads, from a cursor inside the input. -/
theorem peek_one {l : Lexer} {b : Nat} {suf : List Nat} (h : Cursor l (b :: suf)) :
    peek l 1 = Res.ok (decodeRuneInString suf).1 := by
  have hlt := h.pos_lt
  have hd : l.input.drop (l.pos + 1) = suf := by
    rw [← List.drop_drop, h.2.1]
    rfl
  simp [peek, sliceFrom, Nat.succ_le_of_lt hlt, hd]

/-! ## The identifier recognizer on identifiers -/

theorem underscoreGroups_length_le (gs : List (List Nat)) :
    gs.length ≤ (underscoreGroups gs).length := by
  induction gs with
  | nil => simp
  | cons g gs ih => simp [underscoreGroups]; omega

/-- What follows a run of letters and digits of an identifier is no letter or
digit: an underscore of the next group, or the character after the identifier. -/
theorem groups_stop (gs : List (List Nat)) (suf : List Nat)
    (hstop : isLetterOrDigit (decodeRuneInString suf).1 = false) :
    isLetterOrDigit (decodeRuneInString (underscoreGroups gs ++ suf)).1 = false := by
  cases gs with
  | nil => simpa [underscoreGroups] using hstop
  | cons g gs =>
    simp only [underscoreGroups, List.cons_append]
    rw [decodeRuneInString_ascii _ (by decide : 95 < 128)]
    decide

/-- The second loop of `recognizeIdentifierToken` consumes every underscore
group. -/
theorem underscore_loop (F : Nat) (suf : List Nat)
    (hstop : isLetterOrDigit (decodeRuneInString suf).1 = false)
    (hstop2 : (decodeRuneInString suf).1 ≠ 95) :
    ∀ (gs : List (List Nat)) (n : Nat) (l : Lexer), Cursor l (underscoreGroups gs ++ suf) →
      (∀ g ∈ gs, g ≠ [] ∧ g.length ≤ F ∧ ∀ x ∈ g, isLetterOrDigit x = true) →
      gs.length ≤ n →
      ∃ l1, whileLoop underscoreCond (underscoreBody F) n l = Res.ok l1 ∧ Cursor l1 suf ∧
        Steps l l1 (underscoreGroups gs) := by
  intro gs
  induction gs with
  | nil =>
    intro n l hc _ _
    have hc1 : Cursor l suf := hc
    refine ⟨l, whileLoop_done n l ?_, hc1, Steps.srefl l⟩
    simp [underscoreCond, hc1.2.2, hstop2]
  | cons g gs ih =>
    intro n l hc hall hn
    obtain ⟨hg0, hgF, hg⟩ := hall g (List.mem_cons_self _ _)
    obtain ⟨m, rfl⟩ : ∃ m, n = m + 1 := ⟨n - 1, by simp at hn; omega⟩
    have hcur : Cursor l (95 :: (g ++ (underscoreGroups gs ++ suf))) := by
      simpa [underscoreGroups] using hc
    obtain ⟨x, xs, rfl⟩ : ∃ x xs, g = x :: xs := List.exists_cons_of_ne_nil hg0
    have hx := hg x (List.mem_cons_self _ _)
    have hcond : underscoreCond l = Res.ok true := by
      have hp := peek_one hcur
      simp only [List.cons_append] at hp
      rw [decodeRuneInString_ascii _ (isLetterOrDigit_ascii hx).1] at hp
      simp [underscoreCond, hcur.cur_ascii (by decide), hp, hx]
    obtain ⟨h1, h2, h3⟩ := consume_ascii hcur (by decide)
    obtain ⟨l2, h4, h5, h6⟩ := run_loop isLetterOrDigit (x :: xs) F (advance l)
      (underscoreGroups gs ++ suf) h2
      (fun c hc => ⟨hg c hc, (isLetterOrDigit_ascii (hg c hc)).1⟩)
      (groups_stop gs suf hstop) hgF
    have hbody : underscoreBody F l = Res.ok l2 := by
      simp only [underscoreBody, h1]
      exact h4
    obtain ⟨l3, h7, h8, h9⟩ := ih m l2 h5
      (fun g hg => hall g (List.mem_cons_of_mem _ hg)) (by simp at hn; omega)
    refine ⟨l3, ?_, h8, ?_⟩
    · rw [whileLoop_step m l l2 hcond hbody, h7]
    · have hs := (h3.strans h6).strans h9
      simpa [underscoreGroups] using hs

/-- The identifier recognizer in front of a first ASCII character, letters and
digits, and underscore groups: it consumes all of them. -/
theorem recognizeIdentifierToken_spec (F : Nat) (l : Lexer) (c : Nat) (cs : List Nat)
    (gs : List (List Nat)) (suf : List Nat)
    (hc : Cursor l (c :: cs ++ underscoreGroups gs ++ suf)) (h0 : c < 128)
    (hcs : ∀ x ∈ cs, isLetterOrDigit x = true)
    (hgs : ∀ g ∈ gs, g ≠ [] ∧ ∀ x ∈ g, isLetterOrDigit x = true)
    (hstop : isLetterOrDigit (decodeRuneInString suf).1 = false)
    (hstop2 : (decodeRuneInString suf).1 ≠ 95)
    (hF : (c :: cs ++ underscoreGroups gs).length ≤ F) :
    ∃ l1, recognizeIdentifierToken F l = Res.ok l1 ∧
      Lexed l l1 IDENTIFIER (c :: cs ++ underscoreGroups gs) suf := by
  have hcur : Cursor l (c :: (cs ++ (underscoreGroups gs ++ suf))) := by simpa using hc
  simp only [List.length_append, List.length_cons] at hF
  obtain ⟨h1, h2, h3⟩ := consume_ascii hcur h0
  obtain ⟨l2, h4, h5, h6⟩ := run_loop isLetterOrDigit cs F (advance l)
    (underscoreGroups gs ++ suf) h2
    (fun x hx => ⟨hcs x hx, (isLetterOrDigit_ascii (hcs x hx)).1⟩)
    (groups_stop gs suf hstop) (by omega)
  have hgF : ∀ g ∈ gs, g ≠ [] ∧ g.length ≤ F ∧ ∀ x ∈ g, isLetterOrDigit x = true := by
    intro g hg
    refine ⟨(hgs g hg).1, ?_, (hgs g hg).2⟩
    have : g.length ≤ (underscoreGroups gs).length := by
      clear hF hc hcur h2 h5 h6 h4
      induction gs with
      | nil => simp at hg
      | cons g1 gs ih =>
        simp only [underscoreGroups, List.length_cons, List.length_append]
        rcases List.mem_cons.mp hg with rfl | hg
        · omega
        · have := ih (fun g hg => hgs g (List.mem_cons_of_mem _ hg)) hg
          omega
    omega
  have hgl := underscoreGroups_length_le gs
  obtain ⟨l3, h7, h8, h9⟩ := underscore_loop F suf hstop hstop2 gs F l2 h5 hgF (by omega)
  refine ⟨createToken (flushBuffer l3).2 IDENTIFIER (flushBuffer l3).1, ?_, ?_⟩
  · simp only [recognizeIdentifierToken, h1]
    have h4' : letterOrDigitLoop F (advance l) = Res.ok l2 := h4
    simp only [h4', h7]
  · have hs := (h3.strans h6).strans h9
    have : [c] ++ cs ++ underscoreGroups gs = c :: cs ++ underscoreGroups gs := by simp
    rw [this] at hs
    exact Lexed.of_steps IDENTIFIER hs h8

/-! ## The number recognizer on numbers at the end of the input -/

/-- The `else` loop of `recognizeNumberToken` on digits up to the end of the
input. -/
theorem number_loop_digits (F : Nat) :
    ∀ (ds : List Nat) (n : Nat) (l : Lexer), Cursor l ds →
      (∀ d ∈ ds, isDigit d = true) → ds.length ≤ n →
      ∃ l1, whileLoop (fun l => Res.ok (isDigit l.current_char)) (numberLoopBody F) n l
          = Res.ok l1 ∧ Cursor l1 [] ∧ Steps l l1 ds := by
  intro ds
  induction ds with
  | nil =>
    intro n l hc _ _
    refine ⟨l, whileLoop_done n l ?_, hc, Steps.srefl l⟩
    simp only [hc.2.2, decodeRuneInString]
    decide
  | cons d ds ih =>
    intro n l hc hall hn
    have hd := hall d (List.mem_cons_self _ _)
    obtain ⟨m, rfl⟩ : ∃ m, n = m + 1 := ⟨n - 1, by simp at hn; omega⟩
    obtain ⟨h1, h2, h3⟩ := consume_ascii hc (isDigit_ascii hd).1
    have hpeek : (decodeRuneInString ds).1 ≠ 46 := by
      cases ds with
      | nil => simp [decodeRuneInString]
      | cons e es =>
        have he := hall e (List.mem_cons_of_mem _ (List.mem_cons_self _ _))
        rw [decodeRuneInString_ascii _ (isDigit_ascii he).1]
        exact (isDigit_ascii he).2.2.1
    have hbody : numberLoopBody F l = Res.ok (advance l) := by
      simp only [numberLoopBody, peek_one hc, if_neg hpeek, h1]
    obtain ⟨l2, h4, h5, h6⟩ := ih m (advance l) h2
      (fun x hx => hall x (List.mem_cons_of_mem _ hx)) (by simp at hn; omega)
    refine ⟨l2, ?_, h5, by simpa using h3.strans h6⟩
    rw [whileLoop_step m l (advance l) ?_ hbody, h4]
    simp [hc.cur_ascii (isDigit_ascii hd).1, hd]

/-- The `else` loop of `recognizeNumberToken` on digits, a dot and digits up to
the end of the input: the iteration at the last digit before the dot consumes
that digit and the dot. -/
theorem number_loop_dot (F : Nat) (es : List Nat) (hes : ∀ d ∈ es, isDigit d = true) :
    ∀ (ds : List Nat) (n : Nat) (l : Lexer), ds ≠ [] → Cursor l (ds ++ 46 :: es) →
      (∀ d ∈ ds, isDigit d = true) → ds.length + es.length ≤ n →
      ∃ l1, whileLoop (fun l => Res.ok (isDigit l.current_char)) (numberLoopBody F) n l
          = Res.ok l1 ∧ Cursor l1 [] ∧ Steps l l1 (ds ++ 46 :: es) := by
  intro ds
  induction ds with
  | nil => intro n l h; exact absurd rfl h
  | cons d ds ih =>
    intro n l _ hc hall hn
    have hd := hall d (List.mem_cons_self _ _)
    obtain ⟨m, rfl⟩ : ∃ m, n = m + 1 := ⟨n - 1, by simp at hn; omega⟩
    have hcur : Cursor l (d :: (ds ++ 46 :: es)) := by simpa using hc
    obtain ⟨h1, h2, h3⟩ := consume_ascii hcur (isDigit_ascii hd).1
    have hcond : (fun l : Lexer => Res.ok (isDigit l.current_char)) l = Res.ok true := by
      simp [hcur.cur_ascii (isDigit_ascii hd).1, hd]
    cases ds with
    | nil =>
      have h2' : Cursor (advance l) (46 :: es) := h2
      have hdl : digitLoop F (advance l) = Res.ok (advance l) := by
        refine whileLoop_done F _ ?_
        simp only [h2'.cur_ascii (by decide)]
        decide
      obtain ⟨h4, h5, h6⟩ := consume_ascii h2' (by decide)
      have hpeek : peek l 1 = Res.ok 46 := by
        rw [peek_one hcur]
        simp [decodeRuneInString]
      have hbody : numberLoopBody F l = Res.ok (advance (advance l)) := by
        simp only [numberLoopBody, hpeek, if_true, h1, hdl, h4]
      obtain ⟨l2, h7, h8, h9⟩ := number_loop_digits F es m (advance (advance l)) h5 hes
        (by simp at hn; omega)
      refine ⟨l2, ?_, h8, ?_⟩
      · rw [whileLoop_step m l _ hcond hbody, h7]
      · simpa using (h3.strans h6).strans h9
    | cons e ds =>
      have he := hall e (List.mem_cons_of_mem _ (List.mem_cons_self _ _))
      have hpeek : peek l 1 = Res.ok e := by
        rw [peek_one hcur]
        simp only [List.cons_append]
        rw [decodeRuneInString_ascii _ (isDigit_ascii he).1]
      have hbody : numberLoopBody F l = Res.ok (advance l) := by
        simp only [numberLoopBody, hpeek, if_neg (isDigit_ascii he).2.2.1, h1]
      obtain ⟨l2, h7, h8, h9⟩ := ih m (advance l) (List.cons_ne_nil _ _) h2
        (fun x hx => hall x (List.mem_cons_of_mem _ hx)) (by simp at hn ⊢; omega)
      refine ⟨l2, ?_, h8, ?_⟩
      · rw [whileLoop_step m l _ hcond hbody, h7]
      · simpa using h3.strans h9

/-- The number recognizer on digits up to the end of the input. -/
theorem recognizeNumberToken_digits (F : Nat) (l : Lexer) (d : Nat) (ds : List Nat)
    (hc : Cursor l (d :: ds)) (hd : isDigit d = true) (hds : ∀ x ∈ ds, isDigit x = true)
    (hF : ds.length ≤ F) :
    ∃ l1, recognizeNumberToken F l = Res.ok l1 ∧ Lexed l l1 NUMBER (d :: ds) [] := by
  obtain ⟨h1, h2, h3⟩ := consume_ascii hc (isDigit_ascii hd).1
  have hne : (advance l).current_char ≠ 46 := by
    rw [h2.2.2]
    cases ds with
    | nil => simp [decodeRuneInString]
    | cons e es =>
      have he := hds e (List.mem_cons_self _ _)
      rw [decodeRuneInString_ascii _ (isDigit_ascii he).1]
      exact (isDigit_ascii he).2.2.1
  obtain ⟨l2, h4, h5, h6⟩ := number_loop_digits F ds F (advance l) h2 hds hF
  refine ⟨createToken (flushBuffer l2).2 NUMBER (flushBuffer l2).1, ?_, ?_⟩
  · simp only [recognizeNumberToken, h1, if_neg hne, h4]
  · have hs := h3.strans h6
    exact Lexed.of_steps NUMBER hs h5

/-- The number recognizer on digits, a dot and digits up to the end of the
input. -/
theorem recognizeNumberToken_dot (F : Nat) (l : Lexer) (d : Nat) (ds es : List Nat)
    (hc : Cursor l (d :: ds ++ 46 :: es)) (hd : isDigit d = true)
    (hds : ∀ x ∈ ds, isDigit x = true) (hes : ∀ x ∈ es, isDigit x = true)
    (hF : ds.length + es.length ≤ F) :
    ∃ l1, recognizeNumberToken F l = Res.ok l1 ∧
      Lexed l l1 NUMBER (d :: ds ++ 46 :: es) [] := by
  have hcur : Cursor l (d :: (ds ++ 46 :: es)) := by simpa using hc
  obtain ⟨h1, h2, h3⟩ := consume_ascii hcur (isDigit_ascii hd).1
  cases ds with
  | nil =>
    have h2' : Cursor (advance l) (46 :: es) := h2
    obtain ⟨h4, h5, h6⟩ := consume_ascii h2' (by decide)
    obtain ⟨l2, h7, h8, h9⟩ := run_loop isDigit es F (advance (advance l)) []
      (by simpa using h5) (fun x hx => ⟨hes x hx, (isDigit_ascii (hes x hx)).1⟩)
      (by simp [decodeRuneInString]; decide) (by simp at hF; omega)
    refine ⟨createToken (flushBuffer l2).2 NUMBER (flushBuffer l2).1, ?_, ?_⟩
    · have h7' : digitLoop F (advance (advance l)) = Res.ok l2 := h7
      simp only [recognizeNumberToken, h1, h2'.cur_ascii (by decide), if_true, h4, h7']
    · have hs := (h3.strans h6).strans h9
      exact Lexed.of_steps NUMBER (by simpa using hs) (by simpa using h8)
  | cons e ds =>
    have he := hds e (List.mem_cons_self _ _)
    have h2' : Cursor (advance l) (e :: (ds ++ 46 :: es)) := by simpa using h2
    have hne : (advance l).current_char ≠ 46 := by
      rw [h2'.cur_ascii (isDigit_ascii he).1]
      exact (isDigit_ascii he).2.2.1
    obtain ⟨l2, h4, h5, h6⟩ := number_loop_dot F es hes (e :: ds) F (advance l)
      (List.cons_ne_nil _ _) h2 hds (by simpa using hF)
    refine ⟨createToken (flushBuffer l2).2 NUMBER (flushBuffer l2).1, ?_, ?_⟩
    · simp only [recognizeNumberToken, h1, if_neg hne, h4]
    · have hs := h3.strans h6
      exact Lexed.of_steps NUMBER (by simpa using hs) h5

/-! ## The driver -/

/-- The result of `runLexer` and `tokenize` from the result of the driver loop. -/
theorem tokenize_of_driver {input : List Nat} {l1 : Lexer}
    (h : whileLoop (fun l => Res.ok l.running) (getNextToken (input.length + 1))
      (input.length + 1) (createLexer Lexer.zero input) = Res.ok l1) :
    runLexer input = Res.ok (createToken l1 END_OF_FILE eofContent) ∧
      tokenize input =
        Res.ok (l1.token_stream ++ [eofToken l1.line_number l1.char_number]) := by
  have hr : runLexer input = Res.ok (createToken l1 END_OF_FILE eofContent) := by
    simp only [runLexer, startLexing, h]
  refine ⟨hr, ?_⟩
  simp only [tokenize, hr]
  rfl

theorem createLexer_cursor (input : List Nat) : Cursor (createLexer Lexer.zero input) input :=
  ⟨rfl, rfl, rfl⟩

/-- The driver in front of layout and then a character of no class (or the end
of the input): it stops without a token. -/
theorem driver_halt (F n : Nat) (l : Lexer) (ws suf : List Nat) (hc : Cursor l (ws ++ suf))
    (hws : ∀ b ∈ ws, isLayout b = true)
    (hl : isLayout (decodeRuneInString suf).1 = false)
    (hr : recognized (decodeRuneInString suf).1 = false) (hF : ws.length ≤ F)
    (hrun : l.running = true) :
    ∃ l1, whileLoop (fun l => Res.ok l.running) (getNextToken F) (n + 1) l = Res.ok l1 ∧
      l1.running = false ∧ l1.token_stream = l.token_stream ∧
      l1.line_number = l.line_number ∧ l1.char_number = l.char_number + ws.length ∧
      l1.pos = l.pos + ws.length ∧ l1.input = l.input := by
  obtain ⟨l1, h1, h2, h3⟩ := getNextToken_skip F l ws suf hc hws hl hF
  have hd := dispatch_halt F l1 (by rw [h2.2.2]; exact hr)
  rw [hd] at h1
  refine ⟨{ l1 with running := false }, ?_, rfl, h3.toks, h3.line, h3.col, h3.pos, h3.input⟩
  rw [whileLoop_step n l _ (by simp [hrun]) h1]
  exact whileLoop_done n _ rfl

/-- The driver at the end of the input: it stops without a further token,
whether the running flag is still set or not. -/
theorem driver_finish (F n : Nat) (l : Lexer) (hc : Cursor l []) :
    ∃ l1, whileLoop (fun l => Res.ok l.running) (getNextToken F) (n + 1) l = Res.ok l1 ∧
      l1.running = false ∧ l1.token_stream = l.token_stream ∧
      l1.line_number = l.line_number ∧ l1.char_number = l.char_number ∧ l1.pos = l.pos := by
  cases hrun : l.running with
  | false => exact ⟨l, whileLoop_done _ _ (by simp [hrun]), hrun, rfl, rfl, rfl, rfl⟩
  | true =>
    obtain ⟨l1, h1, h2, h3, h4, h5, h6, _⟩ := driver_halt F n l [] [] hc (by simp)
      (by simp only [decodeRuneInString]; decide) (by simp only [decodeRuneInString]; decide)
      (Nat.zero_le _) hrun
    exact ⟨l1, h1, h2, h3, h4, by simpa using h5, by simpa using h6⟩

/-- One iteration of the driver that skips layout `ws` and then runs a
recognizer on the lexeme `cs`. -/
theorem driver_token (F n : Nat) (l : Lexer) (k : Nat) (ws cs suf : List Nat)
    (hc : Cursor l (ws ++ (cs ++ suf))) (hb : l.buffer = []) (hrun : l.running = true)
    (hws : ∀ b ∈ ws, isLayout b = true)
    (hl : isLayout (decodeRuneInString (cs ++ suf)).1 = false) (hF : ws.length ≤ F)
    (hrec : ∀ l1, Cursor l1 (cs ++ suf) →
      ∃ l2, dispatch F l1 = Res.ok l2 ∧ Lexed l1 l2 k cs suf) :
    ∃ l2, whileLoop (fun l => Res.ok l.running) (getNextToken F) (n + 1) l =
        whileLoop (fun l => Res.ok l.running) (getNextToken F) n l2 ∧
      Tokenized l l2 k ws cs suf := by
  obtain ⟨l1, h1, h2, h3⟩ := getNextToken_skip F l ws (cs ++ suf) hc hws hl hF
  obtain ⟨l2, h4, h5⟩ := hrec l1 h2
  rw [h4] at h1
  refine ⟨l2, whileLoop_step n l l2 (by simp [hrun]) h1, ?_⟩
  refine ⟨h5.cursor, h5.len.trans h3.len, ?_, h5.line.trans h3.line, ?_, h5.buf, ?_, ?_, ?_⟩
  · rw [h5.pos, h3.pos]
  · rw [h5.col, h3.col]
  · rw [h5.toks, h3.toks, h3.buf, hb, h3.line, h3.col]
    simp
  · rw [h5.skipped, h3.skipped]
  · intro hle
    have r5 := h5.run (by rw [h3.pos, h3.skipped, h3.len]; omega)
    have r3 := h3.run (by omega)
    rw [r5, r3]

theorem dispatch_number (F : Nat) (l : Lexer) (h : isDigit l.current_char = true) :
    dispatch F l = recognizeNumberToken F l := by
  simp [dispatch, h]

theorem dispatch_identifier (F : Nat) (l : Lexer) (h : isLetter l.current_char = true) :
    dispatch F l = recognizeIdentifierToken F l := by
  have h1 : isDigit l.current_char = false := by
    simp only [isLetter, isDigit, Bool.or_eq_true, Bool.and_eq_true, decide_eq_true_eq,
      Bool.and_eq_false_iff, decide_eq_false_iff_not] at h ⊢
    omega
  have h2 : l.current_char ≠ 46 := by
    simp only [isLetter, Bool.or_eq_true, Bool.and_eq_true, decide_eq_true_eq] at h
    omega
  simp [dispatch, h1, h2, isLetterOrDigit, h]

theorem dispatch_string (F : Nat) (l : Lexer) (h : l.current_char = 34) :
    dispatch F l = recognizeStringToken F l := by
  simp only [dispatch, h]
  rfl

theorem dispatch_operator (F : Nat) (l : Lexer) (h : l.current_char ∈ [43, 45, 42, 47, 61]) :
    dispatch F l = recognizeOperatorToken l := by
  simp only [List.mem_cons, List.mem_singleton, List.not_mem_nil, or_false] at h
  rcases h with h | h | h | h | h <;> simp only [dispatch, h] <;> rfl

/-- Tokenizing an input that is one ASCII lexeme without layout: the token and
the end-of-file token. -/
theorem tokenize_single (input : List Nat) (k : Nat) (hne : input ≠ [])
    (hl : isLayout (decodeRuneInString input).1 = false)
    (hrec : ∀ l1, Cursor l1 input →
      ∃ l2, dispatch (input.length + 1) l1 = Res.ok l2 ∧ Lexed l1 l2 k input []) :
    tokenize input = Res.ok
      [{ token_type := k, content := input.filter (fun c => !isLayout c), line_number := 1,
         char_number := input.length + 1 },
       eofToken 1 (input.length + 1)] := by
  obtain ⟨m, hm⟩ : ∃ m, input.length = m + 1 :=
    ⟨input.length - 1, by have := List.length_pos_of_ne_nil hne; omega⟩
  obtain ⟨l2, h1, h2⟩ := driver_token (input.length + 1) input.length
    (createLexer Lexer.zero input) k [] input []
    (by simpa using createLexer_cursor input) rfl rfl (by simp) (by simpa using hl)
    (Nat.zero_le _) (by simpa using hrec)
  rw [hm] at h1
  obtain ⟨l3, h3, _, h5, h6, h7, _⟩ := driver_finish (m + 1 + 1) m l2 h2.cursor
  rw [h3, ← hm] at h1
  rw [(tokenize_of_driver h1).2, h5, h6, h7, h2.toks, h2.line, h2.col]
  simp [createLexer, Lexer.zero, Nat.add_comm]

/-! ## What one `getNextToken` does to the token stream, line and column -/

/-- A completed `getNextToken` keeps the line, moves the column with the
cursor, and either leaves the token stream alone or appends one token that is
not the end-of-file token and carries the line and column of the state the
recognizer left. -/
theorem getNextToken_stream {F : Nat} {l l1 : Lexer} (h : getNextToken F l = Res.ok l1) :
    l1.line_number = l.line_number ∧ l1.char_number + l.pos = l.char_number + l1.pos ∧
      (l1.token_stream = l.token_stream ∨
        ∃ t, l1.token_stream = l.token_stream ++ [t] ∧ t.token_type ≠ END_OF_FILE ∧
          t.line_number = l1.line_number ∧ t.char_number = l1.char_number ∧
          l.pos < l1.pos) := by
  obtain ⟨l2, q, hc⟩ := getNextToken_cases h
  rcases hc with ⟨_, rfl⟩ | ⟨k, hk, l3, q3, p3, rfl⟩
  · exact ⟨q.line, q.col, Or.inl q.toks⟩
  · have q13 := q.qtrans q3
    have := q.mono
    refine ⟨q13.line, q13.col, Or.inr ⟨⟨k, l3.buffer, l3.line_number, l3.char_number⟩, ?_, hk,
      rfl, rfl, ?_⟩⟩
    · show l3.token_stream ++ [_] = l.token_stream ++ [_]
      rw [q13.toks]
      rfl
    · show l.pos < l3.pos
      omega

/-- Every state the driver reaches is on line 1 and has the column one past
the cursor. -/
theorem reachable_position {input : List Nat} {l : Lexer} (h : Reachable input l) :
    l.line_number = 1 ∧ l.char_number = l.pos + 1 := by
  induction h with
  | init => exact ⟨rfl, rfl⟩
  | step fuel _ hg ih =>
    obtain ⟨h1, h2, _⟩ := getNextToken_stream hg
    exact ⟨h1.trans ih.1, by omega⟩

/-- From a state on line 1 whose column is one past the cursor, the driver loop
leads to such a state again, and every token it appends is not an end-of-file
token, carries line 1 and a column of at least 2. -/
theorem driver_positions {F fuel : Nat} {l l1 : Lexer}
    (h : whileLoop (fun l => Res.ok l.running) (getNextToken F) fuel l = Res.ok l1)
    (hline : l.line_number = 1) (hcol : l.char_number = l.pos + 1) :
    l1.line_number = 1 ∧ l1.char_number = l1.pos + 1 ∧
      ∃ ts, l1.token_stream = l.token_stream ++ ts ∧
        ∀ t ∈ ts, t.token_type ≠ END_OF_FILE ∧ t.line_number = 1 ∧ 2 ≤ t.char_number := by
  refine (whileLoop_rel
    (fun a b => a.line_number = 1 → a.char_number = a.pos + 1 →
      b.line_number = 1 ∧ b.char_number = b.pos + 1 ∧
      ∃ ts, b.token_stream = a.token_stream ++ ts ∧
        ∀ t ∈ ts, t.token_type ≠ END_OF_FILE ∧ t.line_number = 1 ∧ 2 ≤ t.char_number)
    ?_ ?_ ?_ fuel l l1 h).1 hline hcol
  · intro a h1 h2
    exact ⟨h1, h2, [], by simp, by simp⟩
  · intro a b c hab hbc h1 h2
    obtain ⟨h3, h4, ts, h5, h6⟩ := hab h1 h2
    obtain ⟨h7, h8, us, h9, h10⟩ := hbc h3 h4
    refine ⟨h7, h8, ts ++ us, by rw [h9, h5, List.append_assoc], ?_⟩
    intro t ht
    rcases List.mem_append.mp ht with ht | ht
    · exact h6 t ht
    · exact h10 t ht
  · intro a b _ hg h1 h2
    obtain ⟨h3, h4, hs⟩ := getNextToken_stream hg
    have hb1 : b.line_number = 1 := h3.trans h1
    have hb2 : b.char_number = b.pos + 1 := by omega
    refine ⟨hb1, hb2, ?_⟩
    rcases hs with hs | ⟨t, ht, hk, hl, hc, hp⟩
    · exact ⟨[], by simp [hs], by simp⟩
    · refine ⟨[t], ht, ?_⟩
      intro u hu
      rw [List.mem_singleton.mp hu]
      exact ⟨hk, hl.trans hb1, by omega⟩

/-- The driver loop only appends tokens that are not end-of-file tokens. -/
theorem driver_stream {F fuel : Nat} {l l1 : Lexer}
    (h : whileLoop (fun l => Res.ok l.running) (getNextToken F) fuel l = Res.ok l1) :
    ∃ ts, l1.token_stream = l.token_stream ++ ts ∧ ∀ t ∈ ts, t.token_type ≠ END_OF_FILE := by
  refine (whileLoop_rel
    (fun a b => ∃ ts, b.token_stream = a.token_stream ++ ts ∧
      ∀ t ∈ ts, t.token_type ≠ END_OF_FILE) ?_ ?_ ?_ fuel l l1 h).1
  · intro a
    exact ⟨[], by simp, by simp⟩
  · rintro a b c ⟨ts, h1, h2⟩ ⟨us, h3, h4⟩
    refine ⟨ts ++ us, by rw [h3, h1, List.append_assoc], ?_⟩
    intro t ht
    rcases List.mem_append.mp ht with ht | ht
    · exact h2 t ht
    · exact h4 t ht
  · intro a b _ hg
    obtain ⟨_, _, hs | ⟨t, ht, hk, _⟩⟩ := getNextToken_stream hg
    · exact ⟨[], by simp [hs], by simp⟩
    · exact ⟨[t], ht, by simpa using hk⟩

/-- A completed `runLexer` is a completed driver loop followed by the
end-of-file token. -/
theorem runLexer_ok {input : List Nat} {l : Lexer} (h : runLexer input = Res.ok l) :
    ∃ l1, whileLoop (fun l => Res.ok l.running) (getNextToken (input.length + 1))
        (input.length + 1) (createLexer Lexer.zero input) = Res.ok l1 ∧
      l = createToken l1 END_OF_FILE eofContent := by
  unfold runLexer startLexing at h
  cases hd : whileLoop (fun l => Res.ok l.running) (getNextToken (input.length + 1))
      (input.length + 1) (createLexer Lexer.zero input) with
  | ok l1 =>
    simp only [hd, Res.ok.injEq] at h
    exact ⟨l1, rfl, h.symm⟩
  | panic => simp [hd] at h
  | outOfFuel => simp [hd] at h

theorem tokenize_ok {input : List Nat} {toks : List Token} (h : tokenize input = Res.ok toks) :
    ∃ l, runLexer input = Res.ok l ∧ toks = l.token_stream := by
  unfold tokenize at h
  cases hr : runLexer input with
  | ok l =>
    simp only [hr, Res.ok.injEq] at h
    exact ⟨l, rfl, h.symm⟩
  | panic => simp [hr] at h
  | outOfFuel => simp [hr] at h

theorem underscoreGroups_nonLayout (gs : List (List Nat))
    (hgs : ∀ g ∈ gs, g ≠ [] ∧ ∀ x ∈ g, isLetterOrDigit x = true) :
    ∀ x ∈ underscoreGroups gs, isLayout x = false := by
  induction gs with
  | nil => simp [underscoreGroups]
  | cons g gs ih =>
    intro x hx
    simp only [underscoreGroups, List.mem_cons, List.mem_append] at hx
    rcases hx with (rfl | hx) | hx
    · decide
    · exact (isLetterOrDigit_ascii ((hgs g (List.mem_cons_self _ _)).2 x hx)).2.1
    · exact ih (fun g hg => hgs g (List.mem_cons_of_mem _ hg)) x hx

theorem isLetter_ascii {c : Nat} (h : isLetter c = true) :
    c < 128 ∧ isLayout c = false ∧ isLetterOrDigit c = true := by
  simp only [isLetterOrDigit, isDigit, isLetter, isLayout, Bool.or_eq_true, Bool.and_eq_true,
    decide_eq_true_eq, decide_eq_false_iff_not] at h ⊢
  omega

/-! ## The claims -/

/-- C1: on every input the pass either completes or panics (the budget of the
model is never used up), and when it completes the token stream is non-empty,
its last token has kind `END_OF_FILE` and content `<EOF>`, and no other token
of the stream has kind `END_OF_FILE`. -/
theorem C1_stream_ends_with_one_eof (input : List Nat) :
    tokenize input ≠ Res.outOfFuel ∧
      ∀ toks, tokenize input = Res.ok toks →
        ∃ front last, toks = front ++ [last] ∧ last.token_type = END_OF_FILE ∧
          last.content = eofContent ∧ ∀ t ∈ front, t.token_type ≠ END_OF_FILE := by
  refine ⟨tokenize_fuel input, ?_⟩
  intro toks h
  obtain ⟨l, hr, rfl⟩ := tokenize_ok h
  obtain ⟨l1, hd, rfl⟩ := runLexer_ok hr
  obtain ⟨ts, h1, h2⟩ := driver_stream hd
  refine ⟨ts, ⟨END_OF_FILE, eofContent, l1.line_number, l1.char_number⟩, ?_, rfl, rfl, h2⟩
  show l1.token_stream ++ [_] = _
  rw [h1]
  rfl

/-- Witness of C1 on the input `x = 5`. -/
theorem C1_witness :
    ∃ front last,
      [(⟨IDENTIFIER, ascii "x", 1, 2⟩ : Token), ⟨OPERATOR, ascii "=", 1, 4⟩,
        ⟨NUMBER, ascii "5", 1, 6⟩, eofToken 1 6] = front ++ [last] ∧
      last.token_type = END_OF_FILE ∧ last.content = eofContent ∧
      ∀ t ∈ front, t.token_type ≠ END_OF_FILE :=
  (C1_stream_ends_with_one_eof (ascii "x = 5")).2 _ (by decide)

/-- C2: an input of one or more decimal digits, or of digits, one dot and
digits, is tokenized into one `NUMBER` token whose content is the whole input,
followed by the end-of-file token. -/
theorem C2_number_token (input ds es : List Nat) (hne : ds ≠ [])
    (hds : ∀ x ∈ ds, isDigit x = true) (hes : ∀ x ∈ es, isDigit x = true)
    (hin : input = ds ∨ (es ≠ [] ∧ input = ds ++ 46 :: es)) :
    tokenize input = Res.ok
      [{ token_type := NUMBER, content := input, line_number := 1,
         char_number := input.length + 1 },
       eofToken 1 (input.length + 1)] := by
  obtain ⟨d, ds, rfl⟩ := List.exists_cons_of_ne_nil hne
  have hd := hds d (List.mem_cons_self _ _)
  have hds1 : ∀ x ∈ ds, isDigit x = true := fun x hx => hds x (List.mem_cons_of_mem _ hx)
  have hdl : ∀ t, isLayout (decodeRuneInString (d :: t)).1 = false := by
    intro t
    rw [decodeRuneInString_ascii _ (isDigit_ascii hd).1]
    exact (isDigit_ascii hd).2.1
  rcases hin with rfl | ⟨_, rfl⟩
  · have hnl : ∀ c ∈ d :: ds, isLayout c = false := fun c hc => (isDigit_ascii (hds c hc)).2.1
    have := tokenize_single (d :: ds) NUMBER (List.cons_ne_nil _ _) (hdl ds) (by
      intro l1 hc
      rw [dispatch_number _ l1 (by rw [hc.cur_ascii (isDigit_ascii hd).1]; exact hd)]
      exact recognizeNumberToken_digits _ l1 d ds hc hd hds1
        (by simp only [List.length_cons]; omega))
    rw [filter_nonLayout hnl] at this
    exact this
  · have hnl : ∀ c ∈ d :: ds ++ 46 :: es, isLayout c = false := by
      intro c hc
      rcases List.mem_append.mp hc with hc | hc
      · exact (isDigit_ascii (hds c hc)).2.1
      · rcases List.mem_cons.mp hc with rfl | hc
        · decide
        · exact (isDigit_ascii (hes c hc)).2.1
    have := tokenize_single (d :: ds ++ 46 :: es) NUMBER (by simp)
      (by simpa using hdl (ds ++ 46 :: es)) (by
      intro l1 hc
      have hc1 : Cursor l1 (d :: (ds ++ 46 :: es)) := by simpa using hc
      rw [dispatch_number _ l1 (by rw [hc1.cur_ascii (isDigit_ascii hd).1]; exact hd)]
      exact recognizeNumberToken_dot _ l1 d ds es hc hd hds1 hes
        (by simp only [List.length_cons, List.length_append]; omega))
    rw [filter_nonLayout hnl] at this
    exact this

/-- Witness of C2 on the input `12.5`. -/
theorem C2_witness :
    tokenize (ascii "12.5") = Res.ok [⟨NUMBER, ascii "12.5", 1, 5⟩, eofToken 1 5] :=
  C2_number_token (ascii "12.5") (ascii "12") (ascii "5") (by decide) (by decide) (by decide)
    (Or.inr ⟨by decide, by decide⟩)

/-- C3: an input that is an ASCII letter, then letters and digits, then zero or
more groups of one underscore and one or more letters or digits, is tokenized
into one `IDENTIFIER` token whose content is the whole input, followed by the
end-of-file token. -/
theorem C3_identifier_token (c : Nat) (cs : List Nat) (gs : List (List Nat))
    (hc : isLetter c = true) (hcs : ∀ x ∈ cs, isLetterOrDigit x = true)
    (hgs : ∀ g ∈ gs, g ≠ [] ∧ ∀ x ∈ g, isLetterOrDigit x = true) :
    tokenize (c :: cs ++ underscoreGroups gs) = Res.ok
      [{ token_type := IDENTIFIER, content := c :: cs ++ underscoreGroups gs, line_number := 1,
         char_number := (c :: cs ++ underscoreGroups gs).length + 1 },
       eofToken 1 ((c :: cs ++ underscoreGroups gs).length + 1)] := by
  have hca := isLetter_ascii hc
  have hnl : ∀ x ∈ c :: cs ++ underscoreGroups gs, isLayout x = false := by
    intro x hx
    rcases List.mem_append.mp hx with hx | hx
    · rcases List.mem_cons.mp hx with rfl | hx
      · exact hca.2.1
      · exact (isLetterOrDigit_ascii (hcs x hx)).2.1
    · exact underscoreGroups_nonLayout gs hgs x hx
  have := tokenize_single (c :: cs ++ underscoreGroups gs) IDENTIFIER (by simp)
    (by
      simp only [List.cons_append]
      rw [decodeRuneInString_ascii _ hca.1]
      exact hca.2.1)
    (by
      intro l1 hcur
      have hc1 : Cursor l1 (c :: (cs ++ underscoreGroups gs)) := by simpa using hcur
      rw [dispatch_identifier _ l1 (by rw [hc1.cur_ascii hca.1]; exact hc)]
      exact recognizeIdentifierToken_spec _ l1 c cs gs [] (by simpa using hcur) hca.1 hcs hgs
        (by simp only [decodeRuneInString]; decide) (by simp only [decodeRuneInString]; decide)
        (Nat.le_succ _))
  rw [filter_nonLayout hnl] at this
  exact this

/-- Witness of C3 on the input `abc_123`. -/
theorem C3_witness :
    tokenize (ascii "abc_123") = Res.ok [⟨IDENTIFIER, ascii "abc_123", 1, 8⟩, eofToken 1 8] :=
  C3_identifier_token 97 (ascii "bc") [ascii "123"] (by decide) (by decide) (by decide)

/-- C4, counterexample: the string literal `"a b"` is emitted with the content
`"ab"`, which is not the literal as written: the space inside it is consumed
but not put into the buffer. And the literal of the two bytes `C3 A9` (the
letter e with an acute accent) is emitted with the four bytes `C3 83 C2 A9`
between the quotes, each input byte converted to a string on its own. -/
theorem C4_counterexample :
    tokenize ([34] ++ ascii "a b" ++ [34]) =
        Res.ok [⟨STRING, [34] ++ ascii "ab" ++ [34], 1, 6⟩, eofToken 1 6] ∧
      [34] ++ ascii "ab" ++ [34] ≠ [34] ++ ascii "a b" ++ [34] ∧
      tokenize [34, 0xC3, 0xA9, 34] =
        Res.ok [⟨STRING, [34, 0xC3, 0x83, 0xC2, 0xA9, 34], 1, 5⟩, eofToken 1 5] := by
  decide

/-- C4, amended: for every ASCII body without a double quote, the quoted body
is tokenized into one `STRING` token whose content is the literal with both
quotes and without the layout characters (code point at most 32) of the body,
followed by the end-of-file token. -/
theorem C4_string_token (body : List Nat) (hbody : ∀ b ∈ body, b < 128 ∧ b ≠ 34) :
    tokenize (34 :: body ++ [34]) = Res.ok
      [{ token_type := STRING,
         content := 34 :: body.filter (fun c => !isLayout c) ++ [34],
         line_number := 1, char_number := body.length + 3 },
       eofToken 1 (body.length + 3)] := by
  have := tokenize_single (34 :: body ++ [34]) STRING (by simp)
    (by
      simp only [List.cons_append]
      rw [decodeRuneInString_ascii _ (by decide : 34 < 128)]
      decide)
    (by
      intro l1 hcur
      have hc1 : Cursor l1 (34 :: (body ++ [34])) := by simpa using hcur
      rw [dispatch_string _ l1 (hc1.cur_ascii (by decide))]
      exact recognizeStringToken_spec _ l1 body [] (by simpa using hcur) hbody
        (by simp only [List.length_cons, List.length_append]; omega))
  rw [this]
  have h34 : isLayout 34 = false := by decide
  simp [List.filter_cons, List.filter_append, h34]

/-- Witness of the amended C4 on the literal `"a b"`. -/
theorem C4_witness :
    tokenize (34 :: ascii "a b" ++ [34]) = Res.ok
      [{ token_type := STRING,
         content := 34 :: (ascii "a b").filter (fun c => !isLayout c) ++ [34],
         line_number := 1, char_number := (ascii "a b").length + 3 },
       eofToken 1 ((ascii "a b").length + 3)] :=
  C4_string_token (ascii "a b") (by decide)

/-- C5: an identifier of a letter and letters or digits, a space, an operator
character, a space and a non-empty string of digits are tokenized into
exactly the four tokens `IDENTIFIER`, `OPERATOR`, `NUMBER`, `END_OF_FILE`, in
that order, with the identifier, the operator and the digits as contents. -/
theorem C5_identifier_operator_number (c : Nat) (cs : List Nat) (o d : Nat) (ds : List Nat)
    (hc : isLetter c = true) (hcs : ∀ x ∈ cs, isLetterOrDigit x = true)
    (ho : o ∈ [43, 45, 42, 47, 61]) (hd : isDigit d = true)
    (hds : ∀ x ∈ ds, isDigit x = true) :
    tokenize (c :: cs ++ [32] ++ [o] ++ [32] ++ d :: ds) = Res.ok
      [{ token_type := IDENTIFIER, content := c :: cs, line_number := 1,
         char_number := cs.length + 2 },
       { token_type := OPERATOR, content := [o], line_number := 1,
         char_number := cs.length + 4 },
       { token_type := NUMBER, content := d :: ds, line_number := 1,
         char_number := cs.length + ds.length + 6 },
       eofToken 1 (cs.length + ds.length + 6)] := by
  have hca := isLetter_ascii hc
  have hda := isDigit_ascii hd
  have ho128 : o < 128 ∧ isLayout o = false := by
    simp only [List.mem_cons, List.mem_singleton, List.not_mem_nil, or_false] at ho
    rcases ho with rfl | rfl | rfl | rfl | rfl <;> decide
  have hlen : (c :: cs ++ [32] ++ [o] ++ [32] ++ d :: ds).length
      = (cs.length + ds.length + 1) + 1 + 1 + 1 + 1 := by
    simp only [List.length_append, List.length_cons, List.length_nil]
    omega
  generalize hF : (c :: cs ++ [32] ++ [o] ++ [32] ++ d :: ds).length + 1 = F
  have hFge : cs.length + ds.length + 6 = F := by rw [← hF, hlen]
  have hdrv : ∃ l1, whileLoop (fun l => Res.ok l.running) (getNextToken F)
      ((c :: cs ++ [32] ++ [o] ++ [32] ++ d :: ds).length + 1)
      (createLexer Lexer.zero (c :: cs ++ [32] ++ [o] ++ [32] ++ d :: ds)) = Res.ok l1 ∧
      l1.token_stream =
        [{ token_type := IDENTIFIER, content := c :: cs, line_number := 1,
           char_number := cs.length + 2 },
         { token_type := OPERATOR, content := [o], line_number := 1,
           char_number := cs.length + 4 },
         { token_type := NUMBER, content := d :: ds, line_number := 1,
           char_number := cs.length + ds.length + 6 }] ∧
      l1.line_number = 1 ∧ l1.char_number = cs.length + ds.length + 6 := by
    rw [hlen]
    have hcur0 := createLexer_cursor (c :: cs ++ [32] ++ [o] ++ [32] ++ d :: ds)
    generalize hl0 : createLexer Lexer.zero (c :: cs ++ [32] ++ [o] ++ [32] ++ d :: ds) = l0
      at hcur0 ⊢
    have e0 : l0.pos = 0 ∧ l0.skipped_chars = 0 ∧ l0.line_number = 1 ∧ l0.char_number = 1 ∧
        l0.buffer = [] ∧ l0.running = true ∧ l0.token_stream = [] ∧
        l0.input_length = cs.length + ds.length + 5 := by
      subst hl0
      refine ⟨rfl, rfl, rfl, rfl, rfl, rfl, rfl, ?_⟩
      show (c :: cs ++ [32] ++ [o] ++ [32] ++ d :: ds).length = _
      rw [hlen]
    obtain ⟨e0pos, e0sk, e0line, e0col, e0buf, e0run, e0toks, e0len⟩ := e0
    -- the identifier
    obtain ⟨l2, h1, t1⟩ := driver_token F (cs.length + ds.length + 1 + 1 + 1 + 1 + 1) l0 IDENTIFIER
      [] (c :: cs) (32 :: o :: 32 :: d :: ds) (by simpa using hcur0) e0buf e0run (by simp)
      (by
        simp only [List.cons_append]
        rw [decodeRuneInString_ascii _ hca.1]
        exact hca.2.1)
      (Nat.zero_le _)
      (by
        intro l1 hcur
        have hc1 : Cursor l1 (c :: (cs ++ 32 :: o :: 32 :: d :: ds)) := by simpa using hcur
        rw [dispatch_identifier _ l1 (by rw [hc1.cur_ascii hca.1]; exact hc)]
        have := recognizeIdentifierToken_spec F l1 c cs [] (32 :: o :: 32 :: d :: ds)
          (by simpa [underscoreGroups] using hcur) hca.1 hcs (by simp)
          (by rw [decodeRuneInString_ascii _ (by decide : 32 < 128)]; decide)
          (by rw [decodeRuneInString_ascii _ (by decide : 32 < 128)]; decide)
          (by simp only [underscoreGroups, List.append_nil, List.length_cons]; omega)
        simpa [underscoreGroups] using this)
    have r2 : l2.running = true := by
      rw [t1.run (by simp only [List.length_cons, List.length_nil]; omega), e0run]
    -- the operator
    obtain ⟨l3, h2, t2⟩ := driver_token F (cs.length + ds.length + 1 + 1 + 1 + 1) l2 OPERATOR
      [32] [o] (32 :: d :: ds) (by simpa using t1.cursor) t1.buf r2 (by simp; decide)
      (by
        simp only [List.cons_append, List.nil_append]
        rw [decodeRuneInString_ascii _ ho128.1]
        exact ho128.2)
      (by simp only [List.length_singleton]; omega)
      (by
        intro l1 hcur
        have hc1 : Cursor l1 (o :: 32 :: d :: ds) := by simpa using hcur
        rw [dispatch_operator _ l1 (by rw [hc1.cur_ascii ho128.1]; exact ho)]
        exact recognizeOperatorToken_spec l1 o _ hc1 ho128.1)
    have r3 : l3.running = true := by
      rw [t2.run (by
        rw [t1.pos, t1.skipped, t1.len]
        simp only [List.length_cons, List.length_nil]
        omega), r2]
    -- the number
    obtain ⟨l4, h3, t3⟩ := driver_token F (cs.length + ds.length + 1 + 1 + 1) l3 NUMBER
      [32] (d :: ds) [] (by simpa using t2.cursor) t2.buf r3 (by simp; decide)
      (by
        simp only [List.cons_append, List.append_nil]
        rw [decodeRuneInString_ascii _ hda.1]
        exact hda.2.1)
      (by simp only [List.length_singleton]; omega)
      (by
        intro l1 hcur
        have hc1 : Cursor l1 (d :: ds) := by simpa using hcur
        rw [dispatch_number _ l1 (by rw [hc1.cur_ascii hda.1]; exact hd)]
        exact recognizeNumberToken_digits F l1 d ds hc1 hd hds (by omega))
    obtain ⟨l5, h4, _, h5, h6, h7, _⟩ :=
      driver_finish F (cs.length + ds.length + 1 + 1) l4 t3.cursor
    refine ⟨l5, by rw [h1, h2, h3, h4], ?_, ?_, ?_⟩
    · have hf1 : (c :: cs).filter (fun c => !isLayout c) = c :: cs :=
        filter_nonLayout (fun x hx => by
          rcases List.mem_cons.mp hx with rfl | hx
          · exact hca.2.1
          · exact (isLetterOrDigit_ascii (hcs x hx)).2.1)
      have hf2 : [o].filter (fun c => !isLayout c) = [o] :=
        filter_nonLayout (fun x hx => by
          rw [List.mem_singleton.mp hx]; exact ho128.2)
      have hf3 : (d :: ds).filter (fun c => !isLayout c) = d :: ds :=
        filter_nonLayout (fun x hx => by
          rcases List.mem_cons.mp hx with rfl | hx
          · exact hda.2.1
          · exact (isDigit_ascii (hds x hx)).2.1)
      rw [h5, t3.toks, t2.toks, t1.toks, e0toks, hf1, hf2, hf3, t2.line, t1.line, e0line,
        t2.col, t1.col, e0col]
      simp only [List.length_cons, List.length_nil, List.nil_append, List.cons_append,
        List.cons.injEq, Token.mk.injEq, and_true, true_and]
      omega
    · rw [h6, t3.line, t2.line, t1.line, e0line]
    · rw [h7, t3.col, t2.col, t1.col, e0col]
      simp only [List.length_cons, List.length_nil]
      omega
  obtain ⟨l1, h1, h2, h3, h4⟩ := hdrv
  rw [← hF] at h1
  rw [(tokenize_of_driver h1).2, h2, h3, h4]
  rfl

/-- Witness of C5 on the input `x = 5`. -/
theorem C5_witness :
    tokenize (ascii "x = 5") = Res.ok
      [⟨IDENTIFIER, ascii "x", 1, 2⟩, ⟨OPERATOR, ascii "=", 1, 4⟩, ⟨NUMBER, ascii "5", 1, 6⟩,
        eofToken 1 6] :=
  C5_identifier_operator_number 120 [] 61 53 [] (by decide) (by decide) (by decide)
    (by decide) (by decide)

/-- C6: when the input is layout followed by nothing, or by a character for
which the dispatch has no class, the pass completes with the running flag
cleared, the cursor at that character, and a token stream of exactly one
token, the end-of-file token. -/
theorem C6_halt_without_token (ws rest : List Nat) (hws : ∀ b ∈ ws, isLayout b = true)
    (hrest : rest = [] ∨ (isLayout (decodeRuneInString rest).1 = false ∧
      recognized (decodeRuneInString rest).1 = false)) :
    ∃ l, runLexer (ws ++ rest) = Res.ok l ∧ l.running = false ∧ l.pos = ws.length ∧
      l.token_stream = [eofToken 1 (ws.length + 1)] ∧
      tokenize (ws ++ rest) = Res.ok [eofToken 1 (ws.length + 1)] := by
  have hstop : isLayout (decodeRuneInString rest).1 = false ∧
      recognized (decodeRuneInString rest).1 = false := by
    rcases hrest with rfl | h
    · simp only [decodeRuneInString]
      decide
    · exact h
  obtain ⟨l1, h1, h2, h3, h4, h5, h6, _⟩ := driver_halt ((ws ++ rest).length + 1)
    (ws ++ rest).length (createLexer Lexer.zero (ws ++ rest)) ws rest
    (createLexer_cursor _) hws hstop.1 hstop.2
    (by simp only [List.length_append]; omega) rfl
  obtain ⟨hr, ht⟩ := tokenize_of_driver h1
  have hcol : l1.char_number = ws.length + 1 := by
    rw [h5]
    show 1 + ws.length = ws.length + 1
    omega
  have hline : l1.line_number = 1 := h4
  have htoks : l1.token_stream = [] := h3
  refine ⟨_, hr, h2, ?_, ?_, ?_⟩
  · show l1.pos = ws.length
    rw [h6]
    show 0 + ws.length = ws.length
    omega
  · show l1.token_stream ++ [_] = _
    rw [htoks, hline, hcol]
    rfl
  · rw [ht, htoks, hline, hcol]
    rfl

/-- Witness of C6 on the input ` @`. -/
theorem C6_witness :
    ∃ l, runLexer (ascii " " ++ ascii "@") = Res.ok l ∧ l.running = false ∧
      l.pos = (ascii " ").length ∧ l.token_stream = [eofToken 1 ((ascii " ").length + 1)] ∧
      tokenize (ascii " " ++ ascii "@") = Res.ok [eofToken 1 ((ascii " ").length + 1)] :=
  C6_halt_without_token (ascii " ") (ascii "@") (by decide) (Or.inr ⟨by decide, by decide⟩)

/-- C7: on the unterminated string literal `"abc` and on the unterminated
character literal `'a` the pass does not complete: `consumeCharacter` is called
with the cursor at the end of the input and indexes `input[pos]` out of range. -/
theorem C7_unterminated_literal_panics :
    tokenize (([34] ++ ascii "abc")) = Res.panic ∧ tokenize (([39] ++ ascii "a")) = Res.panic ∧
      consumeCharacter
        { createLexer Lexer.zero (([39] ++ ascii "a")) with
          pos := 2, current_char := RuneError, char_width := 0, char_number := 3,
          buffer := ([39] ++ ascii "a") } = Res.panic := by
  decide

/-- C8: the input `#c` newline `x` is tokenized into the end-of-file token
alone, while `x` is tokenized into an identifier and the end-of-file token:
`getNextToken` has no class for `#` and stops there. -/
theorem C8_comment_halts :
    tokenize ((ascii "#c" ++ [10] ++ ascii "x")) = Res.ok [eofToken 1 1] ∧
      tokenize (ascii "x") = Res.ok [⟨IDENTIFIER, ascii "x", 1, 2⟩, eofToken 1 2] ∧
      recognized 35 = false := by
  decide

/-- C9: on the input of four spaces, `a`, a space and `b` the pass ends after
the token `a` with the running flag cleared, the cursor at offset 5 and the
letter `b` unread: `pos + skipped_chars` is `4 + 4 > 7` when `a` is consumed. -/
theorem C9_stops_before_end :
    ∃ l, runLexer (ascii "    a b") = Res.ok l ∧ l.running = false ∧ l.pos = 5 ∧
      l.input.drop l.pos = ascii " b" ∧ l.skipped_chars = 4 ∧
      l.token_stream = [⟨IDENTIFIER, ascii "a", 1, 6⟩, eofToken 1 6] ∧
      recognized 98 = true := by
  refine ⟨_, rfl, ?_⟩
  decide

/-- The stamp of a token: in every state the driver reaches, a completed
`getNextToken` leaves the line counter at 1 and the column counter one past
the cursor, and the token it emits, if any, carries these counters as they are
after the recognizer returned. So in a completed pass every token carries
line 1, and every token other than the end-of-file token a column of at
least 2. -/
theorem token_stamp (input : List Nat) :
    (∀ (fuel : Nat) (l l1 : Lexer), Reachable input l → getNextToken fuel l = Res.ok l1 →
      l1.line_number = 1 ∧ l1.char_number = l1.pos + 1 ∧
        (l1.token_stream = l.token_stream ∨
          ∃ t, l1.token_stream = l.token_stream ++ [t] ∧ t.token_type ≠ END_OF_FILE ∧
            t.line_number = 1 ∧ t.char_number = l1.pos + 1 ∧ l.pos < l1.pos)) ∧
      ∀ toks, tokenize input = Res.ok toks →
        ∀ t ∈ toks, t.line_number = 1 ∧ (t.token_type ≠ END_OF_FILE → 2 ≤ t.char_number) := by
  constructor
  · intro fuel l l1 hr h
    have hp1 := reachable_position (Reachable.step fuel hr h)
    obtain ⟨_, _, hs⟩ := getNextToken_stream h
    refine ⟨hp1.1, hp1.2, ?_⟩
    rcases hs with hs | ⟨t, h1, h2, h3, h4, h5⟩
    · exact Or.inl hs
    · exact Or.inr ⟨t, h1, h2, h3.trans hp1.1, h4.trans hp1.2, h5⟩
  · intro toks h
    obtain ⟨l, hr, rfl⟩ := tokenize_ok h
    obtain ⟨l1, hd, rfl⟩ := runLexer_ok hr
    obtain ⟨h1, _, ts, h3, h4⟩ := driver_positions hd rfl rfl
    intro t ht
    have ht1 : t ∈ l1.token_stream ++ [eofToken l1.line_number l1.char_number] := ht
    rw [h3] at ht1
    have h0 : (createLexer Lexer.zero input).token_stream = [] := rfl
    rw [h0, List.nil_append] at ht1
    rcases List.mem_append.mp ht1 with ht1 | ht1
    · exact ⟨(h4 t ht1).2.1, fun _ => (h4 t ht1).2.2⟩
    · rw [List.mem_singleton.mp ht1]
      exact ⟨h1, fun hk => absurd rfl hk⟩

/-- C10: the single token of the input `x`, which begins at line 1, column 1,
is recorded with column 2, and the token `b` of the input `a`, newline, `b`,
which begins at line 2, column 1, is recorded with line 1 and column 4:
`createToken` stamps the counters as they are after the lexeme was consumed,
`line_number` is never advanced and `char_number` is never reset. -/
theorem C10_position_not_token_start :
    tokenize (ascii "x") = Res.ok [⟨IDENTIFIER, ascii "x", 1, 2⟩, eofToken 1 2] ∧
      tokenize (ascii "a" ++ [10] ++ ascii "b") = Res.ok
        [⟨IDENTIFIER, ascii "a", 1, 2⟩, ⟨IDENTIFIER, ascii "b", 1, 4⟩, eofToken 1 4] := by
  decide

/-! ## Bytes and decoded characters -/

/-- A string that starts with a byte of 128 or more decodes to a character of
128 or more (`RuneError` for an invalid encoding). -/
theorem decode_nonascii (b : Nat) (t : List Nat) (hb : 128 ≤ b) :
    128 ≤ (decodeRuneInString (b :: t)).1 := by
  unfold decodeRuneInString
  have hb1 : ¬ b < 128 := by omega
  simp only [hb1, if_false]
  split_ifs <;> (try split) <;> (try split_ifs) <;> simp only [RuneError] <;> omega

/-- A decoded character below 128 is the first byte of the string. -/
theorem decode_ascii_inv (s : List Nat) (h : (decodeRuneInString s).1 < 128) :
    ∃ t, s = (decodeRuneInString s).1 :: t := by
  cases s with
  | nil => simp [decodeRuneInString, RuneError] at h
  | cons b t =>
    by_cases hb : b < 128
    · exact ⟨t, by rw [decodeRuneInString_ascii t hb]⟩
    · have := decode_nonascii b t (by omega)
      omega

/-- The first byte of a string whose decoded character is no layout is above 32. -/
theorem decode_nonLayout_byte (b : Nat) (t : List Nat)
    (h : isLayout (decodeRuneInString (b :: t)).1 = false) : 32 < b := by
  by_contra hb
  rw [decodeRuneInString_ascii t (by omega : b < 128)] at h
  simp only [isLayout, decide_eq_false_iff_not] at h
  omega

/-- The string conversion of a byte above 32 has only bytes above 32. -/
theorem runeToString_clean (b : Nat) (hb : 32 < b) : ∀ x ∈ runeToString b, 32 < x := by
  unfold runeToString
  split_ifs <;> intro x hx <;>
    simp only [List.mem_cons, List.mem_singleton, List.not_mem_nil, or_false] at hx <;>
    omega

/-- In a string of bytes above 32 every decoded character is above 32. -/
theorem decode_clean (b : Nat) (t : List Nat) (hb : 32 < b) :
    isLayout (decodeRuneInString (b :: t)).1 = false := by
  simp only [isLayout, decide_eq_false_iff_not, not_le]
  by_cases h : b < 128
  · rw [decodeRuneInString_ascii t h]
    exact hb
  · have := decode_nonascii b t (by omega)
    omega

/-! ## The text consumed between two offsets -/

theorem consumedText_add (input : List Nat) :
    ∀ (m p n : Nat), consumedText input p (m + n) =
      consumedText input p m ++ consumedText input (p + m) n := by
  intro m
  induction m with
  | zero => intro p n; simp [consumedText]
  | succ m ih =>
    intro p n
    rw [Nat.succ_add]
    simp only [consumedText, ih, List.append_assoc]
    rw [Nat.add_assoc p 1 m, Nat.add_comm 1 m]

/-- The text consumed inside the input has only bytes above 32. -/
theorem consumedText_clean (input : List Nat) :
    ∀ (n p : Nat), p + n ≤ input.length → ∀ x ∈ consumedText input p n, 32 < x := by
  intro n
  induction n with
  | zero => intro p _ x hx; simp [consumedText] at hx
  | succ n ih =>
    intro p hp x hx
    simp only [consumedText, List.mem_append] at hx
    rcases hx with hx | hx
    · have hlt : p < input.length := by omega
      have hd : input.drop p = input[p] :: input.drop (p + 1) := List.drop_eq_getElem_cons hlt
      have hg : input.getD p 0 = input[p] := List.getD_eq_getElem _ _ hlt
      rw [hd, hg] at hx
      split_ifs at hx with hl
      · simp at hx
      · exact runeToString_clean _
          (decode_nonLayout_byte _ _ (Bool.eq_false_iff.mpr hl)) x hx
    · exact ih (p + 1) (by omega) x hx

/-- Over layout characters nothing is consumed into the buffer. -/
theorem consumedText_layout (input : List Nat) :
    ∀ (n p : Nat),
      (∀ i, p ≤ i → i < p + n → isLayout (decodeRuneInString (input.drop i)).1 = true) →
      consumedText input p n = [] := by
  intro n
  induction n with
  | zero => intro p _; rfl
  | succ n ih =>
    intro p h
    simp only [consumedText, h p (le_refl _) (by omega), if_true, List.nil_append]
    exact ih (p + 1) (fun i h1 h2 => h i (by omega) (by omega))

/-- Over printable ASCII characters the text consumed is the input itself. -/
theorem consumedText_ascii (input : List Nat) :
    ∀ (n p : Nat), p + n ≤ input.length →
      (∀ i, p ≤ i → i < p + n →
        32 < (decodeRuneInString (input.drop i)).1 ∧
          (decodeRuneInString (input.drop i)).1 < 128) →
      consumedText input p n = (input.drop p).take n := by
  intro n
  induction n with
  | zero => intro p _ _; simp [consumedText]
  | succ n ih =>
    intro p hp h
    have hlt : p < input.length := by omega
    have hd : input.drop p = input[p] :: input.drop (p + 1) := List.drop_eq_getElem_cons hlt
    have hg : input.getD p 0 = input[p] := List.getD_eq_getElem _ _ hlt
    obtain ⟨h1, h2⟩ := h p (le_refl _) (by omega)
    obtain ⟨t, ht⟩ := decode_ascii_inv _ h2
    have hb : input[p] = (decodeRuneInString (input.drop p)).1 :=
      (List.cons.inj (hd.symm.trans ht)).1
    have hnl : isLayout (decodeRuneInString (input.drop p)).1 = false := by
      simp only [isLayout, decide_eq_false_iff_not]
      omega
    simp only [consumedText, hnl, Bool.false_eq_true, if_false, hg]
    rw [ih (p + 1) (by omega) (fun i h1 h2 => h i (by omega) (by omega))]
    rw [runeToString_ascii (by rw [hb]; exact h2), hd]
    rfl

/-! ## `Run` -/

theorem Run.rrefl (P : Nat → Prop) {l : Lexer} (h : Coherent l) : Run P l l where
  coherent := h
  input := rfl
  mono := le_refl _
  bound := fun h => absurd h (lt_irrefl _)
  buf := by simp [consumedText]
  chars := fun i h1 h2 => absurd (lt_of_le_of_lt h1 h2) (lt_irrefl _)
  toks := rfl
  start := rfl

theorem Run.rtrans {P : Nat → Prop} {a b c : Lexer} (h1 : Run P a b) (h2 : Run P b c) :
    Run P a c where
  coherent := h2.coherent
  input := h2.input.trans h1.input
  mono := le_trans h1.mono h2.mono
  bound := by
    intro h
    have hi := h1.input
    by_cases hbc : b.pos < c.pos
    · have := h2.bound hbc
      rw [hi] at this
      exact this
    · have hm := h2.mono
      have e : c.pos = b.pos := by omega
      rw [e]
      exact h1.bound (by omega)
  buf := by
    have hm1 := h1.mono
    have hm2 := h2.mono
    rw [h2.buf, h1.buf, h1.input, List.append_assoc]
    have e : c.pos - a.pos = (b.pos - a.pos) + (c.pos - b.pos) := by omega
    rw [e, consumedText_add]
    have e2 : a.pos + (b.pos - a.pos) = b.pos := by omega
    rw [e2]
  chars := by
    intro i hi1 hi2
    by_cases hb : i < b.pos
    · exact h1.chars i hi1 hb
    · have := h2.chars i (by omega) hi2
      rw [h1.input] at this
      exact this
  toks := h2.toks.trans h1.toks
  start := h2.start.trans h1.start

/-- One completed `consumeCharacter` from a coherent state. -/
theorem consume_run (P : Nat → Prop) {l l1 : Lexer} (hc : Coherent l) (hp : P l.current_char)
    (h : consumeCharacter l = Res.ok l1) : Run P l l1 ∧ l1.pos = l.pos + 1 := by
  obtain ⟨hlt, rfl⟩ := consumeCharacter_ok h
  refine ⟨⟨rfl, rfl, by simp [advance], fun _ => Nat.succ_le_of_lt hlt, ?_, ?_, rfl, rfl⟩, rfl⟩
  · have e : (advance l).pos - l.pos = 1 := by simp [advance]
    rw [e]
    simp only [consumedText, advance, List.append_nil]
    rw [← hc]
    split_ifs <;> simp
  · intro i h1 h2
    have e : i = l.pos := by
      have : (advance l).pos = l.pos + 1 := rfl
      omega
    rw [e, ← hc]
    exact hp

/-- A loop whose body is a `Run` from every coherent state where the condition
holds is a `Run`. -/
theorem whileLoop_run {cond : Lexer → Res Bool} {body : Lexer → Res Lexer} (P : Nat → Prop)
    (hbody : ∀ l l1, Coherent l → cond l = Res.ok true → body l = Res.ok l1 → Run P l l1)
    {fuel : Nat} {l l1 : Lexer} (hc : Coherent l)
    (h : whileLoop cond body fuel l = Res.ok l1) : Run P l l1 ∧ cond l1 = Res.ok false := by
  have := whileLoop_rel (fun a b => Coherent a → Run P a b) (fun a ha => Run.rrefl P ha)
    (fun a b c hab hbc ha => (hab ha).rtrans (hbc (hab ha).coherent))
    (fun a b hcond hb ha => hbody a b ha hcond hb) fuel l l1 h
  exact ⟨this.1 hc, this.2⟩

/-! ## Operator and separator characters -/

theorem isOperator_iff (c : Nat) : isOperator c = true ↔ c ∈ [43, 45, 42, 47, 61] := by
  unfold isOperator stringsContains runeToString
  split_ifs <;> simp [List.tails, List.isPrefixOf] <;> omega

theorem isSeparator_iff (c : Nat) : isSeparator c = true ↔ c ∈ [44, 123, 125, 40, 41] := by
  unfold isSeparator stringsContains runeToString
  split_ifs <;> simp [List.tails, List.isPrefixOf] <;> omega

theorem isOperator_ascii {c : Nat} (h : isOperator c = true) : 32 < c ∧ c < 128 := by
  have := (isOperator_iff c).mp h
  simp only [List.mem_cons, List.mem_singleton, List.not_mem_nil, or_false] at this
  omega

theorem isSeparator_ascii {c : Nat} (h : isSeparator c = true) : 32 < c ∧ c < 128 := by
  have := (isSeparator_iff c).mp h
  simp only [List.mem_cons, List.mem_singleton, List.not_mem_nil, or_false] at this
  omega

/-! ## Every recognizer as a `Run` -/

theorem peek_eq {l : Lexer} {p : Nat} (h : peek l 1 = Res.ok p) :
    p = (decodeRuneInString (l.input.drop (l.pos + 1))).1 := by
  unfold peek sliceFrom at h
  split_ifs at h
  simp only [Res.ok.injEq] at h
  exact h.symm

theorem consume_cur {l l1 : Lexer} (h : consumeCharacter l = Res.ok l1) :
    l1.current_char = (decodeRuneInString (l.input.drop (l.pos + 1))).1 := by
  obtain ⟨_, rfl⟩ := consumeCharacter_ok h
  rfl

/-- A loop `for p(self.current_char) { self.consumeCharacter() }` from a
coherent state. -/
theorem consumeLoop_run (P : Nat → Prop) (p : Nat → Bool) (hP : ∀ c, p c = true → P c)
    {fuel : Nat} {l l1 : Lexer} (hc : Coherent l)
    (h : whileLoop (fun l => Res.ok (p l.current_char)) consumeCharacter fuel l = Res.ok l1) :
    Run P l l1 ∧ p l1.current_char = false := by
  obtain ⟨h1, h2⟩ := whileLoop_run P (fun a b ha hcond hb =>
    (consume_run P ha (hP _ (by simpa using hcond)) hb).1) hc h
  exact ⟨h1, by simpa using h2⟩

theorem numberLoopBody_run (P : Nat → Prop) (hdig : ∀ c, isDigit c = true → P c) (hdot : P 46)
    {fuel : Nat} {l l1 : Lexer} (hc : Coherent l) (hd : isDigit l.current_char = true)
    (h : numberLoopBody fuel l = Res.ok l1) : Run P l l1 ∧ l.pos < l1.pos := by
  unfold numberLoopBody at h
  cases hp : peek l 1 with
  | ok p =>
    simp only [hp] at h
    split_ifs at h with h46
    · cases h1 : consumeCharacter l with
      | ok l2 =>
        simp only [h1] at h
        obtain ⟨r1, p1⟩ := consume_run P hc (hdig _ hd) h1
        have hcur2 : l2.current_char = 46 := by
          rw [consume_cur h1, ← peek_eq hp, h46]
        have hdl : digitLoop fuel l2 = Res.ok l2 :=
          whileLoop_done fuel l2 (by simp only [hcur2]; decide)
        simp only [hdl] at h
        obtain ⟨r2, p2⟩ := consume_run P r1.coherent (by rw [hcur2]; exact hdot) h
        exact ⟨r1.rtrans r2, by omega⟩
      | panic => simp [h1] at h
      | outOfFuel => simp [h1] at h
    · obtain ⟨r1, p1⟩ := consume_run P hc (hdig _ hd) h
      exact ⟨r1, by omega⟩
  | panic => simp [hp] at h
  | outOfFuel => simp [hp] at h

/-- The number recognizer from a coherent state: a `Run` over digits and dots,
then the token. -/
theorem recognizeNumberToken_run (P : Nat → Prop) (hdig : ∀ c, isDigit c = true → P c)
    (hdot : P 46) {fuel : Nat} {l l1 : Lexer} (hc : Coherent l) (h0 : P l.current_char)
    (h : recognizeNumberToken fuel l = Res.ok l1) :
    ∃ l3, Run P l l3 ∧ l.pos < l3.pos ∧
      l1 = createToken (flushBuffer l3).2 NUMBER (flushBuffer l3).1 := by
  unfold recognizeNumberToken at h
  cases h1 : consumeCharacter l with
  | ok l2 =>
    simp only [h1] at h
    obtain ⟨r1, p1⟩ := consume_run P hc h0 h1
    split_ifs at h with h46
    · cases h2 : consumeCharacter l2 with
      | ok l3 =>
        simp only [h2] at h
        obtain ⟨r2, p2⟩ := consume_run P r1.coherent (by rw [h46]; exact hdot) h2
        cases h3 : digitLoop fuel l3 with
        | ok l4 =>
          simp only [h3, Res.ok.injEq] at h
          obtain ⟨r3, _⟩ := consumeLoop_run P isDigit hdig r2.coherent h3
          have := r3.mono
          exact ⟨l4, (r1.rtrans r2).rtrans r3, by omega, h.symm⟩
        | panic => simp [h3] at h
        | outOfFuel => simp [h3] at h
      | panic => simp [h2] at h
      | outOfFuel => simp [h2] at h
    · cases h2 : whileLoop (fun l => Res.ok (isDigit l.current_char)) (numberLoopBody fuel)
          fuel l2 with
      | ok l3 =>
        simp only [h2, Res.ok.injEq] at h
        obtain ⟨r2, _⟩ := whileLoop_run P (fun a b ha hcond hb =>
          (numberLoopBody_run P hdig hdot ha (by simpa using hcond) hb).1) r1.coherent h2
        have := r2.mono
        exact ⟨l3, r1.rtrans r2, by omega, h.symm⟩
      | panic => simp [h2] at h
      | outOfFuel => simp [h2] at h
  | panic => simp [h1] at h
  | outOfFuel => simp [h1] at h

theorem underscoreCond_true {l : Lexer} (h : underscoreCond l = Res.ok true) :
    l.current_char = 95 := by
  unfold underscoreCond at h
  split_ifs at h with h95
  · exact h95
  · simp at h

theorem underscoreBody_run (P : Nat → Prop) (hld : ∀ c, isLetterOrDigit c = true → P c)
    (hu : P 95) {fuel : Nat} {l l1 : Lexer} (hc : Coherent l) (h95 : l.current_char = 95)
    (h : underscoreBody fuel l = Res.ok l1) : Run P l l1 := by
  unfold underscoreBody at h
  cases h1 : consumeCharacter l with
  | ok l2 =>
    simp only [h1] at h
    obtain ⟨r1, _⟩ := consume_run P hc (by rw [h95]; exact hu) h1
    obtain ⟨r2, _⟩ := consumeLoop_run P isLetterOrDigit hld r1.coherent h
    exact r1.rtrans r2
  | panic => simp [h1] at h
  | outOfFuel => simp [h1] at h

/-- The identifier recognizer from a coherent state: a `Run` over letters,
digits and underscores, then the token. -/
theorem recognizeIdentifierToken_run (P : Nat → Prop)
    (hld : ∀ c, isLetterOrDigit c = true → P c) (hu : P 95) {fuel : Nat} {l l1 : Lexer}
    (hc : Coherent l) (h0 : P l.current_char)
    (h : recognizeIdentifierToken fuel l = Res.ok l1) :
    ∃ l3, Run P l l3 ∧ l.pos < l3.pos ∧
      l1 = createToken (flushBuffer l3).2 IDENTIFIER (flushBuffer l3).1 := by
  unfold recognizeIdentifierToken at h
  cases h1 : consumeCharacter l with
  | ok l2 =>
    simp only [h1] at h
    obtain ⟨r1, p1⟩ := consume_run P hc h0 h1
    cases h2 : letterOrDigitLoop fuel l2 with
    | ok l3 =>
      simp only [h2] at h
      obtain ⟨r2, _⟩ := consumeLoop_run P isLetterOrDigit hld r1.coherent h2
      cases h3 : whileLoop underscoreCond (underscoreBody fuel) fuel l3 with
      | ok l4 =>
        simp only [h3, Res.ok.injEq] at h
        obtain ⟨r3, _⟩ := whileLoop_run P (fun a b ha hcond hb =>
          underscoreBody_run P hld hu ha (underscoreCond_true hcond) hb) r2.coherent h3
        have := r2.mono
        have := r3.mono
        exact ⟨l4, (r1.rtrans r2).rtrans r3, by omega, h.symm⟩
      | panic => simp [h3] at h
      | outOfFuel => simp [h3] at h
    | panic => simp [h2] at h
    | outOfFuel => simp [h2] at h
  | panic => simp [h1] at h
  | outOfFuel => simp [h1] at h

/-- The string recognizer from a coherent state. -/
theorem recognizeStringToken_run (P : Nat → Prop) (hall : ∀ c, P c) {fuel : Nat}
    {l l1 : Lexer} (hc : Coherent l) (h : recognizeStringToken fuel l = Res.ok l1) :
    ∃ l3, Run P l l3 ∧ l.pos < l3.pos ∧
      l1 = createToken (flushBuffer l3).2 STRING (flushBuffer l3).1 := by
  unfold recognizeStringToken at h
  cases h1 : consumeCharacter l with
  | ok l2 =>
    simp only [h1] at h
    obtain ⟨r1, p1⟩ := consume_run P hc (hall _) h1
    cases h2 : whileLoop (fun l => Res.ok (l.current_char != 34)) consumeCharacter fuel l2 with
    | ok l3 =>
      simp only [h2] at h
      obtain ⟨r2, _⟩ := consumeLoop_run P (fun c => c != 34) (fun c _ => hall c) r1.coherent h2
      cases h3 : consumeCharacter l3 with
      | ok l4 =>
        simp only [h3, Res.ok.injEq] at h
        obtain ⟨r3, p3⟩ := consume_run P r2.coherent (hall _) h3
        have := r2.mono
        exact ⟨l4, (r1.rtrans r2).rtrans r3, by omega, h.symm⟩
      | panic => simp [h3] at h
      | outOfFuel => simp [h3] at h
    | panic => simp [h2] at h
    | outOfFuel => simp [h2] at h
  | panic => simp [h1] at h
  | outOfFuel => simp [h1] at h

/-- The character recognizer from a coherent state. -/
theorem recognizeCharacterToken_run (P : Nat → Prop) (hall : ∀ c, P c) {l l1 : Lexer}
    (hc : Coherent l) (h : recognizeCharacterToken l = Res.ok l1) :
    ∃ l3, Run P l l3 ∧ l.pos < l3.pos ∧
      l1 = createToken (flushBuffer l3).2 CHARACTER (flushBuffer l3).1 := by
  unfold recognizeCharacterToken at h
  cases h1 : consumeCharacter l with
  | ok l2 =>
    simp only [h1] at h
    obtain ⟨r1, p1⟩ := consume_run P hc (hall _) h1
    split_ifs at h
    · cases h2 : consumeCharacter l2 with
      | ok l3 =>
        simp only [h2] at h
        obtain ⟨r2, p2⟩ := consume_run P r1.coherent (hall _) h2
        cases h3 : consumeCharacter l3 with
        | ok l4 =>
          simp only [h3, Res.ok.injEq] at h
          obtain ⟨r3, p3⟩ := consume_run P r2.coherent (hall _) h3
          exact ⟨l4, (r1.rtrans r2).rtrans r3, by omega, h.symm⟩
        | panic => simp [h3] at h
        | outOfFuel => simp [h3] at h
      | panic => simp [h2] at h
      | outOfFuel => simp [h2] at h
    · cases h3 : consumeCharacter l2 with
      | ok l4 =>
        simp only [h3, Res.ok.injEq] at h
        obtain ⟨r3, p3⟩ := consume_run P r1.coherent (hall _) h3
        exact ⟨l4, r1.rtrans r3, by omega, h.symm⟩
      | panic => simp [h3] at h
      | outOfFuel => simp [h3] at h
  | panic => simp [h1] at h
  | outOfFuel => simp [h1] at h

/-- The operator recognizer from a coherent state. -/
theorem recognizeOperatorToken_run (P : Nat → Prop) {l l1 : Lexer} (hc : Coherent l)
    (h0 : P l.current_char) (h : recognizeOperatorToken l = Res.ok l1) :
    ∃ l3, Run P l l3 ∧ l3.pos = l.pos + 1 ∧
      l1 = createToken (flushBuffer l3).2 OPERATOR (flushBuffer l3).1 := by
  unfold recognizeOperatorToken at h
  cases h1 : consumeCharacter l with
  | ok l2 =>
    simp only [h1, Res.ok.injEq] at h
    obtain ⟨r1, p1⟩ := consume_run P hc h0 h1
    exact ⟨l2, r1, p1, h.symm⟩
  | panic => simp [h1] at h
  | outOfFuel => simp [h1] at h

/-- The separator recognizer from a coherent state. -/
theorem recognizeSeparatorToken_run (P : Nat → Prop) {l l1 : Lexer} (hc : Coherent l)
    (h0 : P l.current_char) (h : recognizeSeparatorToken l = Res.ok l1) :
    ∃ l3, Run P l l3 ∧ l3.pos = l.pos + 1 ∧
      l1 = createToken (flushBuffer l3).2 SEPARATOR (flushBuffer l3).1 := by
  unfold recognizeSeparatorToken at h
  cases h1 : consumeCharacter l with
  | ok l2 =>
    simp only [h1, Res.ok.injEq] at h
    obtain ⟨r1, p1⟩ := consume_run P hc h0 h1
    exact ⟨l2, r1, p1, h.symm⟩
  | panic => simp [h1] at h
  | outOfFuel => simp [h1] at h

/-- A completed dispatch from a coherent state: either the current character
has no kind and only the running flag is cleared, or the recognizer of its
kind made a `Run` over characters of that kind and emitted the token. -/
theorem dispatch_run {fuel : Nat} {l l1 : Lexer} (hc : Coherent l)
    (h : dispatch fuel l = Res.ok l1) :
    (dispatchKind l.current_char = none ∧ l1 = { l with running := false }) ∨
      ∃ k l3, dispatchKind l.current_char = some k ∧ Run (lexemeChar k) l l3 ∧
        l.pos < l3.pos ∧ l1 = createToken (flushBuffer l3).2 k (flushBuffer l3).1 := by
  unfold dispatch at h
  unfold dispatchKind
  have hdig : ∀ k c, isDigit c = true → lexemeChar k c := fun k c hd =>
    Or.inr (Or.inr ⟨by have := (isDigit_ascii hd).2.1; simp [isLayout] at this; omega,
      (isDigit_ascii hd).1⟩)
  have hld : ∀ k c, isLetterOrDigit c = true → lexemeChar k c := fun k c hd =>
    Or.inr (Or.inr ⟨by have := (isLetterOrDigit_ascii hd).2.1; simp [isLayout] at this; omega,
      (isLetterOrDigit_ascii hd).1⟩)
  have hdot : ∀ k, lexemeChar k 46 := fun k => Or.inr (Or.inr ⟨by decide, by decide⟩)
  have hu : ∀ k, lexemeChar k 95 := fun k => Or.inr (Or.inr ⟨by decide, by decide⟩)
  split_ifs at h ⊢ with c1 c2 c3 c4 c5 c6
  · obtain ⟨l3, r, p, e⟩ := recognizeNumberToken_run (lexemeChar NUMBER) (hdig _) (hdot _) hc
      (by
        simp only [Bool.or_eq_true, decide_eq_true_eq] at c1
        rcases c1 with c1 | c1
        · exact hdig _ _ c1
        · rw [c1]; exact hdot _) h
    exact Or.inr ⟨_, l3, rfl, r, p, e⟩
  · obtain ⟨l3, r, p, e⟩ := recognizeIdentifierToken_run (lexemeChar IDENTIFIER) (hld _) (hu _)
      hc (by
        simp only [Bool.or_eq_true, decide_eq_true_eq] at c2
        rcases c2 with c2 | c2
        · exact hld _ _ c2
        · rw [c2]; exact hu _) h
    exact Or.inr ⟨_, l3, rfl, r, p, e⟩
  · obtain ⟨l3, r, p, e⟩ := recognizeStringToken_run (lexemeChar STRING)
      (fun _ => Or.inl rfl) hc h
    exact Or.inr ⟨_, l3, rfl, r, p, e⟩
  · obtain ⟨l3, r, p, e⟩ := recognizeCharacterToken_run (lexemeChar CHARACTER)
      (fun _ => Or.inr (Or.inl rfl)) hc h
    exact Or.inr ⟨_, l3, rfl, r, p, e⟩
  · obtain ⟨l3, r, p, e⟩ := recognizeOperatorToken_run (lexemeChar OPERATOR) hc
      (Or.inr (Or.inr (isOperator_ascii c5))) h
    exact Or.inr ⟨_, l3, rfl, r, by omega, e⟩
  · obtain ⟨l3, r, p, e⟩ := recognizeSeparatorToken_run (lexemeChar SEPARATOR) hc
      (Or.inr (Or.inr (isSeparator_ascii c6))) h
    exact Or.inr ⟨_, l3, rfl, r, by omega, e⟩
  · exact Or.inl ⟨rfl, (Res.ok.inj h).symm⟩

/-- The layout loop of `getNextToken` from a coherent state: the cursor moves
forward over layout, the buffer and the token stream are kept, and the current
character on exit is no layout. -/
theorem skipLoop_run {fuel : Nat} {l l2 : Lexer} (hc : Coherent l)
    (h : whileLoop (fun l => Res.ok (isLayout l.current_char)) skipBody fuel l = Res.ok l2) :
    Run (fun c => isLayout c = true) l l2 ∧ l2.buffer = l.buffer ∧
      isLayout l2.current_char = false := by
  obtain ⟨r, hx⟩ := whileLoop_run (fun c => isLayout c = true) (fun a b ha hcond hb => by
    unfold skipBody at hb
    cases h1 : consumeCharacter a with
    | ok a1 =>
      simp only [h1, Res.ok.injEq] at hb
      subst hb
      obtain ⟨r1, _⟩ := consume_run (fun c => isLayout c = true) ha (by simpa using hcond) h1
      exact ⟨r1.coherent, r1.input, r1.mono, r1.bound, r1.buf, r1.chars, r1.toks, r1.start⟩
    | panic => simp [h1] at hb
    | outOfFuel => simp [h1] at hb) hc h
  refine ⟨r, ?_, by simpa using hx⟩
  have hm := r.mono
  rw [r.buf, consumedText_layout l.input (l2.pos - l.pos) l.pos
    (fun i h1 h2 => r.chars i h1 (by omega))]
  simp

/-- A completed `getNextToken` from a coherent state, in full: the layout loop
led to a state `l2`, where the dispatch either halted or ran the recognizer of
the kind of the current character, which consumed a lexeme and emitted it. -/
theorem getNextToken_run {fuel : Nat} {l l1 : Lexer} (hc : Coherent l)
    (h : getNextToken fuel l = Res.ok l1) :
    ∃ l2, whileLoop (fun l => Res.ok (isLayout l.current_char)) skipBody fuel
        { l with start_pos := 0 } = Res.ok l2 ∧
      Coherent l2 ∧ l2.input = l.input ∧ l.pos ≤ l2.pos ∧ l2.buffer = l.buffer ∧
      l2.token_stream = l.token_stream ∧ isLayout l2.current_char = false ∧
      ((dispatchKind l2.current_char = none ∧
          l1 = { l2 with start_pos := l2.pos, running := false }) ∨
        ∃ k l3, dispatchKind l2.current_char = some k ∧
          Run (lexemeChar k) { l2 with start_pos := l2.pos } l3 ∧ l2.pos < l3.pos ∧
          l1 = createToken (flushBuffer l3).2 k (flushBuffer l3).1) := by
  unfold getNextToken at h
  cases h1 : whileLoop (fun l => Res.ok (isLayout l.current_char)) skipBody fuel
      { l with start_pos := 0 } with
  | ok l2 =>
    simp only [h1] at h
    have hc0 : Coherent { l with start_pos := 0 } := hc
    obtain ⟨r, hb, hl⟩ := skipLoop_run hc0 h1
    have hc2 : Coherent { l2 with start_pos := l2.pos } := r.coherent
    refine ⟨l2, rfl, r.coherent, r.input, r.mono, hb, r.toks, hl, ?_⟩
    rcases dispatch_run hc2 h with ⟨hk, he⟩ | ⟨k, l3, hk, r3, p3, he⟩
    · exact Or.inl ⟨hk, he⟩
    · exact Or.inr ⟨k, l3, hk, r3, p3, he⟩
  | panic => simp [h1] at h
  | outOfFuel => simp [h1] at h

/-! ## Character literals and trailing underscores -/

/-- The character recognizer in front of a quote, a letter or digit, and one
more ASCII byte: it consumes the three of them. -/
theorem recognizeCharacterToken_spec (l : Lexer) (c q : Nat) (suf : List Nat)
    (hc : Cursor l (39 :: c :: q :: suf)) (hld : isLetterOrDigit c = true) (hq : q < 128) :
    ∃ l1, recognizeCharacterToken l = Res.ok l1 ∧ Lexed l l1 CHARACTER [39, c, q] suf := by
  have hca := isLetterOrDigit_ascii hld
  obtain ⟨h1, h2, h3⟩ := consume_ascii hc (by decide)
  obtain ⟨h4, h5, h6⟩ := consume_ascii h2 hca.1
  obtain ⟨h7, h8, h9⟩ := consume_ascii h5 hq
  refine ⟨createToken (flushBuffer (advance (advance (advance l)))).2 CHARACTER
    (flushBuffer (advance (advance (advance l)))).1, ?_, ?_⟩
  · simp only [recognizeCharacterToken, h1, h2.cur_ascii hca.1, hld, if_true, h4, h7]
  · exact Lexed.of_steps CHARACTER ((h3.strans h6).strans h9) h8

theorem dispatch_character (F : Nat) (l : Lexer) (h : l.current_char = 39) :
    dispatch F l = recognizeCharacterToken l := by
  simp only [dispatch, h]
  rfl

theorem dispatch_underscore (F : Nat) (l : Lexer) (h : l.current_char = 95) :
    dispatch F l = recognizeIdentifierToken F l := by
  simp only [dispatch, h]
  rfl

/-- The identifier recognizer in front of a letter, letters and digits, and an
underscore that ends the input: it stops before the underscore. -/
theorem recognizeIdentifierToken_trailing (F : Nat) (l : Lexer) (c : Nat) (cs : List Nat)
    (hc : Cursor l (c :: cs ++ [95])) (h0 : c < 128)
    (hcs : ∀ x ∈ cs, isLetterOrDigit x = true) (hF : cs.length ≤ F) :
    ∃ l1, recognizeIdentifierToken F l = Res.ok l1 ∧ Lexed l l1 IDENTIFIER (c :: cs) [95] := by
  have hcur : Cursor l (c :: (cs ++ [95])) := by simpa using hc
  obtain ⟨h1, h2, h3⟩ := consume_ascii hcur h0
  obtain ⟨l2, h4, h5, h6⟩ := run_loop isLetterOrDigit cs F (advance l) [95] h2
    (fun x hx => ⟨hcs x hx, (isLetterOrDigit_ascii (hcs x hx)).1⟩)
    (by rw [decodeRuneInString_ascii _ (by decide : 95 < 128)]; decide) hF
  have hcond : underscoreCond l2 = Res.ok false := by
    have hp := peek_one h5
    simp only [underscoreCond, h5.cur_ascii (by decide), if_true, hp, decodeRuneInString]
    decide
  have h7 := @whileLoop_done underscoreCond (underscoreBody F) F l2 hcond
  refine ⟨createToken (flushBuffer l2).2 IDENTIFIER (flushBuffer l2).1, ?_, ?_⟩
  · have h4' : letterOrDigitLoop F (advance l) = Res.ok l2 := h4
    simp only [recognizeIdentifierToken, h1, h4', h7]
  · have hs := h3.strans h6
    exact Lexed.of_steps IDENTIFIER (by simpa using hs) h5

/-- C12: for every ASCII letter or digit `c`, the three bytes quote, `c`, quote
are tokenized into one `CHARACTER` token whose content is the whole input,
followed by the end-of-file token. -/
theorem C12_character_token (c : Nat) (hc : isLetterOrDigit c = true) :
    tokenize [39, c, 39] = Res.ok
      [{ token_type := CHARACTER, content := [39, c, 39], line_number := 1, char_number := 4 },
       eofToken 1 4] := by
  have hca := isLetterOrDigit_ascii hc
  have := tokenize_single [39, c, 39] CHARACTER (by simp)
    (by rw [decodeRuneInString_ascii _ (by decide : 39 < 128)]; decide)
    (by
      intro l1 hcur
      rw [dispatch_character _ l1 (hcur.cur_ascii (by decide))]
      exact recognizeCharacterToken_spec l1 c 39 [] hcur hc (by decide))
  rw [this]
  have h39 : isLayout 39 = false := by decide
  simp [List.filter_cons, h39, hca.2.1]

/-- Witness of C12 on the literal of the letter `a`. -/
theorem C12_witness :
    tokenize [39, 97, 39] = Res.ok
      [{ token_type := CHARACTER, content := [39, 97, 39], line_number := 1, char_number := 4 },
       eofToken 1 4] :=
  C12_character_token 97 (by decide)

/-- C13: for an ASCII letter followed by letters and digits and then one
underscore that ends the input, the first token is an `IDENTIFIER` token whose
content is the text before the underscore; the underscore is emitted as an
identifier token of its own, and the end-of-file token follows. -/
theorem C13_trailing_underscore (c : Nat) (cs : List Nat) (hc : isLetter c = true)
    (hcs : ∀ x ∈ cs, isLetterOrDigit x = true) :
    tokenize (c :: cs ++ [95]) = Res.ok
      [{ token_type := IDENTIFIER, content := c :: cs, line_number := 1,
         char_number := cs.length + 2 },
       { token_type := IDENTIFIER, content := [95], line_number := 1,
         char_number := cs.length + 3 },
       eofToken 1 (cs.length + 3)] := by
  have hca := isLetter_ascii hc
  have hlen : (c :: cs ++ [95]).length = cs.length + 1 + 1 := by simp
  generalize hF : (c :: cs ++ [95]).length + 1 = F
  have hFge : cs.length + 3 = F := by rw [← hF, hlen]
  have hdrv : ∃ l1, whileLoop (fun l => Res.ok l.running) (getNextToken F)
      ((c :: cs ++ [95]).length + 1) (createLexer Lexer.zero (c :: cs ++ [95])) = Res.ok l1 ∧
      l1.token_stream =
        [{ token_type := IDENTIFIER, content := c :: cs, line_number := 1,
           char_number := cs.length + 2 },
         { token_type := IDENTIFIER, content := [95], line_number := 1,
           char_number := cs.length + 3 }] ∧
      l1.line_number = 1 ∧ l1.char_number = cs.length + 3 := by
    rw [hlen]
    have hcur0 := createLexer_cursor (c :: cs ++ [95])
    generalize hl0 : createLexer Lexer.zero (c :: cs ++ [95]) = l0 at hcur0 ⊢
    have e0 : l0.pos = 0 ∧ l0.skipped_chars = 0 ∧ l0.line_number = 1 ∧ l0.char_number = 1 ∧
        l0.buffer = [] ∧ l0.running = true ∧ l0.token_stream = [] ∧
        l0.input_length = cs.length + 2 := by
      subst hl0
      refine ⟨rfl, rfl, rfl, rfl, rfl, rfl, rfl, ?_⟩
      show (c :: cs ++ [95]).length = _
      rw [hlen]
    obtain ⟨e0pos, e0sk, e0line, e0col, e0buf, e0run, e0toks, e0len⟩ := e0
    obtain ⟨l2, h1, t1⟩ := driver_token F (cs.length + 1 + 1) l0 IDENTIFIER
      [] (c :: cs) [95] (by simpa using hcur0) e0buf e0run (by simp)
      (by
        simp only [List.cons_append]
        rw [decodeRuneInString_ascii _ hca.1]
        exact hca.2.1)
      (Nat.zero_le _)
      (by
        intro l1 hcur
        have hc1 : Cursor l1 (c :: (cs ++ [95])) := by simpa using hcur
        rw [dispatch_identifier _ l1 (by rw [hc1.cur_ascii hca.1]; exact hc)]
        exact recognizeIdentifierToken_trailing F l1 c cs (by simpa using hcur) hca.1 hcs
          (by omega))
    have r2 : l2.running = true := by
      rw [t1.run (by simp only [List.length_cons, List.length_nil]; omega), e0run]
    obtain ⟨l3, h2, t2⟩ := driver_token F (cs.length + 1) l2 IDENTIFIER
      [] [95] [] (by simpa using t1.cursor) t1.buf r2 (by simp)
      (by
        simp only [List.append_nil]
        rw [decodeRuneInString_ascii _ (by decide : 95 < 128)]
        decide)
      (Nat.zero_le _)
      (by
        intro l1 hcur
        have hc1 : Cursor l1 [95] := by simpa using hcur
        rw [dispatch_underscore _ l1 (hc1.cur_ascii (by decide))]
        have := recognizeIdentifierToken_spec F l1 95 [] [] []
          (by simpa [underscoreGroups] using hcur) (by decide) (by simp) (by simp)
          (by simp only [decodeRuneInString]; decide)
          (by simp only [decodeRuneInString]; decide)
          (by simp only [underscoreGroups, List.append_nil, List.length_cons,
            List.length_nil]; omega)
        simpa [underscoreGroups] using this)
    obtain ⟨l4, h3, _, h5, h6, h7, _⟩ := driver_finish F cs.length l3 t2.cursor
    refine ⟨l4, by rw [h1, h2, h3], ?_, ?_, ?_⟩
    · have hf1 : (c :: cs).filter (fun c => !isLayout c) = c :: cs :=
        filter_nonLayout (fun x hx => by
          rcases List.mem_cons.mp hx with rfl | hx
          · exact hca.2.1
          · exact (isLetterOrDigit_ascii (hcs x hx)).2.1)
      have hf2 : [95].filter (fun c => !isLayout c) = [95] := by decide
      rw [h5, t2.toks, t1.toks, e0toks, hf1, hf2, t1.line, e0line, t1.col, e0col]
      simp only [List.length_cons, List.length_nil, List.nil_append, List.cons_append,
        List.cons.injEq, Token.mk.injEq, and_true, true_and]
      omega
    · rw [h6, t2.line, t1.line, e0line]
    · rw [h7, t2.col, t1.col, e0col]
      simp only [List.length_cons, List.length_nil]
      omega
  obtain ⟨l1, h1, h2, h3, h4⟩ := hdrv
  rw [← hF] at h1
  rw [(tokenize_of_driver h1).2, h2, h3, h4]
  rfl

/-- Witness of C13 on the input `abc_`. -/
theorem C13_witness :
    tokenize (ascii "abc_") = Res.ok
      [⟨IDENTIFIER, ascii "abc", 1, 4⟩, ⟨IDENTIFIER, ascii "_", 1, 5⟩, eofToken 1 5] :=
  C13_trailing_underscore 97 (ascii "bc") (by decide) (by decide)

/-! ## The states of the driver -/

/-- A completed dispatch, with the kind of the token: either the current
character has no kind and only the running flag is cleared, or the recognizer
of its kind ran and emitted one token of that kind. -/
theorem dispatch_kind {fuel : Nat} {l l1 : Lexer} (h : dispatch fuel l = Res.ok l1) :
    (dispatchKind l.current_char = none ∧ l1 = { l with running := false }) ∨
      ∃ k, dispatchKind l.current_char = some k ∧ Emitted l l1 k := by
  unfold dispatch at h
  unfold dispatchKind
  split_ifs at h ⊢ with c1 c2 c3 c4 c5 c6
  · exact Or.inr ⟨_, rfl, recognizeNumberToken_emitted h⟩
  · exact Or.inr ⟨_, rfl, recognizeIdentifierToken_emitted h⟩
  · exact Or.inr ⟨_, rfl, recognizeStringToken_emitted h⟩
  · exact Or.inr ⟨_, rfl, recognizeCharacterToken_emitted h⟩
  · exact Or.inr ⟨_, rfl, recognizeOperatorToken_emitted h⟩
  · exact Or.inr ⟨_, rfl, recognizeSeparatorToken_emitted h⟩
  · exact Or.inl ⟨rfl, (Res.ok.inj h).symm⟩

/-- The `if` chain of the dispatch chooses the kinds of the stated order. -/
theorem dispatchKind_eq_claimedKind (c : Nat) : dispatchKind c = claimedKind c := by
  unfold dispatchKind claimedKind
  have ho := isOperator_iff c
  have hs := isSeparator_iff c
  by_cases hd : isDigit c = true
  · simp [hd]
  · by_cases h46 : c = 46
    · simp [h46]
    · have hld : isLetterOrDigit c = isLetter c := by
        simp only [isLetterOrDigit, Bool.not_eq_true] at hd ⊢
        rw [hd]
        rfl
      by_cases hl : isLetter c = true
      · simp [hd, h46, hld, hl]
      · by_cases h95 : c = 95
        · simp [h95]
        · by_cases h34 : c = 34
          · simp [h34]
            decide
          · by_cases h39 : c = 39
            · simp [h39]
              decide
            · by_cases hop : isOperator c = true
              · have := ho.mp hop
                simp only [hd, h46, hld, hl, h95, h34, h39, hop, this, Bool.or_self,
                  Bool.false_eq_true, decide_False, if_false, if_true, or_self]
              · have hno : ¬ c ∈ [43, 45, 42, 47, 61] := fun hm => hop (ho.mpr hm)
                by_cases hsep : isSeparator c = true
                · have := hs.mp hsep
                  simp only [hd, h46, hld, hl, h95, h34, h39, hop, hno, hsep, this, Bool.or_self,
                    Bool.false_eq_true, decide_False, if_false, if_true, or_self]
                · have hns : ¬ c ∈ [44, 123, 125, 40, 41] := fun hm => hsep (hs.mpr hm)
                  simp only [hd, h46, hld, hl, h95, h34, h39, hop, hno, hsep, hns, Bool.or_self,
                    Bool.false_eq_true, decide_False, if_false, or_self]

/-- Every state the driver reaches is coherent, holds the input, has the
cursor within the input and an empty buffer, and no token of its stream has a
byte of 32 or less in its content. -/
theorem reachable_clean {input : List Nat} {l : Lexer} (h : Reachable input l) :
    Coherent l ∧ l.input = input ∧ l.pos ≤ input.length ∧ l.buffer = [] ∧
      ∀ t ∈ l.token_stream, ∀ b ∈ t.content, 32 < b := by
  induction h with
  | init => exact ⟨rfl, rfl, Nat.zero_le _, rfl, by simp [createLexer, Lexer.zero]⟩
  | @step l l1 fuel _ hg ih =>
    obtain ⟨hc, hin, hp, hb, ht⟩ := ih
    obtain ⟨l2, _, hc2, hin2, hm2, hb2, ht2, _, hcase⟩ := getNextToken_run hc hg
    obtain ⟨hin1, hp1, _, _⟩ := getNextToken_progress hg (by rw [hin]; exact hp)
    have hpos : l1.pos ≤ input.length := by
      rw [hin1, hin] at hp1
      exact hp1
    rcases hcase with ⟨_, rfl⟩ | ⟨k, l3, _, r3, p3, rfl⟩
    · exact ⟨hc2, hin2.trans hin, hpos, hb2.trans hb, by
        intro t hx
        exact ht t (by rw [← ht2]; exact hx)⟩
    · refine ⟨r3.coherent, hin1.trans hin, hpos, rfl, ?_⟩
      intro t hx
      have hx1 : t ∈ l3.token_stream ++
          [⟨k, l3.buffer, l3.line_number, l3.char_number⟩] := hx
      rcases List.mem_append.mp hx1 with hx1 | hx1
      · have e : l3.token_stream = l.token_stream := r3.toks.trans ht2
        rw [e] at hx1
        exact ht t hx1
      · rw [List.mem_singleton.mp hx1]
        intro b hbm
        have hbuf : l3.buffer = l2.buffer ++ consumedText l2.input l2.pos (l3.pos - l2.pos) :=
          r3.buf
        rw [hbuf, hb2, hb, List.nil_append] at hbm
        have hbound : l3.pos ≤ l2.input.length := r3.bound p3
        exact consumedText_clean l2.input _ _ (by omega) b hbm

/-- The driver loop leads from a reachable state to a reachable state. -/
theorem driver_reachable {input : List Nat} {F fuel : Nat} {l l1 : Lexer}
    (hr : Reachable input l)
    (h : whileLoop (fun l => Res.ok l.running) (getNextToken F) fuel l = Res.ok l1) :
    Reachable input l1 :=
  (whileLoop_rel (fun a b => Reachable input a → Reachable input b) (fun _ ha => ha)
    (fun _ _ _ hab hbc ha => hbc (hab ha))
    (fun _ _ _ hb ha => Reachable.step F ha hb) fuel l l1 h).1 hr

/-- In a string of bytes above 32 the character decoded at any offset is no
layout. -/
theorem content_clean (s : List Nat) (h : ∀ b ∈ s, 32 < b) (i : Nat) (hi : i < s.length) :
    isLayout (decodeRuneInString (s.drop i)).1 = false := by
  rw [List.drop_eq_getElem_cons hi]
  exact decode_clean _ _ (h _ (List.getElem_mem _))

/-! ## The claims, continued -/

/-- C11: in the token stream of a completed pass no token has a byte of 32 or
less in its content, so the character decoded at any offset of a content is no
layout character; this covers every kind of token and every input byte. -/
theorem C11_no_layout_in_content (input : List Nat) (toks : List Token)
    (h : tokenize input = Res.ok toks) :
    ∀ t ∈ toks, (∀ b ∈ t.content, 32 < b) ∧
      ∀ i, i < t.content.length → isLayout (decodeRuneInString (t.content.drop i)).1 = false := by
  obtain ⟨l, hr, rfl⟩ := tokenize_ok h
  obtain ⟨l1, hd, rfl⟩ := runLexer_ok hr
  have hclean := (reachable_clean (driver_reachable Reachable.init hd)).2.2.2.2
  have hall : ∀ t ∈ l1.token_stream ++ [eofToken l1.line_number l1.char_number],
      ∀ b ∈ t.content, 32 < b := by
    intro t ht
    rcases List.mem_append.mp ht with ht | ht
    · exact hclean t ht
    · rw [List.mem_singleton.mp ht]
      show ∀ b ∈ eofContent, 32 < b
      decide
  intro t ht
  exact ⟨hall t ht, fun i hi => content_clean t.content (hall t ht) i hi⟩

/-- Witness of C11 on the string literal `"a b"`, whose token has the content
`"ab"`. -/
theorem C11_witness :
    tokenize ([34] ++ ascii "a b" ++ [34]) =
        Res.ok [⟨STRING, [34] ++ ascii "ab" ++ [34], 1, 6⟩, eofToken 1 6] ∧
      ∀ t ∈ [(⟨STRING, [34] ++ ascii "ab" ++ [34], 1, 6⟩ : Token), eofToken 1 6],
        (∀ b ∈ t.content, 32 < b) ∧
        ∀ i, i < t.content.length →
          isLayout (decodeRuneInString (t.content.drop i)).1 = false :=
  ⟨by decide, C11_no_layout_in_content ([34] ++ ascii "a b" ++ [34]) _ (by decide)⟩

/-- The state `getNextToken` leaves on the input `5`. -/
theorem getNextToken_five :
    getNextToken 2 (createLexer Lexer.zero (ascii "5")) = Res.ok
      { input := [53], input_length := 1, pos := 1, line_number := 1, char_number := 2,
        start_pos := 0, current_char := 65533, running := true, buffer := [],
        skipped_chars := 0, char_width := 0, token_stream := [⟨NUMBER, [53], 1, 2⟩] } := by
  decide

/-- C14: a completed `getNextToken` dispatches on the current character `c`
that its layout loop stops at: it emits one token, of kind `NUMBER` when `c` is
a digit or a dot, `IDENTIFIER` when `c` is an ASCII letter or an underscore,
`STRING` for a double quote, `CHARACTER` for a single quote, `OPERATOR` for one
of `+ - * / =` and `SEPARATOR` for one of `, { } ( )`; for any other `c` it
emits no token, leaves the cursor where the layout loop stopped and clears the
running flag. A digit always gives a `NUMBER` token. -/
theorem C14_dispatch_priority (F : Nat) (l l1 : Lexer) (h : getNextToken F l = Res.ok l1) :
    ∃ l2, whileLoop (fun l => Res.ok (isLayout l.current_char)) skipBody F
        { l with start_pos := 0 } = Res.ok l2 ∧
      isLayout l2.current_char = false ∧
      (∀ k, claimedKind l2.current_char = some k →
        ∃ t, l1.token_stream = l.token_stream ++ [t] ∧ t.token_type = k) ∧
      (claimedKind l2.current_char = none →
        l1.token_stream = l.token_stream ∧ l1.pos = l2.pos ∧ l1.running = false) ∧
      (isDigit l2.current_char = true →
        ∃ t, l1.token_stream = l.token_stream ++ [t] ∧ t.token_type = NUMBER) := by
  unfold getNextToken at h
  cases h1 : whileLoop (fun l => Res.ok (isLayout l.current_char)) skipBody F
      { l with start_pos := 0 } with
  | ok l2 =>
    simp only [h1] at h
    obtain ⟨q, hx⟩ := whileLoop_rel Quiet Quiet.qrefl (fun _ _ _ => Quiet.qtrans)
      (fun _ _ _ hb => skipBody_quiet hb) F _ l2 h1
    have ht2 : l2.token_stream = l.token_stream := q.toks
    have hkinds : ∀ k, claimedKind l2.current_char = some k →
        ∃ t, l1.token_stream = l.token_stream ++ [t] ∧ t.token_type = k := by
      intro k hk
      rw [← dispatchKind_eq_claimedKind] at hk
      rcases dispatch_kind h with ⟨hn, _⟩ | ⟨k1, hk1, l3, q3, _, rfl⟩
      · have hn1 : dispatchKind l2.current_char = none := hn
        rw [hn1] at hk
        exact absurd hk (by simp)
      · have hk2 : dispatchKind l2.current_char = some k1 := hk1
        rw [hk2] at hk
        have e : k1 = k := Option.some.inj hk
        refine ⟨⟨k1, l3.buffer, l3.line_number, l3.char_number⟩, ?_, e⟩
        show l3.token_stream ++ [_] = _
        have e3 : l3.token_stream = l2.token_stream := q3.toks
        rw [e3, ht2]
        rfl
    refine ⟨l2, rfl, by simpa using hx, hkinds, ?_, ?_⟩
    · intro hk
      rw [← dispatchKind_eq_claimedKind] at hk
      rcases dispatch_kind h with ⟨_, rfl⟩ | ⟨k1, hk1, _⟩
      · exact ⟨ht2, rfl, rfl⟩
      · have hk2 : dispatchKind l2.current_char = some k1 := hk1
        rw [hk2] at hk
        exact absurd hk (by simp)
    · intro hd
      exact hkinds NUMBER (by simp [claimedKind, hd])
  | panic => simp [h1] at h
  | outOfFuel => simp [h1] at h

/-- Witness of C14 on the input `5`. -/
theorem C14_witness :
    ∃ l1, getNextToken 2 (createLexer Lexer.zero (ascii "5")) = Res.ok l1 ∧
      ∃ l2, whileLoop (fun l => Res.ok (isLayout l.current_char)) skipBody 2
          { createLexer Lexer.zero (ascii "5") with start_pos := 0 } = Res.ok l2 ∧
        isLayout l2.current_char = false ∧
        (∀ k, claimedKind l2.current_char = some k →
          ∃ t, l1.token_stream = (createLexer Lexer.zero (ascii "5")).token_stream ++ [t] ∧
            t.token_type = k) ∧
        (claimedKind l2.current_char = none →
          l1.token_stream = (createLexer Lexer.zero (ascii "5")).token_stream ∧
            l1.pos = l2.pos ∧ l1.running = false) ∧
        (isDigit l2.current_char = true →
          ∃ t, l1.token_stream = (createLexer Lexer.zero (ascii "5")).token_stream ++ [t] ∧
            t.token_type = NUMBER) :=
  ⟨_, getNextToken_five, C14_dispatch_priority 2 _ _ getNextToken_five⟩

/-- One `consumeCharacter` from a coherent state whose current character is
printable ASCII: it completes and puts that character into the buffer. -/
theorem consume_coherent_ascii {l : Lexer} (hc : Coherent l) (h1 : 32 < l.current_char)
    (h2 : l.current_char < 128) :
    consumeCharacter l = Res.ok (advance l) ∧
      (advance l).buffer = l.buffer ++ [l.current_char] := by
  have hc1 : l.current_char = (decodeRuneInString (l.input.drop l.pos)).1 := hc
  obtain ⟨t, ht⟩ := decode_ascii_inv (l.input.drop l.pos) (by rw [← hc1]; exact h2)
  rw [← hc1] at ht
  have hlt : l.pos < l.input.length := by
    by_contra hlt
    rw [List.drop_eq_nil_of_le (not_lt.mp hlt)] at ht
    exact List.cons_ne_nil _ _ ht.symm
  have hget : l.input.getD l.pos 0 = l.current_char := by
    rw [List.getD_eq_getElem _ _ hlt]
    have := List.drop_eq_getElem_cons hlt
    rw [ht] at this
    exact (List.cons.inj this).1.symm
  refine ⟨by rw [consumeCharacter_eq, if_pos hlt], ?_⟩
  have hnl : isLayout l.current_char = false := by
    simp only [isLayout, decide_eq_false_iff_not]
    omega
  simp only [advance, hnl, Bool.false_eq_true, if_false, hget, runeToString_ascii h2]

/-- C15: from a coherent state with an empty buffer whose current character is
one of `+ - * / =`, `recognizeOperatorToken` completes, appends exactly one
token, of kind `OPERATOR` with that character as its content, and moves the
cursor by exactly 1; the same holds for `recognizeSeparatorToken`, kind
`SEPARATOR` and the characters `, { } ( )`. The input `==` gives two `OPERATOR`
tokens. -/
theorem C15_single_character_tokens (l : Lexer) (hc : Coherent l) (hb : l.buffer = []) :
    (l.current_char ∈ [43, 45, 42, 47, 61] →
      ∃ l1, recognizeOperatorToken l = Res.ok l1 ∧
        l1.token_stream = l.token_stream ++
          [⟨OPERATOR, [l.current_char], l.line_number, l.char_number + 1⟩] ∧
        l1.pos = l.pos + 1 ∧ l1.buffer = []) ∧
    (l.current_char ∈ [44, 123, 125, 40, 41] →
      ∃ l1, recognizeSeparatorToken l = Res.ok l1 ∧
        l1.token_stream = l.token_stream ++
          [⟨SEPARATOR, [l.current_char], l.line_number, l.char_number + 1⟩] ∧
        l1.pos = l.pos + 1 ∧ l1.buffer = []) ∧
    tokenize (ascii "==") = Res.ok
      [⟨OPERATOR, ascii "=", 1, 2⟩, ⟨OPERATOR, ascii "=", 1, 3⟩, eofToken 1 3] := by
  refine ⟨?_, ?_, by decide⟩
  · intro hm
    obtain ⟨h1, h2⟩ := isOperator_ascii ((isOperator_iff _).mpr hm)
    obtain ⟨h3, h4⟩ := consume_coherent_ascii hc h1 h2
    refine ⟨createToken (flushBuffer (advance l)).2 OPERATOR (flushBuffer (advance l)).1,
      by simp only [recognizeOperatorToken, h3], ?_, rfl, rfl⟩
    show (advance l).token_stream ++ [⟨OPERATOR, (advance l).buffer, _, _⟩] = _
    rw [h4, hb]
    rfl
  · intro hm
    obtain ⟨h1, h2⟩ := isSeparator_ascii ((isSeparator_iff _).mpr hm)
    obtain ⟨h3, h4⟩ := consume_coherent_ascii hc h1 h2
    refine ⟨createToken (flushBuffer (advance l)).2 SEPARATOR (flushBuffer (advance l)).1,
      by simp only [recognizeSeparatorToken, h3], ?_, rfl, rfl⟩
    show (advance l).token_stream ++ [⟨SEPARATOR, (advance l).buffer, _, _⟩] = _
    rw [h4, hb]
    rfl

/-- Witness of C15 on the inputs `+` and `,`. -/
theorem C15_witness :
    (∃ l1, recognizeOperatorToken (createLexer Lexer.zero (ascii "+")) = Res.ok l1 ∧
      l1.token_stream = [] ++ [⟨OPERATOR, [43], 1, 1 + 1⟩] ∧ l1.pos = 0 + 1 ∧ l1.buffer = []) ∧
    (∃ l1, recognizeSeparatorToken (createLexer Lexer.zero (ascii ",")) = Res.ok l1 ∧
      l1.token_stream = [] ++ [⟨SEPARATOR, [44], 1, 1 + 1⟩] ∧ l1.pos = 0 + 1 ∧ l1.buffer = []) :=
  ⟨(C15_single_character_tokens (createLexer Lexer.zero (ascii "+")) rfl rfl).1 (by decide),
    (C15_single_character_tokens (createLexer Lexer.zero (ascii ",")) rfl rfl).2.1 (by decide)⟩

/-- C16: in every state the driver reaches from a fresh lexer the buffer is
empty, so it is empty before and after every completed `getNextToken`; and the
content of the token such a call emits is exactly the text consumed between
`start_pos`, where the layout loop stopped, and the cursor after the
recognizer. -/
theorem C16_buffer_empty_between_tokens (input : List Nat) (F : Nat) (l l1 : Lexer)
    (hr : Reachable input l) (h : getNextToken F l = Res.ok l1) :
    l.buffer = [] ∧ l1.buffer = [] ∧
      (l1.token_stream = l.token_stream ∨
        ∃ t, l1.token_stream = l.token_stream ++ [t] ∧ l.pos ≤ l1.start_pos ∧
          l1.start_pos < l1.pos ∧ l1.pos ≤ input.length ∧
          t.content = consumedText input l1.start_pos (l1.pos - l1.start_pos)) := by
  obtain ⟨hc, hin, _, hb, _⟩ := reachable_clean hr
  obtain ⟨_, _, hp1, hb1, _⟩ := reachable_clean (Reachable.step F hr h)
  refine ⟨hb, hb1, ?_⟩
  obtain ⟨l2, _, _, hin2, hm2, hb2, ht2, _, hcase⟩ := getNextToken_run hc h
  rcases hcase with ⟨_, rfl⟩ | ⟨k, l3, _, r3, p3, rfl⟩
  · exact Or.inl ht2
  · refine Or.inr ⟨⟨k, l3.buffer, l3.line_number, l3.char_number⟩, ?_, ?_, ?_, hp1, ?_⟩
    · show l3.token_stream ++ [_] = _
      have e3 : l3.token_stream = l2.token_stream := r3.toks
      rw [e3, ht2]
      rfl
    · show l.pos ≤ l3.start_pos
      have e : l3.start_pos = l2.pos := r3.start
      omega
    · show l3.start_pos < l3.pos
      have e : l3.start_pos = l2.pos := r3.start
      omega
    · show l3.buffer = consumedText input l3.start_pos (l3.pos - l3.start_pos)
      have e : l3.start_pos = l2.pos := r3.start
      have hbuf : l3.buffer = l2.buffer ++ consumedText l2.input l2.pos (l3.pos - l2.pos) :=
        r3.buf
      rw [hbuf, hb2, hb, List.nil_append, e, hin2, hin]

/-- Witness of C16 on the first `getNextToken` of the input `5`. -/
theorem C16_witness :
    ∃ l1, getNextToken 2 (createLexer Lexer.zero (ascii "5")) = Res.ok l1 ∧
      (createLexer Lexer.zero (ascii "5")).buffer = [] ∧ l1.buffer = [] ∧
      (l1.token_stream = (createLexer Lexer.zero (ascii "5")).token_stream ∨
        ∃ t, l1.token_stream = (createLexer Lexer.zero (ascii "5")).token_stream ++ [t] ∧
          (createLexer Lexer.zero (ascii "5")).pos ≤ l1.start_pos ∧
          l1.start_pos < l1.pos ∧ l1.pos ≤ (ascii "5").length ∧
          t.content = consumedText (ascii "5") l1.start_pos (l1.pos - l1.start_pos)) :=
  ⟨_, getNextToken_five,
    C16_buffer_empty_between_tokens (ascii "5") 2 _ _ Reachable.init getNextToken_five⟩

/-- C17: on the two bytes `C3 A9` (the letter e with an acute accent, decoded
with width 2) a completed `consumeCharacter` moves the cursor by 1, not by the
width: the next current character is `RuneError`, decoded in the middle of the
letter, and the buffer holds the string conversion `C3 83` of the first byte.
Every completed `consumeCharacter` moves the cursor by exactly 1. -/
theorem C17_advances_one_byte :
    (createLexer Lexer.zero [0xC3, 0xA9]).current_char = 0xE9 ∧
      (createLexer Lexer.zero [0xC3, 0xA9]).char_width = 2 ∧
      consumeCharacter (createLexer Lexer.zero [0xC3, 0xA9]) = Res.ok
        { input := [0xC3, 0xA9], input_length := 2, pos := 1, line_number := 1,
          char_number := 2, start_pos := 0, current_char := RuneError, running := true,
          buffer := [0xC3, 0x83], skipped_chars := 0, char_width := 1, token_stream := [] } ∧
      ∀ l l1 : Lexer, consumeCharacter l = Res.ok l1 → l1.pos = l.pos + 1 := by
  refine ⟨by decide, by decide, by decide, ?_⟩
  intro l l1 h
  obtain ⟨_, rfl⟩ := consumeCharacter_ok h
  rfl

/-- C18: on two comment lines in a row, `#a`, newline, `#b`, newline, `x`,
`skipLayoutAndComments` returns with the current character `#` of the second
comment at offset 3; on the single comment line `#a`, newline, `x` it returns
at `x`. -/
theorem C18_second_comment_not_skipped :
    (∃ l, skipLayoutAndComments 8
        (createLexer Lexer.zero (ascii "#a" ++ [10] ++ ascii "#b" ++ [10] ++ ascii "x"))
          = Res.ok l ∧ l.current_char = 35 ∧ l.pos = 3) ∧
      ∃ l, skipLayoutAndComments 5 (createLexer Lexer.zero (ascii "#a" ++ [10] ++ ascii "x"))
        = Res.ok l ∧ l.current_char = 120 ∧ l.pos = 3 := by
  refine ⟨⟨_, rfl, ?_⟩, ⟨_, rfl, ?_⟩⟩ <;> decide

/-- C19: a completed `consumeCharacter` moves the cursor forward by 1; a
completed `getNextToken` never moves the cursor back and either moves it
forward or clears the running flag; so for every input the loop of
`startLexing` completes or panics within `len(input) + 1` iterations, whatever
budget above the input length its inner loops have, and `runLexer` never uses
up its budget. -/
theorem C19_progress :
    (∀ l l1 : Lexer, consumeCharacter l = Res.ok l1 → l1.pos = l.pos + 1) ∧
      (∀ (F : Nat) (l l1 : Lexer), getNextToken F l = Res.ok l1 →
        l.pos ≤ l1.pos ∧ (l.pos < l1.pos ∨ l1.running = false)) ∧
      (∀ (input : List Nat) (F : Nat), input.length < F →
        whileLoop (fun l => Res.ok l.running) (getNextToken F) (input.length + 1)
          (createLexer Lexer.zero input) ≠ Res.outOfFuel) ∧
      ∀ input : List Nat, runLexer input ≠ Res.outOfFuel := by
  refine ⟨?_, ?_, ?_, runLexer_fuel⟩
  · intro l l1 h
    obtain ⟨_, rfl⟩ := consumeCharacter_ok h
    rfl
  · intro F l l1 h
    obtain ⟨l2, q, hc⟩ := getNextToken_cases h
    have := q.mono
    rcases hc with ⟨_, rfl⟩ | ⟨k, _, l3, q3, p3, rfl⟩
    · exact ⟨q.mono, Or.inr rfl⟩
    · have hp : l.pos < l3.pos := by omega
      exact ⟨le_of_lt hp, Or.inl hp⟩
  · intro input F hF
    exact driver_fuel input.length F hF (input.length + 1) _ rfl (Nat.zero_le _)
      (by simp [createLexer])

/-- Witness of C19 on the inputs `x` and `5`. -/
theorem C19_witness :
    (∃ l1, consumeCharacter (createLexer Lexer.zero (ascii "x")) = Res.ok l1 ∧
      l1.pos = (createLexer Lexer.zero (ascii "x")).pos + 1) ∧
    (∃ l1, getNextToken 2 (createLexer Lexer.zero (ascii "5")) = Res.ok l1 ∧
      (createLexer Lexer.zero (ascii "5")).pos ≤ l1.pos ∧
      ((createLexer Lexer.zero (ascii "5")).pos < l1.pos ∨ l1.running = false)) ∧
    whileLoop (fun l => Res.ok l.running) (getNextToken 2) ((ascii "5").length + 1)
      (createLexer Lexer.zero (ascii "5")) ≠ Res.outOfFuel :=
  ⟨⟨advance (createLexer Lexer.zero (ascii "x")), by decide,
      C19_progress.1 _ _ (by decide)⟩,
    ⟨_, getNextToken_five, C19_progress.2.1 2 _ _ getNextToken_five⟩,
    C19_progress.2.2.1 (ascii "5") 2 (by decide)⟩

/-- C20: when a completed `getNextToken` from a coherent state with an empty
buffer emits a token of kind `NUMBER`, `IDENTIFIER`, `OPERATOR` or `SEPARATOR`,
the content of the token is the input between `start_pos` and the cursor after
the recognizer, it is not empty, and its first byte is the character the
dispatch saw at `start_pos`. -/
theorem C20_content_is_input_slice (F : Nat) (l l1 : Lexer) (hc : Coherent l)
    (hb : l.buffer = []) (h : getNextToken F l = Res.ok l1) (t : Token)
    (ht : l1.token_stream = l.token_stream ++ [t])
    (hk : t.token_type ∈ [NUMBER, IDENTIFIER, OPERATOR, SEPARATOR]) :
    l1.start_pos < l1.pos ∧ l1.pos ≤ l.input.length ∧
      t.content = (l.input.drop l1.start_pos).take (l1.pos - l1.start_pos) ∧
      t.content ≠ [] ∧
      t.content.head? = some (decodeRuneInString (l.input.drop l1.start_pos)).1 := by
  obtain ⟨l2, _, _, hin2, hm2, hb2, ht2, _, hcase⟩ := getNextToken_run hc h
  rcases hcase with ⟨_, rfl⟩ | ⟨k, l3, _, r3, p3, rfl⟩
  · exfalso
    have e : l2.token_stream = l.token_stream ++ [t] := ht
    rw [ht2] at e
    have := congrArg List.length e
    simp at this
  · have e3 : l3.token_stream = l.token_stream := r3.toks.trans ht2
    have ht' : l3.token_stream ++ [⟨k, l3.buffer, l3.line_number, l3.char_number⟩]
        = l.token_stream ++ [t] := ht
    rw [e3] at ht'
    have et : t = ⟨k, l3.buffer, l3.line_number, l3.char_number⟩ := by
      have := List.append_cancel_left ht'
      exact (List.cons.inj this).1.symm
    subst et
    have hk' : k ∈ [NUMBER, IDENTIFIER, OPERATOR, SEPARATOR] := hk
    have hstart : l3.start_pos = l2.pos := r3.start
    have hbound : l3.pos ≤ l2.input.length := r3.bound p3
    have hchars : ∀ i, l2.pos ≤ i → i < l3.pos →
        32 < (decodeRuneInString (l2.input.drop i)).1 ∧
          (decodeRuneInString (l2.input.drop i)).1 < 128 := by
      intro i h1 h2
      rcases r3.chars i h1 h2 with hs | hs | hs
      · rw [hs] at hk'
        exact absurd hk' (by decide)
      · rw [hs] at hk'
        exact absurd hk' (by decide)
      · exact hs
    have hbuf : l3.buffer = (l2.input.drop l2.pos).take (l3.pos - l2.pos) := by
      have hb3 : l3.buffer = l2.buffer ++ consumedText l2.input l2.pos (l3.pos - l2.pos) :=
        r3.buf
      rw [hb3, hb2, hb, List.nil_append]
      exact consumedText_ascii l2.input _ _ (by omega)
        (fun i h1 h2 => hchars i h1 (by omega))
    obtain ⟨x1, x2⟩ := hchars l2.pos (le_refl _) p3
    obtain ⟨rest, hrest⟩ := decode_ascii_inv _ x2
    obtain ⟨n, hn⟩ : ∃ n, l3.pos - l2.pos = n + 1 := ⟨l3.pos - l2.pos - 1, by omega⟩
    have hbuf2 : l3.buffer =
        (decodeRuneInString (l2.input.drop l2.pos)).1 :: rest.take n := by
      rw [hbuf, hn]
      conv_lhs => rw [hrest]
      rfl
    refine ⟨?_, ?_, ?_, ?_, ?_⟩
    · show l3.start_pos < l3.pos
      omega
    · show l3.pos ≤ l.input.length
      rw [← hin2]
      exact hbound
    · show l3.buffer = (l.input.drop l3.start_pos).take (l3.pos - l3.start_pos)
      rw [hstart, ← hin2]
      exact hbuf
    · show l3.buffer ≠ []
      rw [hbuf2]
      exact List.cons_ne_nil _ _
    · show l3.buffer.head? = some (decodeRuneInString (l.input.drop l3.start_pos)).1
      rw [hstart, ← hin2, hbuf2]
      rfl

/-- Witness of C20 on the first `getNextToken` of the input `5`. -/
theorem C20_witness :
    ∃ l1, getNextToken 2 (createLexer Lexer.zero (ascii "5")) = Res.ok l1 ∧
      l1.start_pos < l1.pos ∧ l1.pos ≤ (createLexer Lexer.zero (ascii "5")).input.length ∧
      (⟨NUMBER, [53], 1, 2⟩ : Token).content =
        ((createLexer Lexer.zero (ascii "5")).input.drop l1.start_pos).take
          (l1.pos - l1.start_pos) ∧
      (⟨NUMBER, [53], 1, 2⟩ : Token).content ≠ [] ∧
      (⟨NUMBER, [53], 1, 2⟩ : Token).content.head? =
        some (decodeRuneInString
          ((createLexer Lexer.zero (ascii "5")).input.drop l1.start_pos)).1 :=
  ⟨_, getNextToken_five,
    C20_content_is_input_slice 2 (createLexer Lexer.zero (ascii "5")) _ rfl rfl
      getNextToken_five ⟨NUMBER, [53], 1, 2⟩ rfl (by decide)⟩

end Vident
